import Mathlib

/-!
Implicit-free-list allocator (`mm.c`): embedding and verified properties.

The allocator of `src/mm.c` is embedded as pure functions over an explicit
state.  Memory is a map from byte addresses to byte values; a word access
(`GET` / `PUT`) touches four consecutive bytes, little-endian.  Pointers and
`size_t` are 32-bit (the header layout of the file fixes `WSIZE = 4`), so
pointer and size arithmetic is reduced modulo `2^32` wherever the C code
computes it.

In this program the low bit of a header is SET for a FREE block (`mm_free`
and `extend_heap` write `PACK(size, 1)`, `place` writes `PACK(asize, 0)`, and
`find_fit` selects blocks whose bit is set).

The memory map is total: a read yields the bytes stored at any address.  One
read of the allocator takes its address from a word that can be user data:
`GET_ALLOC(FTRP(PREV_BLKP(bp)))` in `coalesce` starts from the word at
`bp - 8`, which is payload when the block before `bp` is allocated.  That read
is tested against the heap region (`prevReadOK`), and `mm_free` and
`mm_realloc` yield `none` when it falls outside (a memory fault).
-/

namespace MM

/-! ## Constants and macros -/

/-- The modulus of 32-bit pointer and `size_t` arithmetic. -/
def W32 : Nat := 4294967296

/-- Word size (bytes): `#define WSIZE 4`. -/
def WSIZE : Nat := 4
/-- Doubleword size (bytes): `#define DSIZE 8`. -/
def DSIZE : Nat := 8
/-- Initial heap size (bytes): `#define CHUNKSIZE (1<<12)`. -/
def CHUNKSIZE : Nat := 4096
/-- Overhead of header (bytes): `#define OVERHEAD 4`. -/
def OVERHEAD : Nat := 4

/-- The macro `MAX(x, y)`: `((x) > (y)? (x) : (y))`. -/
def MAX (x y : Nat) : Nat := if x > y then x else y

/-- The macro `PACK(size, alloc)`: `((size) | (alloc))`. -/
def PACK (size alloc : Nat) : Nat := size ||| alloc

/-- Pointer plus offset, modulo `2^32`. -/
def padd (p n : Nat) : Nat := (p + n) % W32

/-- Pointer minus offset, modulo `2^32`. -/
def psub (p n : Nat) : Nat := (p % W32 + (W32 - n % W32)) % W32

/-- The value of a pointer cast to `int` (two's complement, 32 bits). -/
def toInt (p : Nat) : Int :=
  if p % W32 < 2147483648 then ((p % W32 : Nat) : Int) else ((p % W32 : Nat) : Int) - 4294967296

/-- Byte-addressed memory. -/
abbrev Mem := Nat → Nat

/-- The macro `GET(p)`: read the 32-bit word stored at `p`. -/
def GET (m : Mem) (p : Nat) : Nat :=
  m p % 256 + 256 * (m (p + 1) % 256) + 65536 * (m (p + 2) % 256)
    + 16777216 * (m (p + 3) % 256)

/-- The macro `PUT(p, val)`: store the 32-bit word `val` at `p`. -/
def PUT (m : Mem) (p val : Nat) : Mem := fun a =>
  if a = p then val % 256
  else if a = p + 1 then val / 256 % 256
  else if a = p + 2 then val / 65536 % 256
  else if a = p + 3 then val / 16777216 % 256
  else m a

/-- The macro `GET_SIZE(p)`: `(GET(p) & ~0x7)`. -/
def GET_SIZE (m : Mem) (p : Nat) : Nat := GET m p &&& 4294967288

/-- The macro `GET_ALLOC(p)`: `(GET(p) & 0x1)`. -/
def GET_ALLOC (m : Mem) (p : Nat) : Nat := GET m p &&& 1

/-- The macro `HDRP(bp)`: `((char *)(bp) - WSIZE)`. -/
def HDRP (bp : Nat) : Nat := psub bp WSIZE

/-- The macro `FTRP(bp)`: `((char *)(bp) + GET_SIZE(HDRP(bp)) - DSIZE)`. -/
def FTRP (m : Mem) (bp : Nat) : Nat := psub (padd bp (GET_SIZE m (HDRP bp))) DSIZE

/-- The macro `NEXT_BLKP(bp)`: `((char *)(bp) + GET_SIZE(((char*)(bp) - WSIZE)))`. -/
def NEXT_BLKP (m : Mem) (bp : Nat) : Nat := padd bp (GET_SIZE m (psub bp WSIZE))

/-- The macro `PREV_BLKP(bp)`: `((char *)(bp) - GET_SIZE(((char*)(bp) - DSIZE)))`. -/
def PREV_BLKP (m : Mem) (bp : Nat) : Nat := psub bp (GET_SIZE m (psub bp DSIZE))

/-- The library routine `memcpy(dst, src, n)` on non-overlapping regions. -/
def memcpy (m : Mem) (dst src n : Nat) : Mem := fun a =>
  if dst ≤ a ∧ a < dst + n then m (src + (a - dst)) else m a

/-! ## State -/

/-- The allocator's state: the bytes of memory, the break and the limit of the
heap-growth primitive, and the global `heap_listp`. -/
structure State where
  /-- The bytes of memory. -/
  mem : Mem
  /-- The current break: one past the last byte of the heap. -/
  mem_brk : Nat
  /-- The highest break the growth primitive grants. -/
  mem_max_addr : Nat
  /-- The global `heap_listp`. -/
  heap_listp : Nat

/-- Modelled from the spec: the heap-growth primitive `mem_sbrk` of `memlib`
(`grow(n) -> base pointer | failure`, with a high-water mark that only
increases).  It returns the old break and advances it by `incr`, or refuses,
returning `(void *)-1` and changing nothing, when the limit would be passed. -/
def mem_sbrk (s : State) (incr : Nat) : Nat × State :=
  if s.mem_brk + incr > s.mem_max_addr then (W32 - 1, s)
  else (s.mem_brk, { s with mem_brk := s.mem_brk + incr })

/-- An upper bound on the iterations of a terminating block-chain loop: the
loops advance a pointer by multiples of 8 through memory they do not write, so
a loop that has not stopped after visiting all `2^29` residues never stops. -/
def loopFuel : Nat := 536870913

/-! ## The allocator -/

/-- The function `extend_heap(words)`: returns the block pointer (or `NULL`). -/
def extend_heap (s : State) (words : Nat) : Nat × State :=
  let size := if words % 2 ≠ 0 then ((words + 1) * WSIZE) % W32 else (words * WSIZE) % W32
  let r := mem_sbrk s size
  let bp := r.1
  let s1 := r.2
  if bp = W32 - 1 then (0, s1)
  else
    let m1 := PUT s1.mem (HDRP bp) (PACK size 1)
    let m2 := PUT m1 (HDRP (NEXT_BLKP m1 bp)) (PACK 0 0)
    (bp, { s1 with mem := m2 })

/-- The function `mm_init()`, with the constant `KEY` of the absent header as
a parameter; the state `s` is the one the growth primitive starts from. -/
def mm_init (KEY : Nat) (s : State) : Int × State :=
  let r := mem_sbrk s (4 * WSIZE)
  let p := r.1
  let s1 := { r.2 with heap_listp := p }
  if p = 0 then (-1, s1)
  else
    let m1 := PUT s1.mem p KEY
    let m2 := PUT m1 (padd p WSIZE) (PACK DSIZE 0)
    let m3 := PUT m2 (padd p DSIZE) (PACK 0 0)
    let m4 := PUT m3 (padd (padd p DSIZE) WSIZE) (PACK 0 0)
    let s2 := { s1 with mem := m4, heap_listp := padd p DSIZE }
    let e := extend_heap s2 (CHUNKSIZE / WSIZE)
    if e.1 = 0 then (-1, e.2) else (toInt e.2.heap_listp, e.2)

/-- The function `place(bp, asize)`. -/
def place (s : State) (bp asize : Nat) : State :=
  let csize := GET_SIZE s.mem (HDRP bp)
  if (csize + (W32 - asize % W32)) % W32 ≥ DSIZE then
    let m1 := PUT s.mem (HDRP bp) (PACK asize 0)
    let bp1 := NEXT_BLKP m1 bp
    { s with mem := PUT m1 (HDRP bp1) (PACK ((csize + (W32 - asize % W32)) % W32) 1) }
  else
    { s with mem := PUT s.mem (HDRP bp) (PACK csize 0) }

/-- The loop of `find_fit`; `none` when the fuel runs out. -/
def find_fit_loop (m : Mem) (asize : Nat) : Nat → Nat → Option Nat
  | 0, _ => none
  | fuel + 1, bp =>
    if GET_SIZE m (psub bp WSIZE) > 0 then
      if GET_ALLOC m (HDRP bp) ≠ 0 ∧ asize ≤ GET_SIZE m (HDRP bp) then some bp
      else find_fit_loop m asize fuel (NEXT_BLKP m bp)
    else some 0

/-- The function `find_fit(asize)`: `some 0` is `NULL`, `none` a search that
does not end. -/
def find_fit (s : State) (asize : Nat) : Option Nat :=
  find_fit_loop s.mem asize loopFuel s.heap_listp

/-- The adjusted block size computed by `mm_malloc` and `mm_realloc`. -/
def adjust (size : Nat) : Nat :=
  if size ≤ WSIZE then WSIZE + OVERHEAD
  else (DSIZE * (((size + OVERHEAD + (DSIZE - 1)) % W32) / DSIZE)) % W32

/-- The function `mm_malloc(size)`: the returned pointer (`0` is `NULL`) and
the new state; `none` when the search does not end. -/
def mm_malloc (s : State) (size : Nat) : Option (Nat × State) :=
  if size = 0 then some (0, s)
  else
    let asize := adjust size
    match find_fit s asize with
    | none => none
    | some bp =>
      if bp ≠ 0 then some (bp, place s bp asize)
      else
        let extendsize := MAX asize CHUNKSIZE
        let e := extend_heap s (extendsize / WSIZE)
        if e.1 = 0 then some (0, e.2)
        else some (e.1, place e.2 e.1 asize)

/-- The predecessor scan of `coalesce`: `hiFn` is the address of the function
`mem_heap_hi`, which the loop test casts to `int`. -/
def scan_loop (m : Mem) (hiFn bp : Nat) : Nat → Nat → Option Nat
  | 0, _ => none
  | fuel + 1, hp =>
    if toInt (NEXT_BLKP m hp) < toInt bp ∧ toInt hp < toInt hiFn then
      scan_loop m hiFn bp fuel (NEXT_BLKP m hp)
    else some hp

/-- The first half of `coalesce(bp, size)`: the four-way case analysis on
`prev_alloc` and `next_alloc`; returns the running `size` and the memory.
These are the values computed when the reads succeed; the reads through
`prev_blk`, whose address comes from the word at `bp - 8`, are tested against
the heap region by `prevReadOK` in `coalesce_run`. -/
def coalesce_next (s : State) (bp size : Nat) : Nat × Mem :=
  let prev_blk := PREV_BLKP s.mem bp
  let next_blk := NEXT_BLKP s.mem bp
  let prev_alloc : Bool :=
    GET_ALLOC s.mem (FTRP s.mem prev_blk) ≠ 0 || PREV_BLKP s.mem bp = bp
  let next_alloc : Bool := GET_ALLOC s.mem (HDRP next_blk) ≠ 0
  if prev_alloc && next_alloc then
    let size1 := (size + GET_SIZE s.mem (HDRP next_blk)) % W32
    let m1 := PUT s.mem (HDRP bp) (PACK size1 1)
    (size1, PUT m1 (FTRP m1 bp) (PACK size1 1))
  else if prev_alloc && !next_alloc then (size, s.mem)
  else if !prev_alloc && next_alloc then
    let size1 := (size + GET_SIZE s.mem (HDRP next_blk)) % W32
    let m1 := PUT s.mem (HDRP bp) (PACK size1 1)
    (size1, PUT m1 (FTRP m1 bp) (PACK size1 1))
  else (size, s.mem)

/-- The last step of `coalesce`: the test of the header of the block `hp` the
scan stopped at, and the write that merges it. -/
def coalesce_prev (m : Mem) (size hp : Nat) : Mem :=
  if GET_ALLOC m (HDRP hp) = 1 then
    PUT m (HDRP hp) (PACK ((size + GET_SIZE m (HDRP hp)) % W32) 1)
  else m

/-- The function `coalesce(bp, size)` on the contents of the memory: what it
computes when each of its reads yields the word stored at the address read.
Whether the reads through `prev_blk` stay inside the heap region is
`prevReadOK`; the call as the machine runs it is `coalesce_run`. -/
def coalesce (hiFn : Nat) (s : State) (bp size : Nat) : Option (Nat × State) :=
  let r := coalesce_next s bp size
  match scan_loop r.2 hiFn bp loopFuel s.heap_listp with
  | none => none
  | some hp => some (bp, { s with mem := coalesce_prev r.2 r.1 hp })

/-- Modelled from the spec: the heap region of the absent `memlib` (the growth
primitive has queryable low and high address bounds).  The word at address `a`
lies inside it: not below `heap_listp - 8`, the address the first `mem_sbrk` of
`mm_init` returned, and not beyond the limit `mem_max_addr`.  A read outside
the region is a memory fault. -/
def inHeap (s : State) (a : Nat) : Prop := s.heap_listp ≤ a + 8 ∧ a + 4 ≤ s.mem_max_addr

instance (s : State) (a : Nat) : Decidable (inHeap s a) := by
  unfold inHeap; infer_instance

/-- The two reads of `coalesce(bp, size)` whose address is computed from the
word at `bp - 8`, in `GET_ALLOC(FTRP(prev_blk))` with
`prev_blk = PREV_BLKP(bp)`: the header of `prev_blk` and the word at
`FTRP(prev_blk)` both lie inside the heap region.  The word at `bp - 8` is the
footer of the block before `bp` only if that block has one; for an allocated
block it is payload. -/
def prevReadOK (s : State) (bp : Nat) : Prop :=
  inHeap s (HDRP (PREV_BLKP s.mem bp)) ∧ inHeap s (FTRP s.mem (PREV_BLKP s.mem bp))

instance (s : State) (bp : Nat) : Decidable (prevReadOK s bp) := by
  unfold prevReadOK; infer_instance

/-- The call `coalesce(bp, size)` as the machine runs it: `none` when one of
the reads through `prev_blk` falls outside the heap region (a memory fault) or
when the scan does not end, otherwise the result of `coalesce`. -/
def coalesce_run (hiFn : Nat) (s : State) (bp size : Nat) : Option (Nat × State) :=
  if prevReadOK s bp then coalesce hiFn s bp size else none

/-- The function `mm_free(bp)`; `none` when the call of `coalesce` faults or
does not end. -/
def mm_free (hiFn : Nat) (s : State) (bp : Nat) : Option State :=
  if bp = 0 then some s
  else
    let size := GET_SIZE s.mem (HDRP bp)
    let m1 := PUT s.mem (HDRP bp) (PACK size 1)
    let m2 := PUT m1 (FTRP m1 bp) (PACK size 1)
    match coalesce_run hiFn { s with mem := m2 } bp size with
    | none => none
    | some r => some r.2

/-- The call `mm_free(bp)` reads no word outside the heap region: `bp` is
`NULL`, or the reads through `prev_blk` of its call of `coalesce`, made after
the header and the footer of `bp` are written, lie inside the heap region. -/
def freeReadOK (s : State) (bp : Nat) : Prop :=
  bp = 0 ∨
    prevReadOK
      (State.mk
        (PUT (PUT s.mem (HDRP bp) (PACK (GET_SIZE s.mem (HDRP bp)) 1))
          (FTRP (PUT s.mem (HDRP bp) (PACK (GET_SIZE s.mem (HDRP bp)) 1)) bp)
          (PACK (GET_SIZE s.mem (HDRP bp)) 1))
        s.mem_brk s.mem_max_addr s.heap_listp) bp

instance (s : State) (bp : Nat) : Decidable (freeReadOK s bp) := by
  unfold freeReadOK; infer_instance

/-- The function `mm_realloc(ptr, size)`. -/
def mm_realloc (hiFn : Nat) (s : State) (ptr size : Nat) : Option (Nat × State) :=
  if ptr = 0 then mm_malloc s size
  else
    match (if size = 0 then mm_free hiFn s ptr else some s) with
    | none => none
    | some s1 =>
      let old_size := GET_SIZE s1.mem (HDRP ptr)
      match mm_malloc s1 size with
      | none => none
      | some (new_bp, s2) =>
        let asize := adjust size
        if asize ≤ old_size then
          match mm_free hiFn s2 new_bp with
          | none => none
          | some s3 => some (ptr, place s3 ptr asize)
        else
          let s3 := { s2 with mem := memcpy s2.mem new_bp ptr old_size }
          match mm_free hiFn s3 ptr with
          | none => none
          | some s4 => some (new_bp, s4)

/-- A state of the growth primitive before `mm_init`: empty memory, the break
at `base`, room for `room` bytes. -/
def memInit (base room : Nat) : State :=
  { mem := fun _ => 0, mem_brk := base, mem_max_addr := base + room, heap_listp := 0 }

/-! ## Vocabulary of the properties -/

/-- A block as its header reads: the size and the low bit (1 for a free
block, 0 for an allocated one). -/
abbrev Blk := Nat × Nat

/-- Total size in bytes of a list of blocks. -/
def span : List Blk → Nat
  | [] => 0
  | b :: L => b.1 + span L

/-- The memory holds, from block pointer `bp` on, consecutive blocks whose
headers read as `L` lists them: sizes are non-zero multiples of 8 and the word
before each block pointer is the packed size and bit. -/
def Chain (m : Mem) : Nat → List Blk → Prop
  | _, [] => True
  | bp, b :: L =>
    GET m (bp - 4) = b.1 + b.2 ∧ 8 ≤ b.1 ∧ b.1 % 8 = 0 ∧ b.2 ≤ 1 ∧ Chain m (bp + b.1) L

/-- The blocks of a chain with their block pointers: (pointer, size, bit). -/
def blocksAt : Nat → List Blk → List (Nat × Nat × Nat)
  | _, [] => []
  | bp, b :: L => (bp, b.1, b.2) :: blocksAt (bp + b.1) L

/-- Well-formed heap with block list `L` (the blocks between the prologue and
the epilogue): the prologue header reads size 8 with the bit clear, the blocks
of `L` follow it contiguously, the zero epilogue header is the last word below
the break, and the break is within the limit of the 32-bit address space. -/
def HeapIs (s : State) (L : List Blk) : Prop :=
  8 ≤ s.heap_listp ∧ Chain s.mem s.heap_listp ((8, 0) :: L) ∧
  s.heap_listp + 8 + span L = s.mem_brk ∧ GET s.mem (s.mem_brk - 4) = 0 ∧
  s.mem_brk ≤ s.mem_max_addr ∧ s.mem_max_addr < W32

/-- The bound test of the predecessor scan of `coalesce`, `(int)hp <
(int)mem_heap_hi`, is true for every address `a` of the region `[lo, top)`;
`hiFn` is the address of the function `mem_heap_hi`. -/
def ScanOK (hiFn lo top : Nat) : Prop :=
  ∀ a, lo ≤ a → a < top → toInt a < toInt hiFn

/-- The blocks a free block of size `c` becomes when `place` puts an
allocated block of size `a` in it: split when the rest is at least 8 bytes. -/
def placed (a c : Nat) : List Blk :=
  if 8 ≤ c - a then [(a, 0), (c - a, 1)] else [(c, 0)]

/-- The freed block of size `sz` and the blocks after it: merged with the
successor when that is free. -/
def mergeNext (sz : Nat) : List Blk → List Blk
  | [] => [(sz, 1)]
  | b :: post => if b.2 = 1 then (sz + b.1, 1) :: post else (sz, 1) :: b :: post

/-- The blocks `pre` before a free block, followed by `rest` (which starts
with that free block): the last block of `pre` absorbs the head of `rest` when
it is free. -/
def mergePrev : List Blk → List Blk → List Blk
  | [], rest => rest
  | [b], rest =>
    match rest with
    | [] => [b]
    | x :: post => if b.2 = 1 then (b.1 + x.1, 1) :: post else b :: x :: post
  | b :: c :: pre, rest => b :: mergePrev (c :: pre) rest

/-- The chain after freeing the allocated block of size `sz` that stands
between `pre` and `post`: the freed block is merged with its successor if
that was free and with its predecessor if that was free. -/
def freeMerge (pre : List Blk) (sz : Nat) (post : List Blk) : List Blk :=
  mergePrev pre (mergeNext sz post)

/-- No two adjacent blocks of the list are both free. -/
def NoAdjFree (L : List Blk) : Prop :=
  List.Chain' (fun a b : Blk => ¬ (a.2 = 1 ∧ b.2 = 1)) L

/-- The first block of the chain, in address order, that is free and has
size at least `asize`; `0` when there is none. -/
def firstFit (asize : Nat) : Nat → List Blk → Nat
  | _, [] => 0
  | bp, b :: L => if b.2 ≠ 0 ∧ asize ≤ b.1 then bp else firstFit asize (bp + b.1) L

/-- The heap states reachable from `mm_init` (run on the starting state `s0`
of the growth primitive) by calls of `mm_malloc`, `mm_free` and `mm_realloc`
that return. -/
inductive Reach (hiFn KEY : Nat) (s0 : State) : State → Prop
  | init : (mm_init KEY s0).1 ≠ -1 → Reach hiFn KEY s0 (mm_init KEY s0).2
  | malloc (s : State) (size p : Nat) (s1 : State) :
      Reach hiFn KEY s0 s → mm_malloc s size = some (p, s1) → Reach hiFn KEY s0 s1
  | free (s : State) (bp : Nat) (s1 : State) :
      Reach hiFn KEY s0 s → mm_free hiFn s bp = some s1 → Reach hiFn KEY s0 s1
  | realloc (s : State) (ptr size q : Nat) (s1 : State) :
      Reach hiFn KEY s0 s → mm_realloc hiFn s ptr size = some (q, s1) → Reach hiFn KEY s0 s1

/-- Both `heap_listp` and the break are multiples of 8. -/
def Aligned8 (s : State) : Prop := s.heap_listp % 8 = 0 ∧ s.mem_brk % 8 = 0

/-- The walk of the block chain (the loop of `mm_checkheap`): from `bp`, add
each block's header size until a header of size zero; returns the headers
passed, as (size, bit), and the block pointer the walk stops at. -/
def walk (m : Mem) : Nat → Nat → Option (List Blk × Nat)
  | 0, _ => none
  | fuel + 1, bp =>
    if GET_SIZE m (HDRP bp) > 0 then
      (walk m fuel (NEXT_BLKP m bp)).map
        (fun r => ((GET_SIZE m (HDRP bp), GET_ALLOC m (HDRP bp)) :: r.1, r.2))
    else some ([], bp)

/-- The block chain of a state, prologue included, and the pointer where the
walk from `heap_listp` stops. -/
def chainOf (s : State) : Option (List Blk × Nat) := walk s.mem loopFuel s.heap_listp

/-- The heap right after `mm_init` on a growth primitive starting at address
4096 with room for 100000 bytes (`KEY = 0`). -/
def freshHeap : State := (mm_init 0 (memInit 4096 100000)).2

/-- A value for the address of the function `mem_heap_hi` that lies above
every heap address used in the concrete runs below. -/
def hiAbove : Nat := 2000000000

/-- Two payload ranges `[p, p + n)` and `[q, q + k)` share a byte. -/
def Overlap (p n q k : Nat) : Prop := p < q + k ∧ q < p + n

instance (p n q k : Nat) : Decidable (Overlap p n q k) := by
  unfold Overlap; infer_instance

/-- A run on the fresh heap: `A = mm_malloc(100)`, `B = mm_malloc(100)`,
`R = mm_realloc(B, 4294967291)`, `mm_free(A)`, `mm_free(R)`.  Yields `A`, `B`,
`R`, the chain after the `mm_realloc`, the chain at the end and the final
break. -/
def runWrapRealloc :
    Option (Nat × Nat × Nat × Option (List Blk × Nat) × Option (List Blk × Nat) × Nat) := do
  let r1 ← mm_malloc freshHeap 100
  let r2 ← mm_malloc r1.2 100
  let r3 ← mm_realloc hiAbove r2.2 r2.1 4294967291
  let s4 ← mm_free hiAbove r3.2 r1.1
  let s5 ← mm_free hiAbove s4 r3.1
  pure (r1.1, r2.1, r3.1, chainOf r3.2, chainOf s5, s5.mem_brk)

/-- A run on the fresh heap: `A = mm_malloc(100)`, `B = mm_malloc(100)`,
`mm_free(A)`, `R = mm_realloc(B, 0)`, `mm_free(R)`.  Yields `A`, `B`, `R`, the
chain after the `mm_realloc`, the chain at the end and the final break. -/
def runZeroRealloc :
    Option (Nat × Nat × Nat × Option (List Blk × Nat) × Option (List Blk × Nat) × Nat) := do
  let r1 ← mm_malloc freshHeap 100
  let r2 ← mm_malloc r1.2 100
  let s3 ← mm_free hiAbove r2.2 r1.1
  let r4 ← mm_realloc hiAbove s3 r2.1 0
  let s5 ← mm_free hiAbove r4.2 r4.1
  pure (r1.1, r2.1, r4.1, chainOf r4.2, chainOf s5, s5.mem_brk)

/-- A run on the fresh heap: `P = mm_malloc(100)`, `R = mm_realloc(P, 10)`.
Yields `P`, `R`, the chain before and the chain after the `mm_realloc`. -/
def runShrink : Option (Nat × Nat × Option (List Blk × Nat) × Option (List Blk × Nat)) := do
  let r1 ← mm_malloc freshHeap 100
  let r2 ← mm_realloc hiAbove r1.2 r1.1 10
  pure (r1.1, r2.1, chainOf r1.2, chainOf r2.2)

/-- Deciding `Chain` on a concrete memory and list. -/
def decChain (m : Mem) : (L : List Blk) → (bp : Nat) → Decidable (Chain m bp L)
  | [], _ => isTrue trivial
  | b :: L, bp =>
    have : Decidable (Chain m (bp + b.1) L) := decChain m L (bp + b.1)
    inferInstanceAs (Decidable (GET m (bp - 4) = b.1 + b.2 ∧ 8 ≤ b.1 ∧ b.1 % 8 = 0 ∧
      b.2 ≤ 1 ∧ Chain m (bp + b.1) L))

instance (m : Mem) (bp : Nat) (L : List Blk) : Decidable (Chain m bp L) := decChain m L bp

instance (s : State) (L : List Blk) : Decidable (HeapIs s L) := by
  unfold HeapIs; infer_instance

/-- Deciding `NoAdjFree` on a concrete list. -/
def decNoAdjFree : (L : List Blk) → Decidable (NoAdjFree L)
  | [] => isTrue List.chain'_nil
  | [a] => isTrue (List.chain'_singleton a)
  | a :: b :: L =>
    have : Decidable (NoAdjFree (b :: L)) := decNoAdjFree (b :: L)
    decidable_of_iff (¬ (a.2 = 1 ∧ b.2 = 1) ∧ NoAdjFree (b :: L))
      (@List.chain'_cons Blk (fun a b : Blk => ¬ (a.2 = 1 ∧ b.2 = 1)) a b L).symm

instance (L : List Blk) : Decidable (NoAdjFree L) := decNoAdjFree L

/-- The heap after `A = mm_malloc(100)`, `B = mm_malloc(100)`, `mm_free(A)` on
the fresh heap: a free block of 104 bytes at 4112, the allocated block `B` of
104 bytes at 4216, a free block of 3888 bytes. -/
def heapFreeAllocFree : State :=
  ((mm_malloc freshHeap 100).bind fun r1 =>
    (mm_malloc r1.2 100).bind fun r2 => mm_free hiAbove r2.2 r1.1).getD freshHeap

/-- The heap after `P = mm_malloc(100)` on the fresh heap: the allocated
block `P` of 104 bytes at 4112, then a free block of 3992 bytes. -/
def heapOneBlock : State := ((mm_malloc freshHeap 100).getD (0, freshHeap)).2

/-- The heap after `A = mm_malloc(100)`, `B = mm_malloc(100)` on the fresh
heap: allocated blocks of 104 bytes at 4112 and 4216, then a free block. -/
def heapTwoBlocks : State :=
  (((mm_malloc freshHeap 100).bind fun r1 => mm_malloc r1.2 100).getD (0, freshHeap)).2

/-- The heap `heapTwoBlocks` after the user stored the word 4208 in the last
four bytes of the payload of `A` (the 100 bytes from 4112 obtained from
`mm_malloc(100)`), at address 4208. -/
def heapUserWord : State :=
  { heapTwoBlocks with mem := PUT heapTwoBlocks.mem 4208 4208 }

/-- The heap `heapOneBlock` after the user stored the word 305419896
(`0x12345678`) at the start of the payload of `P` and the word 2271560481
(`0x87654321`) in its last four bytes. -/
def heapOneBlockData : State :=
  { heapOneBlock with mem := PUT (PUT heapOneBlock.mem 4112 305419896) 4208 2271560481 }

/-! ## The heap checker -/

/-- A line printed by `mm_checkheap` or `printblock`. -/
inductive Msg where
  /-- The line `Heap (%p):` with the value of `heap_listp`. -/
  | heapLine (p : Nat)
  /-- The line `Bad prologue header`. -/
  | badPrologue
  /-- The line `%p: header: [%zu:%c]`: block pointer, size, and `f` or `a`. -/
  | blockLine (bp hsize : Nat) (c : Char)
  /-- The line `%p: EOL`. -/
  | eol (bp : Nat)
  /-- The line `Bad epilogue header`. -/
  | badEpilogue
  deriving DecidableEq

/-- The function `printblock(bp)`. -/
def printblock (m : Mem) (bp : Nat) : Msg :=
  let hsize := GET_SIZE m (HDRP bp)
  let halloc := GET_ALLOC m (HDRP bp)
  if hsize = 0 then Msg.eol bp
  else Msg.blockLine bp hsize (if halloc ≠ 0 then 'f' else 'a')

/-- The loop of `mm_checkheap`: the lines printed and the block pointer the
loop stops at; `none` when the fuel runs out. -/
def checkheap_loop (m : Mem) (verbose : Bool) : Nat → Nat → Option (List Msg × Nat)
  | 0, _ => none
  | fuel + 1, bp =>
    if GET_SIZE m (HDRP bp) > 0 then
      (checkheap_loop m verbose fuel (NEXT_BLKP m bp)).map
        (fun r => ((if verbose then [printblock m bp] else []) ++ r.1, r.2))
    else some ([], bp)

/-- The function `mm_checkheap(verbose)`: the lines it prints, in order. -/
def mm_checkheap (s : State) (verbose : Bool) : Option (List Msg) :=
  let out1 := if verbose then [Msg.heapLine s.heap_listp] else []
  let out2 :=
    if GET_SIZE s.mem (HDRP s.heap_listp) ≠ DSIZE ∨ GET_ALLOC s.mem (HDRP s.heap_listp) ≠ 0
    then [Msg.badPrologue] else []
  match checkheap_loop s.mem verbose loopFuel s.heap_listp with
  | none => none
  | some r =>
    let out4 := if verbose then [printblock s.mem r.2] else []
    let out5 :=
      if GET_SIZE s.mem (HDRP r.2) ≠ 0 ∨ GET_ALLOC s.mem (HDRP r.2) ≠ 0
      then [Msg.badEpilogue] else []
    some (out1 ++ out2 ++ r.1 ++ out4 ++ out5)

/-- The lines `printblock` prints for the blocks of a chain. -/
def blockLines (bp : Nat) (L : List Blk) : List Msg :=
  (blocksAt bp L).map (fun u => Msg.blockLine u.1 u.2.1 (if u.2.2 ≠ 0 then 'f' else 'a'))

/-- The fresh heap with its epilogue header overwritten by the word 8 (size
8, bit clear). -/
def heapBadEpilogue : State :=
  { freshHeap with mem := PUT freshHeap.mem (freshHeap.mem_brk - 4) 8 }

/-! ## Further vocabulary -/

/-- The adjusted block size as `mm_realloc` computes it (its own copy of the
computation of `mm_malloc`). -/
def adjust_realloc (size : Nat) : Nat :=
  if size ≤ WSIZE then WSIZE + OVERHEAD
  else (DSIZE * (((size + OVERHEAD + (DSIZE - 1)) % W32) / DSIZE)) % W32

/-- Every free block of the chain has a footer: the last word of the block
equals its header word. -/
def HasFooters (m : Mem) : Nat → List Blk → Prop
  | _, [] => True
  | bp, b :: L => (b.2 = 1 → GET m (bp + b.1 - 8) = GET m (bp - 4)) ∧ HasFooters m (bp + b.1) L

/-- The heap after `P = mm_malloc(4088)` on the fresh heap: the single block of
4096 bytes, allocated. -/
def heapFull : State := ((mm_malloc freshHeap 4088).getD (0, freshHeap)).2

end MM

namespace MM

/-! ## Words, bytes and pointers -/

theorem GET_lt (m : Mem) (p : Nat) : GET m p < W32 := by
  unfold GET W32
  omega

theorem GET_PUT_same (m : Mem) (p v : Nat) : GET (PUT m p v) p = v % W32 := by
  unfold GET PUT W32
  simp
  omega

theorem PUT_byte_ne (m : Mem) (p v a : Nat) (h : a < p ∨ p + 4 ≤ a) :
    PUT m p v a = m a := by
  unfold PUT
  have h0 : a ≠ p := by omega
  have h1 : a ≠ p + 1 := by omega
  have h2 : a ≠ p + 2 := by omega
  have h3 : a ≠ p + 3 := by omega
  simp [h0, h1, h2, h3]

theorem GET_PUT_ne (m : Mem) (p v q : Nat) (h : q + 4 ≤ p ∨ p + 4 ≤ q) :
    GET (PUT m p v) q = GET m q := by
  unfold GET
  rw [PUT_byte_ne m p v q (by omega), PUT_byte_ne m p v (q + 1) (by omega),
    PUT_byte_ne m p v (q + 2) (by omega), PUT_byte_ne m p v (q + 3) (by omega)]

theorem GET_congr (m m1 : Mem) (q : Nat) (h : ∀ a, q ≤ a → a < q + 4 → m1 a = m a) :
    GET m1 q = GET m q := by
  unfold GET
  rw [h q (by omega) (by omega), h (q + 1) (by omega) (by omega),
    h (q + 2) (by omega) (by omega), h (q + 3) (by omega) (by omega)]

theorem and_mask (x : Nat) (h : x < 4294967296) : x &&& 4294967288 = 8 * (x / 8) := by
  apply Nat.eq_of_testBit_eq
  intro i
  have e1 : (4294967288 : Nat) = 2 ^ 3 * (2 ^ 29 - 1) := by norm_num
  have e2 : 8 * (x / 8) = 2 ^ 3 * (x >>> 3) := by
    rw [Nat.shiftRight_eq_div_pow]; norm_num
  rw [Nat.testBit_and, e1, e2, Nat.testBit_mul_pow_two, Nat.testBit_mul_pow_two,
    Nat.testBit_two_pow_sub_one, Nat.testBit_shiftRight]
  by_cases h3 : 3 ≤ i
  · have e3 : 3 + (i - 3) = i := by omega
    rw [e3]
    by_cases h32 : i < 32
    · have : i - 3 < 29 := by omega
      simp [*]
    · have hx : x.testBit i = false := by
        apply Nat.testBit_lt_two_pow
        calc x < 2 ^ 32 := by norm_num; exact h
          _ ≤ 2 ^ i := Nat.pow_le_pow_right (by norm_num) (by omega)
      simp [*]
  · simp [h3]

theorem or_small (x a : Nat) (hx : x % 8 = 0) (h : a < 8) : x ||| a = x + a := by
  have := Nat.mul_add_lt_is_or (i := 3) (b := a) (by norm_num; exact h) (x / 8)
  norm_num at this
  have e : 8 * (x / 8) = x := by omega
  rw [e] at this
  exact this.symm

theorem PACK_eq (sz fl : Nat) (hsz : sz % 8 = 0) (hfl : fl ≤ 1) : PACK sz fl = sz + fl := by
  unfold PACK
  exact or_small sz fl hsz (by omega)

theorem GET_SIZE_eq (m : Mem) (p : Nat) : GET_SIZE m p = 8 * (GET m p / 8) := by
  unfold GET_SIZE
  exact and_mask _ (GET_lt m p)

theorem GET_ALLOC_eq (m : Mem) (p : Nat) : GET_ALLOC m p = GET m p % 2 := by
  unfold GET_ALLOC
  exact Nat.and_one_is_mod _

theorem GET_SIZE_mod8 (m : Mem) (p : Nat) : GET_SIZE m p % 8 = 0 := by
  rw [GET_SIZE_eq]; omega

theorem GET_SIZE_lt (m : Mem) (p : Nat) : GET_SIZE m p < W32 := by
  have := GET_lt m p
  rw [GET_SIZE_eq]; unfold W32 at *; omega

theorem padd_eq (p n : Nat) (h : p + n < W32) : padd p n = p + n := by
  unfold padd; exact Nat.mod_eq_of_lt h

theorem psub_eq (p n : Nat) (h : n ≤ p) (hp : p < W32) : psub p n = p - n := by
  unfold psub W32 at *
  have e1 : p % 4294967296 = p := Nat.mod_eq_of_lt hp
  have e2 : n % 4294967296 = n := Nat.mod_eq_of_lt (by omega)
  rw [e1, e2]
  omega

theorem padd_mod8 (p n : Nat) (hp : p % 8 = 0) (hn : n % 8 = 0) : padd p n % 8 = 0 := by
  unfold padd W32; omega

theorem toInt_lt_iff (a b : Nat) (ha : a < W32) (hb : b < W32)
    (h : (a < 2147483648 ∧ b < 2147483648) ∨ (2147483648 ≤ a ∧ 2147483648 ≤ b)) :
    toInt a < toInt b ↔ a < b := by
  unfold toInt W32 at *
  have e1 : a % 4294967296 = a := Nat.mod_eq_of_lt ha
  have e2 : b % 4294967296 = b := Nat.mod_eq_of_lt hb
  rw [e1, e2]
  rcases h with ⟨h1, h2⟩ | ⟨h1, h2⟩
  · simp [h1, h2]
  · have n1 : ¬ a < 2147483648 := by omega
    have n2 : ¬ b < 2147483648 := by omega
    simp [n1, n2]

/-! ## Registers of the state: what each routine leaves alone -/

theorem place_heap_listp (s : State) (bp asize : Nat) :
    (place s bp asize).heap_listp = s.heap_listp := by
  unfold place; dsimp only; split <;> rfl

theorem place_mem_brk (s : State) (bp asize : Nat) :
    (place s bp asize).mem_brk = s.mem_brk := by
  unfold place; dsimp only; split <;> rfl

theorem place_mem_max_addr (s : State) (bp asize : Nat) :
    (place s bp asize).mem_max_addr = s.mem_max_addr := by
  unfold place; dsimp only; split <;> rfl

theorem mem_sbrk_cases (s : State) (incr : Nat) :
    (s.mem_max_addr < s.mem_brk + incr ∧ mem_sbrk s incr = (W32 - 1, s)) ∨
    (s.mem_brk + incr ≤ s.mem_max_addr ∧
      mem_sbrk s incr = (s.mem_brk, { s with mem_brk := s.mem_brk + incr })) := by
  unfold mem_sbrk
  by_cases h : s.mem_brk + incr > s.mem_max_addr
  · exact Or.inl ⟨by omega, if_pos h⟩
  · exact Or.inr ⟨by omega, if_neg h⟩

theorem extend_heap_aligned (s : State) (words : Nat) (h : Aligned8 s) :
    Aligned8 (extend_heap s words).2 ∧
    ((extend_heap s words).1 ≠ 0 → (extend_heap s words).1 % 8 = 0) := by
  unfold extend_heap
  dsimp only
  generalize hsz : (if words % 2 ≠ 0 then ((words + 1) * WSIZE) % W32
    else (words * WSIZE) % W32) = size
  have hs8 : size % 8 = 0 := by
    rw [← hsz]; unfold WSIZE W32; split <;> omega
  obtain ⟨h1, h2⟩ := h
  rcases mem_sbrk_cases s size with ⟨_, e⟩ | ⟨_, e⟩
  · rw [e]; simp only [if_true]
    exact ⟨⟨h1, h2⟩, fun h => absurd rfl h⟩
  · rw [e]; dsimp only
    split
    · exact ⟨⟨h1, by show (s.mem_brk + size) % 8 = 0; omega⟩, fun h => absurd rfl h⟩
    · exact ⟨⟨h1, by show (s.mem_brk + size) % 8 = 0; omega⟩, fun _ => h2⟩

theorem find_fit_loop_mod8 (m : Mem) (asize : Nat) :
    ∀ (fuel bp r : Nat), bp % 8 = 0 → find_fit_loop m asize fuel bp = some r → r % 8 = 0 := by
  intro fuel
  induction fuel with
  | zero => intro bp r _ h; simp [find_fit_loop] at h
  | succ n ih =>
    intro bp r hbp h
    unfold find_fit_loop at h
    split at h
    · split at h
      · simp at h; omega
      · exact ih _ r (padd_mod8 bp _ hbp (GET_SIZE_mod8 _ _)) h
    · simp at h; omega

theorem mm_malloc_aligned (s : State) (size p : Nat) (s1 : State) (h : Aligned8 s)
    (hm : mm_malloc s size = some (p, s1)) : Aligned8 s1 ∧ (p ≠ 0 → p % 8 = 0) := by
  unfold mm_malloc at hm
  split at hm
  · simp at hm; obtain ⟨e1, e2⟩ := hm; subst e1; subst e2
    exact ⟨h, fun h => absurd rfl h⟩
  · dsimp only at hm
    split at hm
    · simp at hm
    · rename_i bp hff
      have hbp : bp % 8 = 0 := find_fit_loop_mod8 _ _ _ _ _ h.1 hff
      split at hm
      · simp at hm; obtain ⟨e1, e2⟩ := hm; subst e1; subst e2
        exact ⟨⟨by rw [place_heap_listp]; exact h.1, by rw [place_mem_brk]; exact h.2⟩,
          fun _ => hbp⟩
      · have he := extend_heap_aligned s (MAX (adjust size) CHUNKSIZE / WSIZE) h
        split at hm
        · simp at hm; obtain ⟨e1, e2⟩ := hm; subst e1; subst e2
          exact ⟨he.1, fun h => absurd rfl h⟩
        · rename_i hne
          simp at hm; obtain ⟨e1, e2⟩ := hm; subst e1; subst e2
          exact ⟨⟨by rw [place_heap_listp]; exact he.1.1, by rw [place_mem_brk]; exact he.1.2⟩,
            fun _ => he.2 hne⟩

theorem coalesce_regs (hiFn : Nat) (s : State) (bp size : Nat) (r : Nat × State)
    (h : coalesce hiFn s bp size = some r) :
    r.2.heap_listp = s.heap_listp ∧ r.2.mem_brk = s.mem_brk ∧
      r.2.mem_max_addr = s.mem_max_addr := by
  unfold coalesce at h
  dsimp only at h
  split at h
  · simp at h
  · simp at h; subst h; exact ⟨rfl, rfl, rfl⟩

theorem coalesce_run_some (hiFn : Nat) (s : State) (bp size : Nat) (r : Nat × State)
    (h : coalesce_run hiFn s bp size = some r) : coalesce hiFn s bp size = some r := by
  unfold coalesce_run at h
  split at h
  · exact h
  · simp at h

theorem mm_free_regs (hiFn : Nat) (s : State) (bp : Nat) (s1 : State)
    (h : mm_free hiFn s bp = some s1) :
    s1.heap_listp = s.heap_listp ∧ s1.mem_brk = s.mem_brk ∧
      s1.mem_max_addr = s.mem_max_addr := by
  unfold mm_free at h
  split at h
  · simp at h; subst h; exact ⟨rfl, rfl, rfl⟩
  · dsimp only at h
    split at h
    · simp at h
    · rename_i r hc
      simp at h; subst h
      have hr := coalesce_regs _ _ _ _ _ (coalesce_run_some _ _ _ _ _ hc)
      exact hr

theorem mm_free_aligned (hiFn : Nat) (s : State) (bp : Nat) (s1 : State) (h : Aligned8 s)
    (hf : mm_free hiFn s bp = some s1) : Aligned8 s1 := by
  obtain ⟨e1, e2, _⟩ := mm_free_regs hiFn s bp s1 hf
  exact ⟨by rw [e1]; exact h.1, by rw [e2]; exact h.2⟩

theorem mm_realloc_aligned (hiFn : Nat) (s : State) (ptr size q : Nat) (s1 : State)
    (h : Aligned8 s) (hr : mm_realloc hiFn s ptr size = some (q, s1)) : Aligned8 s1 := by
  unfold mm_realloc at hr
  split at hr
  · exact (mm_malloc_aligned s size q s1 h hr).1
  · split at hr
    · simp at hr
    · rename_i sa hsa
      have ha : Aligned8 sa := by
        split at hsa
        · exact mm_free_aligned hiFn s ptr sa h hsa
        · simp at hsa; subst hsa; exact h
      dsimp only at hr
      split at hr
      · simp at hr
      · rename_i nb sb hmb
        have hb : Aligned8 sb := (mm_malloc_aligned sa size nb sb ha hmb).1
        split at hr
        · split at hr
          · simp at hr
          · rename_i sc hfc
            have hc : Aligned8 sc := mm_free_aligned hiFn sb nb sc hb hfc
            simp at hr; obtain ⟨_, e2⟩ := hr; subst e2
            exact ⟨by rw [place_heap_listp]; exact hc.1, by rw [place_mem_brk]; exact hc.2⟩
        · split at hr
          · simp at hr
          · rename_i sc hfc
            simp at hr; obtain ⟨_, e2⟩ := hr; subst e2
            obtain ⟨e1, e2, _⟩ := mm_free_regs _ _ _ _ hfc
            exact ⟨by rw [e1]; exact hb.1, by rw [e2]; exact hb.2⟩

theorem mm_init_aligned (KEY : Nat) (s0 : State)
    (h8 : (mem_sbrk s0 (4 * WSIZE)).1 % 8 = 0) (hok : (mm_init KEY s0).1 ≠ -1) :
    Aligned8 (mm_init KEY s0).2 := by
  unfold mm_init at hok ⊢
  dsimp only at hok ⊢
  rcases mem_sbrk_cases s0 (4 * WSIZE) with ⟨_, e⟩ | ⟨_, e⟩
  · rw [e] at h8
    have h9 : (4294967296 - 1) % 8 = 0 := h8
    omega
  · rw [e] at h8 hok ⊢
    dsimp only at h8 hok ⊢
    split
    · rename_i h0; rw [if_pos h0] at hok; exact absurd rfl hok
    · split
      · rename_i h0 h1; rw [if_neg h0, if_pos h1] at hok; exact absurd rfl hok
      · refine (extend_heap_aligned _ _ ⟨?_, ?_⟩).1
        · show padd s0.mem_brk DSIZE % 8 = 0
          exact padd_mod8 _ _ h8 (by unfold DSIZE; rfl)
        · show (s0.mem_brk + 4 * WSIZE) % 8 = 0
          unfold WSIZE; omega

theorem reach_aligned (hiFn KEY : Nat) (s0 s : State)
    (h8 : (mem_sbrk s0 (4 * WSIZE)).1 % 8 = 0) (hr : Reach hiFn KEY s0 s) : Aligned8 s := by
  induction hr with
  | init hok => exact mm_init_aligned KEY s0 h8 hok
  | malloc s size p s1 _ hm ih => exact (mm_malloc_aligned s size p s1 ih hm).1
  | free s bp s1 _ hf ih => exact mm_free_aligned hiFn s bp s1 ih hf
  | realloc s ptr size q s1 _ hre ih => exact mm_realloc_aligned hiFn s ptr size q s1 ih hre

/-! ## Chains of blocks -/

theorem span_append (A B : List Blk) : span (A ++ B) = span A + span B := by
  induction A with
  | nil => simp [span]
  | cons b A ih => simp [span, ih]; omega

theorem Chain_append (m : Mem) (A B : List Blk) :
    ∀ bp, Chain m bp (A ++ B) ↔ Chain m bp A ∧ Chain m (bp + span A) B := by
  induction A with
  | nil => intro bp; simp [Chain, span]
  | cons b A ih =>
    intro bp
    have e : bp + span (b :: A) = bp + b.1 + span A := by
      show bp + (b.1 + span A) = _
      omega
    rw [e]
    show (GET m (bp - 4) = b.1 + b.2 ∧ 8 ≤ b.1 ∧ b.1 % 8 = 0 ∧ b.2 ≤ 1 ∧
        Chain m (bp + b.1) (A ++ B)) ↔
      (GET m (bp - 4) = b.1 + b.2 ∧ 8 ≤ b.1 ∧ b.1 % 8 = 0 ∧ b.2 ≤ 1 ∧
        Chain m (bp + b.1) A) ∧ Chain m (bp + b.1 + span A) B
    rw [ih]
    tauto

theorem Chain_congr (m m1 : Mem) (L : List Blk) :
    ∀ bp, 4 ≤ bp → (∀ a, bp ≤ a + 4 → a + 8 < bp + span L → m1 a = m a) →
      Chain m bp L → Chain m1 bp L := by
  induction L with
  | nil => intro bp _ _ _; trivial
  | cons b L ih =>
    intro bp hbp hfr hc
    obtain ⟨h1, h2, h3, h4, h5⟩ := hc
    have hsp : span (b :: L) = b.1 + span L := rfl
    refine ⟨?_, h2, h3, h4, ?_⟩
    · rw [← h1]
      apply GET_congr
      intro a ha1 ha2
      exact hfr a (by omega) (by rw [hsp]; omega)
    · apply ih (bp + b.1) (by omega) _ h5
      intro a ha1 ha2
      exact hfr a (by omega) (by rw [hsp]; omega)

theorem Chain_bits (m : Mem) (L : List Blk) :
    ∀ bp, Chain m bp L → ∀ b ∈ L, 8 ≤ b.1 ∧ b.1 % 8 = 0 ∧ b.2 ≤ 1 := by
  induction L with
  | nil => intro bp _ b hb; simp at hb
  | cons x L ih =>
    intro bp hc b hb
    obtain ⟨_, h2, h3, h4, h5⟩ := hc
    rcases List.mem_cons.mp hb with e | hin
    · subst e; exact ⟨h2, h3, h4⟩
    · exact ih _ h5 b hin

theorem span_mod8 (m : Mem) (L : List Blk) : ∀ bp, Chain m bp L → span L % 8 = 0 := by
  induction L with
  | nil => intro bp _; rfl
  | cons x L ih =>
    intro bp hc
    obtain ⟨_, _, h3, _, h5⟩ := hc
    have := ih _ h5
    show (x.1 + span L) % 8 = 0
    omega

theorem length_le_span (m : Mem) (L : List Blk) :
    ∀ bp, Chain m bp L → 8 * L.length ≤ span L := by
  induction L with
  | nil => intro bp _; simp [span]
  | cons x L ih =>
    intro bp hc
    obtain ⟨_, h2, _, _, h5⟩ := hc
    have := ih _ h5
    show 8 * (L.length + 1) ≤ x.1 + span L
    omega

theorem hdr_read (m : Mem) (h sz fl : Nat) (hg : GET m h = sz + fl) (h8 : sz % 8 = 0)
    (hfl : fl ≤ 1) : GET_SIZE m h = sz ∧ GET_ALLOC m h = fl := by
  rw [GET_SIZE_eq, GET_ALLOC_eq, hg]
  omega

/-! ## The search -/

theorem HDRP_eq (bp : Nat) (h4 : 4 ≤ bp) (hlt : bp < W32) : HDRP bp = bp - 4 := by
  unfold HDRP WSIZE; exact psub_eq bp 4 h4 hlt

theorem find_fit_loop_chain (m : Mem) (asize : Nat) (L : List Blk) :
    ∀ (fuel bp : Nat), Chain m bp L → GET m (bp + span L - 4) = 0 → 4 ≤ bp →
      bp + span L < W32 → L.length < fuel →
      find_fit_loop m asize fuel bp = some (firstFit asize bp L) := by
  induction L with
  | nil =>
    intro fuel bp _ hep h4 hlt hfuel
    cases fuel with
    | zero => simp at hfuel
    | succ n =>
      have hsp0 : span ([] : List Blk) = 0 := rfl
      rw [hsp0] at hep hlt
      have hz := (hdr_read m (bp - 4) 0 0 hep (by rfl) (by omega)).1
      have e1 : psub bp WSIZE = bp - 4 := HDRP_eq bp h4 (by omega)
      unfold find_fit_loop
      rw [e1, hz]
      simp [firstFit]
  | cons b L ih =>
    intro fuel bp hc hep h4 hlt hfuel
    cases fuel with
    | zero => simp at hfuel
    | succ n =>
      obtain ⟨h1, h2, h3, h5, h6⟩ := hc
      have hsp : span (b :: L) = b.1 + span L := rfl
      rw [hsp] at hep hlt
      have hr := hdr_read m (bp - 4) b.1 b.2 h1 h3 h5
      have e1 : psub bp WSIZE = bp - 4 := HDRP_eq bp h4 (by omega)
      have e2 : HDRP bp = bp - 4 := HDRP_eq bp h4 (by omega)
      have e3 : NEXT_BLKP m bp = bp + b.1 := by
        unfold NEXT_BLKP; rw [e1, hr.1]; exact padd_eq _ _ (by omega)
      unfold find_fit_loop
      rw [e1, e2, e3, hr.1, hr.2]
      have hpos : b.1 > 0 := by omega
      rw [if_pos hpos]
      have e4 : bp + b.1 + span L - 4 = bp + (b.1 + span L) - 4 := by omega
      have hlen : L.length < n := by
        have : (b :: L).length = L.length + 1 := rfl
        omega
      have hrec := ih n (bp + b.1) h6 (by rw [e4]; exact hep) (by omega) (by omega) hlen
      rw [hrec]
      show _ = some (if b.2 ≠ 0 ∧ asize ≤ b.1 then bp else firstFit asize (bp + b.1) L)
      split <;> rfl

theorem firstFit_split (asize : Nat) (L : List Blk) :
    ∀ (bp p : Nat), (∀ b ∈ L, b.2 ≤ 1) → firstFit asize bp L = p → p ≠ 0 →
      ∃ pre c post, L = pre ++ (c, 1) :: post ∧ p = bp + span pre ∧ asize ≤ c ∧
        ∀ b ∈ pre, ¬ (b.2 ≠ 0 ∧ asize ≤ b.1) := by
  induction L with
  | nil => intro bp p _ h hp; simp [firstFit] at h; omega
  | cons b L ih =>
    intro bp p hb h hp
    unfold firstFit at h
    by_cases hc : b.2 ≠ 0 ∧ asize ≤ b.1
    · rw [if_pos hc] at h
      have hb1 := hb b (List.mem_cons_self _ _)
      have e : b = (b.1, 1) := by
        have : b.2 = 1 := by omega
        exact Prod.ext rfl this
      refine ⟨[], b.1, L, by rw [← e]; rfl, by simp [span]; omega, hc.2, ?_⟩
      intro x hx; simp at hx
    · rw [if_neg hc] at h
      obtain ⟨pre, c, post, e1, e2, e3, e4⟩ :=
        ih (bp + b.1) p (fun x hx => hb x (List.mem_cons_of_mem _ hx)) h hp
      refine ⟨b :: pre, c, post, by rw [e1]; rfl, by rw [e2]; simp [span]; omega, e3, ?_⟩
      intro x hx
      rcases List.mem_cons.mp hx with e | hin
      · subst e; exact hc
      · exact e4 x hin

theorem firstFit_none (asize : Nat) (L : List Blk) :
    ∀ (bp : Nat), 0 < bp → firstFit asize bp L = 0 →
      ∀ b ∈ L, ¬ (b.2 ≠ 0 ∧ asize ≤ b.1) := by
  induction L with
  | nil => intro bp _ _ b hb; simp at hb
  | cons x L ih =>
    intro bp hbp h b hb
    unfold firstFit at h
    by_cases hc : x.2 ≠ 0 ∧ asize ≤ x.1
    · rw [if_pos hc] at h; omega
    · rw [if_neg hc] at h
      rcases List.mem_cons.mp hb with e | hin
      · subst e; exact hc
      · exact ih (bp + x.1) (by omega) h b hin

theorem firstFit_skip (asize : Nat) (pre : List Blk) (x : Blk) (post : List Blk) :
    ∀ (bp : Nat), (∀ b ∈ pre, ¬ (b.2 ≠ 0 ∧ asize ≤ b.1)) → x.2 ≠ 0 → asize ≤ x.1 →
      firstFit asize bp (pre ++ x :: post) = bp + span pre := by
  induction pre with
  | nil => intro bp _ h1 h2; simp [firstFit, span, h1, h2]
  | cons b pre ih =>
    intro bp hpre h1 h2
    have hb := hpre b (List.mem_cons_self _ _)
    show firstFit asize bp (b :: (pre ++ x :: post)) = bp + (b.1 + span pre)
    unfold firstFit
    rw [if_neg hb, ih (bp + b.1) (fun y hy => hpre y (List.mem_cons_of_mem _ hy)) h1 h2]
    omega

/-! ## Placement and heap extension -/

theorem usub_eq (c a : Nat) (ha : a ≤ c) (hc : c < W32) :
    (c + (W32 - a % W32)) % W32 = c - a := by
  unfold W32 at *
  have e : a % 4294967296 = a := Nat.mod_eq_of_lt (by omega)
  rw [e]
  omega

theorem place_mem (s : State) (bp asize c fl : Nat) (h4 : 4 ≤ bp)
    (hg : GET s.mem (bp - 4) = c + fl) (hc8 : c % 8 = 0) (hfl : fl ≤ 1)
    (hlt : bp + c < W32) (ha : asize ≤ c) (ha8 : asize % 8 = 0) :
    (place s bp asize).mem =
      if 8 ≤ c - asize then PUT (PUT s.mem (bp - 4) asize) (bp + asize - 4) (c - asize + 1)
      else PUT s.mem (bp - 4) c := by
  have e1 : HDRP bp = bp - 4 := HDRP_eq bp h4 (by omega)
  have hr := hdr_read s.mem (bp - 4) c fl hg hc8 hfl
  have e2 : (c + (W32 - asize % W32)) % W32 = c - asize := usub_eq c asize ha (by omega)
  have e3 : PACK asize 0 = asize := by rw [PACK_eq asize 0 ha8 (by omega)]; rfl
  have e4 : PACK c 0 = c := by rw [PACK_eq c 0 hc8 (by omega)]; rfl
  have e5 : PACK (c - asize) 1 = c - asize + 1 := PACK_eq (c - asize) 1 (by omega) (by omega)
  have e6 : NEXT_BLKP (PUT s.mem (bp - 4) asize) bp = bp + asize := by
    unfold NEXT_BLKP
    have : psub bp WSIZE = bp - 4 := e1
    rw [this]
    have hg1 : GET (PUT s.mem (bp - 4) asize) (bp - 4) = asize + 0 := by
      rw [GET_PUT_same]; exact Nat.mod_eq_of_lt (by omega)
    rw [(hdr_read _ _ asize 0 hg1 ha8 (by omega)).1]
    exact padd_eq _ _ (by omega)
  have e7 : HDRP (bp + asize) = bp + asize - 4 := HDRP_eq _ (by omega) (by omega)
  unfold place
  simp only [e1, hr.1, e2, e3, e4, e5, e6, e7, DSIZE, ge_iff_le]
  split <;> rfl

theorem place_chain (s : State) (hl : Nat) (pre : List Blk) (c fl asize : Nat)
    (post : List Blk) (h4 : 4 ≤ hl) (hc : Chain s.mem hl (pre ++ (c, fl) :: post))
    (hlt : hl + span (pre ++ (c, fl) :: post) < W32) (ha : asize ≤ c) (ha8 : asize % 8 = 0)
    (hpos : 8 ≤ asize) :
    Chain (place s (hl + span pre) asize).mem hl (pre ++ placed asize c ++ post) ∧
    (∀ x, x + 4 < hl + span pre ∨ hl + span pre + c ≤ x + 4 →
      (place s (hl + span pre) asize).mem x = s.mem x) := by
  have hsp : span (pre ++ (c, fl) :: post) = span pre + (c + span post) := by
    rw [span_append]; rfl
  rw [hsp] at hlt
  rw [Chain_append] at hc
  obtain ⟨hc1, hg, hc2, hc3, hc4, hc5⟩ := hc
  simp only at hg hc2 hc3 hc4 hc5
  have hm := place_mem s (hl + span pre) asize c fl (by omega) hg hc3 hc4 (by omega) ha ha8
  constructor
  · rw [List.append_assoc, Chain_append]
    constructor
    · apply Chain_congr s.mem _ pre hl h4 _ hc1
      intro a _ ha2
      rw [hm]
      split
      · rw [PUT_byte_ne _ _ _ _ (by omega), PUT_byte_ne _ _ _ _ (by omega)]
      · rw [PUT_byte_ne _ _ _ _ (by omega)]
    · unfold placed
      by_cases h8 : 8 ≤ c - asize
      · rw [if_pos h8]
        rw [hm, if_pos h8]
        refine ⟨?_, hpos, ha8, by omega, ?_, by omega, by omega, by omega, ?_⟩
        · rw [GET_PUT_ne _ _ _ _ (by omega), GET_PUT_same]
          exact Nat.mod_eq_of_lt (by omega)
        · have e : hl + span pre + (asize, 0).1 - 4 = hl + span pre + asize - 4 := rfl
          rw [e, GET_PUT_same]
          exact Nat.mod_eq_of_lt (by omega)
        · have e : hl + span pre + (asize, 0).1 + (c - asize, 1).1 = hl + span pre + c := by
            simp only; omega
          rw [e]
          apply Chain_congr s.mem _ post _ (by omega) _ hc5
          intro a ha1 _
          rw [PUT_byte_ne _ _ _ _ (by omega), PUT_byte_ne _ _ _ _ (by omega)]
      · rw [if_neg h8]
        rw [hm, if_neg h8]
        refine ⟨?_, hc2, hc3, by omega, ?_⟩
        · rw [GET_PUT_same]
          exact Nat.mod_eq_of_lt (by omega)
        · apply Chain_congr s.mem _ post _ (by omega) _ hc5
          intro a ha1 _
          simp only at ha1
          rw [PUT_byte_ne _ _ _ _ (by omega)]
  · intro x hx
    rw [hm]
    split
    · rw [PUT_byte_ne _ _ _ _ (by omega), PUT_byte_ne _ _ _ _ (by omega)]
    · rw [PUT_byte_ne _ _ _ _ (by omega)]

theorem extend_heap_size (E : Nat) (h8 : E % 8 = 0) (hlt : E < W32) :
    (if (E / WSIZE) % 2 ≠ 0 then ((E / WSIZE + 1) * WSIZE) % W32
      else (E / WSIZE * WSIZE) % W32) = E := by
  unfold WSIZE W32 at *
  have h1 : ¬ (E / 4 % 2 ≠ 0) := by omega
  rw [if_neg h1]
  omega

theorem extend_heap_fail (s : State) (E : Nat) (h8 : E % 8 = 0) (hlt : E < W32)
    (hfull : s.mem_max_addr < s.mem_brk + E) : extend_heap s (E / WSIZE) = (0, s) := by
  unfold extend_heap
  simp only [extend_heap_size E h8 hlt]
  rcases mem_sbrk_cases s E with ⟨_, e⟩ | ⟨h, _⟩
  · rw [e]; simp
  · omega

theorem extend_heap_ok (s : State) (E : Nat) (L : List Blk) (h : HeapIs s L)
    (h8 : E % 8 = 0) (hpos : 8 ≤ E) (hroom : s.mem_brk + E ≤ s.mem_max_addr) :
    (extend_heap s (E / WSIZE)).1 = s.mem_brk ∧
    HeapIs (extend_heap s (E / WSIZE)).2 (L ++ [(E, 1)]) ∧
    (extend_heap s (E / WSIZE)).2.heap_listp = s.heap_listp ∧
    (extend_heap s (E / WSIZE)).2.mem_max_addr = s.mem_max_addr ∧
    (extend_heap s (E / WSIZE)).2.mem_brk = s.mem_brk + E ∧
    (∀ x, x + 4 < s.mem_brk → (extend_heap s (E / WSIZE)).2.mem x = s.mem x) := by
  obtain ⟨g1, g2, g3, g4, g5, g6⟩ := h
  have hE : E < W32 := by omega
  have e1 : HDRP s.mem_brk = s.mem_brk - 4 := HDRP_eq _ (by omega) (by omega)
  have e2 : PACK E 1 = E + 1 := PACK_eq E 1 h8 (by omega)
  have hg1 : GET (PUT s.mem (s.mem_brk - 4) (E + 1)) (s.mem_brk - 4) = E + 1 := by
    rw [GET_PUT_same]; exact Nat.mod_eq_of_lt (by omega)
  have e3 : NEXT_BLKP (PUT s.mem (s.mem_brk - 4) (E + 1)) s.mem_brk = s.mem_brk + E := by
    unfold NEXT_BLKP
    have : psub s.mem_brk WSIZE = s.mem_brk - 4 := e1
    rw [this, (hdr_read _ _ E 1 hg1 h8 (by omega)).1]
    exact padd_eq _ _ (by omega)
  have e4 : HDRP (s.mem_brk + E) = s.mem_brk + E - 4 := HDRP_eq _ (by omega) (by omega)
  have e5 : PACK 0 0 = 0 := by rfl
  have hne : s.mem_brk ≠ W32 - 1 := by omega
  have hx : extend_heap s (E / WSIZE) =
      (s.mem_brk, State.mk (PUT (PUT s.mem (s.mem_brk - 4) (E + 1)) (s.mem_brk + E - 4) 0)
        (s.mem_brk + E) s.mem_max_addr s.heap_listp) := by
    unfold extend_heap
    simp only [extend_heap_size E h8 hE]
    rcases mem_sbrk_cases s E with ⟨h, _⟩ | ⟨_, e⟩
    · omega
    · rw [e]
      simp only [hne, if_false, e1, e2, e3, e4, e5]
  rw [hx]
  refine ⟨rfl, ⟨g1, ?_, ?_, ?_, hroom, g6⟩, rfl, rfl, rfl, ?_⟩
  · show Chain _ s.heap_listp (((8, 0) :: L) ++ [(E, 1)])
    rw [Chain_append]
    have hsp : s.heap_listp + span ((8, 0) :: L) = s.mem_brk := by
      show s.heap_listp + (8 + span L) = _
      omega
    constructor
    · apply Chain_congr s.mem _ _ _ (by omega) _ g2
      intro a _ ha2
      rw [hsp] at ha2
      show PUT (PUT s.mem (s.mem_brk - 4) (E + 1)) (s.mem_brk + E - 4) 0 a = s.mem a
      rw [PUT_byte_ne _ _ _ _ (by omega), PUT_byte_ne _ _ _ _ (by omega)]
    · rw [hsp]
      refine ⟨?_, hpos, h8, by omega, trivial⟩
      show GET (PUT (PUT s.mem (s.mem_brk - 4) (E + 1)) (s.mem_brk + E - 4) 0)
        (s.mem_brk - 4) = E + 1
      rw [GET_PUT_ne _ _ _ _ (by omega)]
      exact hg1
  · show s.heap_listp + 8 + span (L ++ [(E, 1)]) = s.mem_brk + E
    rw [span_append]
    show s.heap_listp + 8 + (span L + (E + 0)) = s.mem_brk + E
    omega
  · show GET (PUT (PUT s.mem (s.mem_brk - 4) (E + 1)) (s.mem_brk + E - 4) 0)
      (s.mem_brk + E - 4) = 0
    rw [GET_PUT_same]; rfl
  · intro x hx1
    show PUT (PUT s.mem (s.mem_brk - 4) (E + 1)) (s.mem_brk + E - 4) 0 x = s.mem x
    rw [PUT_byte_ne _ _ _ _ (by omega), PUT_byte_ne _ _ _ _ (by omega)]

theorem span_placed (a c : Nat) (h : a ≤ c) : span (placed a c) = c := by
  unfold placed
  split
  · show a + (c - a + 0) = c
    omega
  · show c + 0 = c
    omega

theorem place_HeapIs (s : State) (pre : List Blk) (c fl a : Nat) (post : List Blk)
    (h : HeapIs s (pre ++ (c, fl) :: post)) (ha : a ≤ c) (ha8 : a % 8 = 0) (hpos : 8 ≤ a) :
    HeapIs (place s (s.heap_listp + 8 + span pre) a) (pre ++ placed a c ++ post) ∧
    (∀ x, x + 4 < s.heap_listp + 8 + span pre ∨ s.heap_listp + 8 + span pre + c ≤ x + 4 →
      (place s (s.heap_listp + 8 + span pre) a).mem x = s.mem x) := by
  obtain ⟨g1, g2, g3, g4, g5, g6⟩ := h
  have hsp : span (pre ++ (c, fl) :: post) = span pre + (c + span post) := by
    rw [span_append]; rfl
  rw [hsp] at g3
  have e0 : s.heap_listp + 8 + span pre = s.heap_listp + span ((8, 0) :: pre) := by
    show _ = s.heap_listp + (8 + span pre)
    omega
  have hpc := place_chain s s.heap_listp ((8, 0) :: pre) c fl a post (by omega) g2
    (by
      have : span ((8, 0) :: pre ++ (c, fl) :: post) = 8 + (span pre + (c + span post)) := by
        show 8 + span (pre ++ (c, fl) :: post) = _
        rw [hsp]
      rw [this]; omega)
    ha ha8 hpos
  rw [← e0] at hpc
  obtain ⟨hp1, hp2⟩ := hpc
  refine ⟨⟨?_, ?_, ?_, ?_, ?_, ?_⟩, hp2⟩
  · rw [place_heap_listp]; exact g1
  · rw [place_heap_listp]; exact hp1
  · rw [place_heap_listp, place_mem_brk, span_append, span_append, span_placed a c ha]
    omega
  · rw [place_mem_brk, ← g4]
    apply GET_congr
    intro x hx1 _
    exact hp2 x (Or.inr (by omega))
  · rw [place_mem_brk, place_mem_max_addr]; exact g5
  · rw [place_mem_max_addr]; exact g6

theorem adjust_spec (size : Nat) (h0 : 0 < size) (hw : size + 11 < W32) :
    adjust size % 8 = 0 ∧ 8 ≤ adjust size ∧ size + 4 ≤ adjust size ∧
      adjust size < size + 12 := by
  unfold adjust WSIZE OVERHEAD DSIZE W32 at *
  split
  · omega
  · have e : (size + 4 + (8 - 1)) % 4294967296 = size + 11 := by omega
    rw [e]
    omega

theorem find_fit_HeapIs (s : State) (L : List Blk) (asize : Nat) (h : HeapIs s L) :
    find_fit s asize = some (firstFit asize (s.heap_listp + 8) L) := by
  obtain ⟨g1, g2, g3, g4, g5, g6⟩ := h
  have hsp : span ((8, 0) :: L) = 8 + span L := rfl
  have hlen := length_le_span s.mem _ _ g2
  rw [hsp] at hlen
  unfold find_fit
  rw [find_fit_loop_chain s.mem asize ((8, 0) :: L) loopFuel s.heap_listp g2
    (by rw [hsp]; have e : s.heap_listp + (8 + span L) - 4 = s.mem_brk - 4 := by omega
        rw [e]; exact g4)
    (by omega) (by rw [hsp]; omega) (by unfold loopFuel; unfold W32 at g6; omega)]
  rfl

/-! ## Allocation -/

theorem firstFit_zero_of_none (asize : Nat) (L : List Blk) :
    ∀ (bp : Nat), (∀ b ∈ L, ¬ (b.2 ≠ 0 ∧ asize ≤ b.1)) → firstFit asize bp L = 0 := by
  induction L with
  | nil => intro bp _; rfl
  | cons x L ih =>
    intro bp h
    unfold firstFit
    rw [if_neg (h x (List.mem_cons_self _ _))]
    exact ih _ (fun b hb => h b (List.mem_cons_of_mem _ hb))

theorem MAX_spec (a : Nat) : MAX a CHUNKSIZE % 8 = a % 8 ∨ MAX a CHUNKSIZE = 4096 := by
  unfold MAX CHUNKSIZE
  split
  · left; rfl
  · right; rfl

theorem MAX_ge (a : Nat) : a ≤ MAX a CHUNKSIZE ∧ 4096 ≤ MAX a CHUNKSIZE := by
  unfold MAX CHUNKSIZE
  split <;> omega

theorem MAX_cases (a : Nat) : MAX a CHUNKSIZE = a ∨ MAX a CHUNKSIZE = 4096 := by
  unfold MAX CHUNKSIZE
  split
  · left; rfl
  · right; rfl

theorem malloc_fit (s : State) (size : Nat) (pre : List Blk) (c : Nat) (post : List Blk)
    (h : HeapIs s (pre ++ (c, 1) :: post)) (h0 : 0 < size)
    (hfirst : ∀ b ∈ pre, ¬ (b.2 ≠ 0 ∧ adjust size ≤ b.1)) (hc : adjust size ≤ c) :
    mm_malloc s size =
      some (s.heap_listp + 8 + span pre, place s (s.heap_listp + 8 + span pre) (adjust size)) := by
  have hff := find_fit_HeapIs s _ (adjust size) h
  rw [firstFit_skip (adjust size) pre (c, 1) post _ hfirst (by simp) hc] at hff
  have hne : s.heap_listp + 8 + span pre ≠ 0 := by omega
  have hs : size ≠ 0 := by omega
  unfold mm_malloc
  simp only [hs, if_false, hff, hne, ne_eq, not_false_eq_true, if_true]

theorem malloc_grow (s : State) (size : Nat) (L : List Blk) (h : HeapIs s L) (h0 : 0 < size)
    (hw : size + 11 < W32) (hnone : ∀ b ∈ L, ¬ (b.2 ≠ 0 ∧ adjust size ≤ b.1))
    (hroom : s.mem_brk + MAX (adjust size) CHUNKSIZE ≤ s.mem_max_addr) :
    mm_malloc s size =
      some (s.mem_brk,
        place (extend_heap s (MAX (adjust size) CHUNKSIZE / WSIZE)).2 s.mem_brk (adjust size)) := by
  have hff := find_fit_HeapIs s _ (adjust size) h
  rw [firstFit_zero_of_none (adjust size) L _ hnone] at hff
  have hs : size ≠ 0 := by omega
  have ha := adjust_spec size h0 hw
  have h8 : MAX (adjust size) CHUNKSIZE % 8 = 0 := by
    rcases MAX_cases (adjust size) with e | e <;> rw [e]
    exact ha.1
  have hge := MAX_ge (adjust size)
  obtain ⟨e1, _, _, _, _, _⟩ := extend_heap_ok s _ L h h8 (by omega) hroom
  have hbrk : s.mem_brk ≠ 0 := by
    obtain ⟨g1, _, g3, _⟩ := h
    omega
  unfold mm_malloc
  simp only [hs, if_false, hff, ne_eq, not_true_eq_false, e1, hbrk]

theorem malloc_oom (s : State) (size : Nat) (L : List Blk) (h : HeapIs s L) (h0 : 0 < size)
    (hw : size + 11 < W32) (hnone : ∀ b ∈ L, ¬ (b.2 ≠ 0 ∧ adjust size ≤ b.1))
    (hfull : s.mem_max_addr < s.mem_brk + MAX (adjust size) CHUNKSIZE) :
    mm_malloc s size = some (0, s) := by
  have hff := find_fit_HeapIs s _ (adjust size) h
  rw [firstFit_zero_of_none (adjust size) L _ hnone] at hff
  have hs : size ≠ 0 := by omega
  have ha := adjust_spec size h0 hw
  have h8 : MAX (adjust size) CHUNKSIZE % 8 = 0 := by
    rcases MAX_cases (adjust size) with e | e <;> rw [e]
    exact ha.1
  have hlt : MAX (adjust size) CHUNKSIZE < W32 := by
    rcases MAX_cases (adjust size) with e | e <;> rw [e] <;> unfold W32 at * <;> omega
  have e := extend_heap_fail s _ h8 hlt hfull
  unfold mm_malloc
  simp only [hs, if_false, hff, ne_eq, not_true_eq_false, e, if_true]

/-! ## Merging in the block list -/

theorem mergePrev_concat (A : List Blk) (b x : Blk) (post : List Blk) :
    mergePrev (A ++ [b]) (x :: post) =
      if b.2 = 1 then A ++ (b.1 + x.1, 1) :: post else A ++ b :: x :: post := by
  induction A with
  | nil => simp [mergePrev]
  | cons a A ih =>
    cases A with
    | nil =>
      show a :: mergePrev [b] (x :: post) = _
      simp only [mergePrev]
      split <;> rfl
    | cons c A =>
      show a :: mergePrev (c :: A ++ [b]) (x :: post) = _
      rw [ih]
      split <;> rfl

theorem mergePrev_cons_alloc (sz : Nat) (pre rest : List Blk) (hr : rest ≠ []) :
    mergePrev ((sz, 0) :: pre) rest = (sz, 0) :: mergePrev pre rest := by
  cases rest with
  | nil => exact absurd rfl hr
  | cons x post =>
    cases pre with
    | nil => simp [mergePrev]
    | cons c pre => rfl

theorem mergeNext_shape (sz : Nat) (post : List Blk) :
    ∃ sz1 post1, mergeNext sz post = (sz1, 1) :: post1 ∧ sz ≤ sz1 ∧
      sz1 + span post1 = sz + span post := by
  cases post with
  | nil => exact ⟨sz, [], rfl, Nat.le_refl _, rfl⟩
  | cons b post =>
    simp only [mergeNext]
    by_cases hb : b.2 = 1
    · rw [if_pos hb]
      exact ⟨sz + b.1, post, rfl, by omega, by show _ = sz + (b.1 + span post); omega⟩
    · rw [if_neg hb]
      exact ⟨sz, b :: post, rfl, Nat.le_refl _, rfl⟩

theorem NoAdjFree_mergeNext (sz : Nat) (post : List Blk)
    (h : NoAdjFree ((sz, 0) :: post)) : NoAdjFree (mergeNext sz post) := by
  unfold NoAdjFree at *
  cases post with
  | nil => exact List.chain'_singleton _
  | cons b post =>
    simp only [mergeNext]
    have h2 := (List.chain'_cons.mp h).2
    by_cases hb : b.2 = 1
    · rw [if_pos hb]
      rw [List.chain'_cons'] at h2 ⊢
      refine ⟨?_, h2.2⟩
      intro y hy
      have := h2.1 y hy
      simp only [hb, true_and] at this
      simpa using this
    · rw [if_neg hb]
      exact List.Chain'.cons (by simp [hb]) h2

theorem NoAdjFree_mergePrev (pre : List Blk) (x : Blk) (post : List Blk) (c : Nat)
    (h1 : NoAdjFree (pre ++ [(c, 0)])) (h2 : NoAdjFree (x :: post)) (hx : x.2 = 1) :
    NoAdjFree (mergePrev pre (x :: post)) := by
  unfold NoAdjFree at *
  rcases List.eq_nil_or_concat pre with e | ⟨A, b, e⟩
  · subst e; exact h2
  · rw [List.concat_eq_append] at e
    subst e
    rw [mergePrev_concat]
    have hA : List.Chain' (fun a b : Blk => ¬ (a.2 = 1 ∧ b.2 = 1)) (A ++ [b]) := by
      have := (List.chain'_append.mp h1).1
      exact this
    by_cases hb : b.2 = 1
    · rw [if_pos hb]
      rw [List.chain'_split]
      have hx2 := List.chain'_cons'.mp h2
      refine ⟨?_, List.chain'_cons'.mpr ⟨?_, hx2.2⟩⟩
      · have h3 := List.chain'_append.mp hA
        refine List.chain'_append.mpr ⟨h3.1, List.chain'_singleton _, ?_⟩
        intro u hu v hv
        have := h3.2.2 u hu b (by simp)
        simp at hv
        subst hv
        simpa [hb] using this
      · intro y hy
        have := hx2.1 y hy
        simpa [hx] using this
    · rw [if_neg hb]
      rw [List.chain'_split]
      exact ⟨hA, List.Chain'.cons (by simp [hb]) h2⟩

theorem NoAdjFree_freeMerge (pre : List Blk) (sz : Nat) (post : List Blk)
    (h : NoAdjFree (pre ++ (sz, 0) :: post)) : NoAdjFree (freeMerge pre sz post) := by
  have hs : NoAdjFree (pre ++ [(sz, 0)]) ∧ NoAdjFree ((sz, 0) :: post) := by
    unfold NoAdjFree at *
    exact List.chain'_split.mp h
  obtain ⟨sz1, post1, e, _, _⟩ := mergeNext_shape sz post
  have hn := NoAdjFree_mergeNext sz post hs.2
  unfold freeMerge
  rw [e] at hn ⊢
  exact NoAdjFree_mergePrev pre (sz1, 1) post1 sz hs.1 hn rfl

/-! ## Freeing and coalescing -/

theorem coalesce_next_eq (s : State) (bp size : Nat) :
    coalesce_next s bp size =
      if GET_ALLOC s.mem (HDRP (NEXT_BLKP s.mem bp)) ≠ 0 then
        ((size + GET_SIZE s.mem (HDRP (NEXT_BLKP s.mem bp))) % W32,
          PUT (PUT s.mem (HDRP bp)
              (PACK ((size + GET_SIZE s.mem (HDRP (NEXT_BLKP s.mem bp))) % W32) 1))
            (FTRP (PUT s.mem (HDRP bp)
              (PACK ((size + GET_SIZE s.mem (HDRP (NEXT_BLKP s.mem bp))) % W32) 1)) bp)
            (PACK ((size + GET_SIZE s.mem (HDRP (NEXT_BLKP s.mem bp))) % W32) 1))
      else (size, s.mem) := by
  unfold coalesce_next
  by_cases hn : GET_ALLOC s.mem (HDRP (NEXT_BLKP s.mem bp)) ≠ 0 <;>
    by_cases hp1 : GET_ALLOC s.mem (FTRP s.mem (PREV_BLKP s.mem bp)) ≠ 0 <;>
    by_cases hp2 : PREV_BLKP s.mem bp = bp <;>
    simp [hn, hp1, hp2]

theorem toInt_lt_of_lt (lo top a b : Nat) (htop : top ≤ W32)
    (hhalf : top ≤ 2147483648 ∨ 2147483648 ≤ lo) (ha : lo ≤ a) (hab : a < b)
    (hb : b < top) : toInt a < toInt b := by
  apply (toInt_lt_iff a b (by omega) (by omega) _).mpr hab
  rcases hhalf with h | h
  · left; omega
  · right; omega

theorem scan_loop_chain (m : Mem) (hiFn bp top : Nat) (A : List Blk) (b : Blk) :
    ∀ (fuel hp : Nat), Chain m hp (A ++ [b]) → hp + span (A ++ [b]) = bp → 4 ≤ hp →
      bp < top → top ≤ W32 →
      (A ≠ [] → (top ≤ 2147483648 ∨ 2147483648 ≤ hp) ∧
        ∀ a, hp ≤ a → a < top → toInt a < toInt hiFn) →
      A.length < fuel → scan_loop m hiFn bp fuel hp = some (hp + span A) := by
  induction A with
  | nil =>
    intro fuel hp hc hsp h4 hbt htop _ hfuel
    cases fuel with
    | zero => simp at hfuel
    | succ n =>
      obtain ⟨h1, h2, h3, h5, _⟩ := hc
      have hs : span ([] ++ [b]) = b.1 := by show b.1 + 0 = b.1; omega
      rw [hs] at hsp
      have e1 : psub hp WSIZE = hp - 4 := HDRP_eq hp h4 (by omega)
      have e3 : NEXT_BLKP m hp = bp := by
        unfold NEXT_BLKP
        rw [e1, (hdr_read m (hp - 4) b.1 b.2 h1 h3 h5).1, ← hsp]
        exact padd_eq _ _ (by omega)
      unfold scan_loop
      rw [e3]
      have hn : ¬ (toInt bp < toInt bp ∧ toInt hp < toInt hiFn) := by
        intro h; exact absurd h.1 (Int.lt_irrefl _)
      rw [if_neg hn]
      rfl
  | cons x A ih =>
    intro fuel hp hc hsp h4 hbt htop hsc hfuel
    cases fuel with
    | zero => simp at hfuel
    | succ n =>
      obtain ⟨hhalf, hhi⟩ := hsc (by simp)
      have hc0 := hc
      obtain ⟨h1, h2, h3, h5, h6⟩ := hc
      have hs : span (x :: A ++ [b]) = x.1 + span (A ++ [b]) := rfl
      rw [hs] at hsp
      have hsA : span (A ++ [b]) = span A + b.1 := by
        rw [span_append]; show span A + (b.1 + 0) = _; omega
      have hb8 : 8 ≤ b.1 := by
        have := Chain_bits m _ _ hc0 b (by simp)
        exact this.1
      have e1 : psub hp WSIZE = hp - 4 := HDRP_eq hp h4 (by omega)
      have e3 : NEXT_BLKP m hp = hp + x.1 := by
        unfold NEXT_BLKP
        rw [e1, (hdr_read m (hp - 4) x.1 x.2 h1 h3 h5).1]
        exact padd_eq _ _ (by omega)
      unfold scan_loop
      rw [e3]
      have hy : toInt (hp + x.1) < toInt bp ∧ toInt hp < toInt hiFn :=
        ⟨toInt_lt_of_lt hp top _ _ htop hhalf (by omega) (by omega) hbt,
          hhi hp (Nat.le_refl _) (by omega)⟩
      rw [if_pos hy]
      have hlen : A.length < n := by
        have : (x :: A).length = A.length + 1 := rfl
        omega
      rw [ih n (hp + x.1) h6 (by omega) (by omega) hbt htop
        (fun _ => ⟨by omega, fun a ha1 ha2 => hhi a (by omega) ha2⟩) hlen]
      have e : hp + span (x :: A) = hp + x.1 + span A := by
        have : span (x :: A) = x.1 + span A := rfl
        omega
      rw [e]

theorem FTRP_eq (m : Mem) (bp sz fl : Nat) (h4 : 4 ≤ bp) (hg : GET m (bp - 4) = sz + fl)
    (h8 : sz % 8 = 0) (hfl : fl ≤ 1) (hpos : 8 ≤ sz) (hlt : bp + sz < W32) :
    FTRP m bp = bp + sz - 8 := by
  unfold FTRP
  rw [HDRP_eq bp h4 (by omega), (hdr_read m _ sz fl hg h8 hfl).1, padd_eq _ _ hlt]
  unfold DSIZE
  exact psub_eq _ _ (by omega) hlt

theorem free_next_step (s : State) (pre : List Blk) (sz : Nat) (post : List Blk)
    (h : HeapIs s (pre ++ (sz, 0) :: post)) :
    ∃ sz1 post1 m1, mergeNext sz post = (sz1, 1) :: post1 ∧
      coalesce_next
        (State.mk (PUT (PUT s.mem (s.heap_listp + 8 + span pre - 4) (sz + 1))
          (s.heap_listp + 8 + span pre + sz - 8) (sz + 1))
          s.mem_brk s.mem_max_addr s.heap_listp)
        (s.heap_listp + 8 + span pre) sz = (sz1, m1) ∧
      GET m1 (s.heap_listp + 8 + span pre - 4) = sz1 + 1 ∧
      Chain s.mem (s.heap_listp + 8 + span pre + sz1) post1 ∧
      (∀ x, x + 4 < s.heap_listp + 8 + span pre ∨ s.heap_listp + 8 + span pre + sz1 ≤ x + 4 →
        m1 x = s.mem x) := by
  obtain ⟨g1, g2, g3, g4, g5, g6⟩ := h
  have hsp : span (pre ++ (sz, 0) :: post) = span pre + (sz + span post) := by
    rw [span_append]; rfl
  rw [hsp] at g3
  have hch : Chain s.mem s.heap_listp (((8, 0) :: pre) ++ (sz, 0) :: post) := g2
  rw [Chain_append] at hch
  have e0 : s.heap_listp + span ((8, 0) :: pre) = s.heap_listp + 8 + span pre := by
    show s.heap_listp + (8 + span pre) = _
    omega
  rw [e0] at hch
  obtain ⟨_, hg, hsz, hsz8, _, hpost⟩ := hch
  simp only at hg hsz hsz8 hpost
  generalize hbp : s.heap_listp + 8 + span pre = bp at *
  have hbp4 : 4 ≤ bp := by omega
  have hgM : GET (PUT (PUT s.mem (bp - 4) (sz + 1)) (bp + sz - 8) (sz + 1)) (bp - 4)
      = sz + 1 := by
    rw [GET_PUT_ne _ _ _ _ (by omega), GET_PUT_same]
    exact Nat.mod_eq_of_lt (by omega)
  have hN : NEXT_BLKP (PUT (PUT s.mem (bp - 4) (sz + 1)) (bp + sz - 8) (sz + 1)) bp
      = bp + sz := by
    unfold NEXT_BLKP
    have : psub bp WSIZE = bp - 4 := HDRP_eq bp hbp4 (by omega)
    rw [this, (hdr_read _ _ sz 1 hgM hsz8 (by omega)).1]
    exact padd_eq _ _ (by omega)
  have hH : HDRP (bp + sz) = bp + sz - 4 := HDRP_eq _ (by omega) (by omega)
  have hnx : GET (PUT (PUT s.mem (bp - 4) (sz + 1)) (bp + sz - 8) (sz + 1)) (bp + sz - 4)
      = GET s.mem (bp + sz - 4) := by
    rw [GET_PUT_ne _ _ _ _ (by omega), GET_PUT_ne _ _ _ _ (by omega)]
  have hfr2 : ∀ x, x + 4 < bp ∨ bp + sz ≤ x + 4 →
      (PUT (PUT s.mem (bp - 4) (sz + 1)) (bp + sz - 8) (sz + 1)) x = s.mem x := by
    intro x hx
    rw [PUT_byte_ne _ _ _ _ (by omega), PUT_byte_ne _ _ _ _ (by omega)]
  rw [coalesce_next_eq]
  simp only [hN, hH]
  cases post with
  | nil =>
    have hz : GET s.mem (bp + sz - 4) = 0 := by
      have e : bp + sz - 4 = s.mem_brk - 4 := by
        have : span ([] : List Blk) = 0 := rfl
        omega
      rw [e]; exact g4
    have ha : GET_ALLOC (PUT (PUT s.mem (bp - 4) (sz + 1)) (bp + sz - 8) (sz + 1))
        (bp + sz - 4) = 0 := by
      rw [GET_ALLOC_eq, hnx, hz]
    refine ⟨sz, [], (PUT (PUT s.mem (bp - 4) (sz + 1)) (bp + sz - 8) (sz + 1)), rfl, ?_, hgM, trivial, hfr2⟩
    rw [ha]
    simp
  | cons b t =>
    obtain ⟨hb1, hb2, hb3, hb4, hb5⟩ := hpost
    have hsb : span (b :: t) = b.1 + span t := rfl
    rw [hsb] at g3
    have hrd := hdr_read _ _ b.1 b.2 (hnx.trans hb1) hb3 hb4
    by_cases hb : b.2 = 1
    · have hS : (sz + b.1) % W32 = sz + b.1 := Nat.mod_eq_of_lt (by omega)
      have hP : PACK (sz + b.1) 1 = sz + b.1 + 1 := PACK_eq _ 1 (by omega) (by omega)
      have hHb : HDRP bp = bp - 4 := HDRP_eq bp hbp4 (by omega)
      have hg3 : GET (PUT (PUT (PUT s.mem (bp - 4) (sz + 1)) (bp + sz - 8) (sz + 1))
          (bp - 4) (sz + b.1 + 1)) (bp - 4) = sz + b.1 + 1 := by
        rw [GET_PUT_same]; exact Nat.mod_eq_of_lt (by omega)
      have hF := FTRP_eq _ bp (sz + b.1) 1 hbp4 hg3 (by omega) (by omega) (by omega) (by omega)
      refine ⟨sz + b.1, t,
        PUT (PUT (PUT (PUT s.mem (bp - 4) (sz + 1)) (bp + sz - 8) (sz + 1)) (bp - 4) (sz + b.1 + 1))
          (bp + (sz + b.1) - 8) (sz + b.1 + 1),
        by simp [mergeNext, hb], ?_, ?_, ?_, ?_⟩
      · rw [hrd.1, hrd.2, hb, hS, hP, hHb, hF]
        simp
      · rw [GET_PUT_ne _ _ _ _ (by omega)]
        exact hg3
      · have e : bp + (sz + b.1) = bp + sz + b.1 := by omega
        rw [e]; exact hb5
      · intro x hx
        rw [PUT_byte_ne _ _ _ _ (by omega), PUT_byte_ne _ _ _ _ (by omega)]
        exact hfr2 x (by omega)
    · have hb0 : b.2 = 0 := by omega
      refine ⟨sz, b :: t, (PUT (PUT s.mem (bp - 4) (sz + 1)) (bp + sz - 8) (sz + 1)), by simp [mergeNext, hb], ?_, hgM,
        ⟨hb1, hb2, hb3, hb4, hb5⟩, hfr2⟩
      rw [hrd.2, hb0]
      simp

theorem free_prev_step (m : Mem) (hiFn hl top : Nat) (A : List Blk) (b : Blk) (sz1 : Nat)
    (post1 : List Blk) (hc : Chain m hl (A ++ b :: (sz1, 1) :: post1)) (h4 : 4 ≤ hl)
    (hbt : hl + span (A ++ [b]) + sz1 + span post1 ≤ top) (htop : top < W32)
    (hsc : A ≠ [] → (top ≤ 2147483648 ∨ 2147483648 ≤ hl) ∧
      ∀ a, hl ≤ a → a < top → toInt a < toInt hiFn) :
    scan_loop m hiFn (hl + span (A ++ [b])) loopFuel hl = some (hl + span A) ∧
    Chain (coalesce_prev m sz1 (hl + span A)) hl (mergePrev (A ++ [b]) ((sz1, 1) :: post1)) ∧
    (∀ x, (b.2 = 1 → x + 4 < hl + span A ∨ hl + span A ≤ x) →
      coalesce_prev m sz1 (hl + span A) x = m x) := by
  have hc1 : Chain m hl ((A ++ [b]) ++ (sz1, 1) :: post1) := by
    rw [List.append_assoc]; exact hc
  rw [Chain_append] at hc1
  obtain ⟨hcA, hcm⟩ := hc1
  obtain ⟨hm1, hm2, hm3, _, hm5⟩ := hcm
  simp only at hm1 hm2 hm3 hm5
  have hsAb : span (A ++ [b]) = span A + b.1 := by
    rw [span_append]; show span A + (b.1 + 0) = _; omega
  have hlen := length_le_span m _ _ hcA
  have hl1 : (A ++ [b]).length = A.length + 1 := by simp
  rw [hl1, hsAb] at hlen
  rw [hsAb] at hbt
  have hscan := scan_loop_chain m hiFn (hl + span (A ++ [b])) top A b loopFuel hl hcA rfl h4
    (by rw [hsAb]; omega) (by omega) hsc (by unfold loopFuel; unfold W32 at htop; omega)
  refine ⟨hscan, ?_⟩
  rw [Chain_append] at hcA
  obtain ⟨hcA1, hb1, hb2, hb3, hb4, _⟩ := hcA
  have hH : HDRP (hl + span A) = hl + span A - 4 := HDRP_eq _ (by omega) (by omega)
  have hrd := hdr_read m _ b.1 b.2 hb1 hb3 hb4
  rw [mergePrev_concat]
  unfold coalesce_prev
  rw [hH, hrd.1, hrd.2]
  by_cases hb : b.2 = 1
  · rw [if_pos hb, if_pos hb]
    have hS : (sz1 + b.1) % W32 = sz1 + b.1 := Nat.mod_eq_of_lt (by omega)
    have hP : PACK (sz1 + b.1) 1 = sz1 + b.1 + 1 := PACK_eq _ 1 (by omega) (by omega)
    rw [hS, hP]
    constructor
    · rw [Chain_append]
      refine ⟨?_, ?_, by simp only; omega, by simp only; omega, by simp, ?_⟩
      · apply Chain_congr m _ A hl h4 _ hcA1
        intro a _ ha2
        rw [PUT_byte_ne _ _ _ _ (by omega)]
      · rw [GET_PUT_same]
        show (sz1 + b.1 + 1) % W32 = b.1 + sz1 + 1
        rw [Nat.mod_eq_of_lt (by omega)]; omega
      · have e : hl + span A + (b.1 + sz1, 1).1 = hl + span (A ++ [b]) + sz1 := by
          rw [hsAb]; simp only; omega
        rw [e]
        apply Chain_congr m _ post1 _ (by omega) _ hm5
        intro a ha1 _
        rw [hsAb] at ha1
        rw [PUT_byte_ne _ _ _ _ (by omega)]
    · intro x hx
      rw [PUT_byte_ne _ _ _ _ (by have := hx hb; omega)]
  · rw [if_neg hb, if_neg hb]
    exact ⟨hc, fun _ _ => rfl⟩

/-! ## Block pointers of a chain -/

theorem blocksAt_append (A B : List Blk) :
    ∀ bp, blocksAt bp (A ++ B) = blocksAt bp A ++ blocksAt (bp + span A) B := by
  induction A with
  | nil => intro bp; simp [blocksAt, span]
  | cons x A ih =>
    intro bp
    show (bp, x.1, x.2) :: blocksAt (bp + x.1) (A ++ B) =
      (bp, x.1, x.2) :: blocksAt (bp + x.1) A ++ blocksAt (bp + (x.1 + span A)) B
    rw [ih]
    have e : bp + x.1 + span A = bp + (x.1 + span A) := by omega
    rw [e]
    rfl

theorem mem_blocksAt_mid (A : List Blk) (c f : Nat) (B : List Blk) (bp : Nat) :
    (bp + span A, c, f) ∈ blocksAt bp (A ++ (c, f) :: B) := by
  rw [blocksAt_append]
  apply List.mem_append_right
  exact List.mem_cons_self _ _

theorem blocksAt_split (L : List Blk) :
    ∀ (bp q c f : Nat), (q, c, f) ∈ blocksAt bp L →
      ∃ X Y, L = X ++ (c, f) :: Y ∧ q = bp + span X := by
  induction L with
  | nil => intro bp q c f h; simp [blocksAt] at h
  | cons x L ih =>
    intro bp q c f h
    rcases List.mem_cons.mp h with e | hin
    · simp only [Prod.mk.injEq] at e
      obtain ⟨e1, e2, e3⟩ := e
      refine ⟨[], L, ?_, by simp [span]; exact e1⟩
      show x :: L = (c, f) :: L
      rw [e2, e3]
    · obtain ⟨X, Y, e1, e2⟩ := ih (bp + x.1) q c f hin
      refine ⟨x :: X, Y, by rw [e1]; rfl, ?_⟩
      rw [e2]
      show bp + x.1 + span X = bp + (x.1 + span X)
      omega

theorem blocksAt_range (L : List Blk) :
    ∀ (bp q c f : Nat), (q, c, f) ∈ blocksAt bp L → bp ≤ q ∧ q + c ≤ bp + span L := by
  intro bp q c f h
  obtain ⟨X, Y, e1, e2⟩ := blocksAt_split L bp q c f h
  have : span L = span X + (c + span Y) := by rw [e1, span_append]; rfl
  omega

theorem blocksAt_disjoint (L : List Blk) :
    ∀ (bp : Nat) (u v : Nat × Nat × Nat), (∀ b ∈ L, 0 < b.1) → u ∈ blocksAt bp L →
      v ∈ blocksAt bp L → u = v ∨ u.1 + u.2.1 ≤ v.1 ∨ v.1 + v.2.1 ≤ u.1 := by
  induction L with
  | nil => intro bp u v _ h; simp [blocksAt] at h
  | cons x L ih =>
    intro bp u v hpos hu hv
    have hx := hpos x (List.mem_cons_self _ _)
    have hpos1 : ∀ b ∈ L, 0 < b.1 := fun b hb => hpos b (List.mem_cons_of_mem _ hb)
    rcases List.mem_cons.mp hu with eu | hu1 <;> rcases List.mem_cons.mp hv with ev | hv1
    · left; rw [eu, ev]
    · right; left
      have := blocksAt_range L (bp + x.1) v.1 v.2.1 v.2.2 hv1
      rw [eu]; simp only; omega
    · right; right
      have := blocksAt_range L (bp + x.1) u.1 u.2.1 u.2.2 hu1
      rw [ev]; simp only; omega
    · exact ih (bp + x.1) u v hpos1 hu1 hv1

/-! ## The specification of `mm_free` -/

theorem toInt_le (p : Nat) : toInt p ≤ 2147483647 := by
  unfold toInt W32
  split <;> omega

theorem ScanOK_half (hiFn lo top : Nat) (h : ScanOK hiFn lo top) :
    top ≤ 2147483648 ∨ 2147483648 ≤ lo := by
  by_contra hc
  have h1 := h 2147483647 (by omega) (by omega)
  have h2 := toInt_le hiFn
  have h3 : toInt 2147483647 = 2147483647 := by decide
  omega

theorem mm_free_unfold (hiFn : Nat) (s : State) (bp sz fl : Nat) (h4 : 4 ≤ bp)
    (hg : GET s.mem (bp - 4) = sz + fl) (h8 : sz % 8 = 0) (hfl : fl ≤ 1) (hpos : 8 ≤ sz)
    (hlt : bp + sz < W32) (hrd : freeReadOK s bp) (r : Nat × Mem)
    (hr : coalesce_next
      (State.mk (PUT (PUT s.mem (bp - 4) (sz + 1)) (bp + sz - 8) (sz + 1))
        s.mem_brk s.mem_max_addr s.heap_listp) bp sz = r)
    (hp : Nat) (hscan : scan_loop r.2 hiFn bp loopFuel s.heap_listp = some hp) :
    mm_free hiFn s bp =
      some (State.mk (coalesce_prev r.2 r.1 hp) s.mem_brk s.mem_max_addr s.heap_listp) := by
  have hne : bp ≠ 0 := by omega
  have hH : HDRP bp = bp - 4 := HDRP_eq bp h4 (by omega)
  have hP : PACK sz 1 = sz + 1 := PACK_eq sz 1 h8 (by omega)
  have hg1 : GET (PUT s.mem (bp - 4) (sz + 1)) (bp - 4) = sz + 1 := by
    rw [GET_PUT_same]; exact Nat.mod_eq_of_lt (by omega)
  have hF := FTRP_eq (PUT s.mem (bp - 4) (sz + 1)) bp sz 1 h4 hg1 h8 (by omega) hpos hlt
  have hrd1 : prevReadOK
      (State.mk (PUT (PUT s.mem (bp - 4) (sz + 1)) (bp + sz - 8) (sz + 1))
        s.mem_brk s.mem_max_addr s.heap_listp) bp := by
    unfold freeReadOK at hrd
    rcases hrd with e | hrd
    · exact absurd e hne
    · simp only [hH, (hdr_read _ _ sz fl hg h8 hfl).1, hP, hF] at hrd
      exact hrd
  unfold mm_free
  rw [if_neg hne]
  simp only [hH, (hdr_read _ _ sz fl hg h8 hfl).1, hP, hF]
  unfold coalesce_run
  rw [if_pos hrd1]
  unfold coalesce
  simp only [hr, hscan]

/-- A sufficient condition for `mm_free(bp)` to read inside the heap region:
the word at `bp - 8` has size field zero (as the pad word before the first
block has, and every payload word the user left at zero).  Then `prev_blk` is
`bp` itself. -/
theorem freeReadOK_of_zero (s : State) (pre : List Blk) (sz : Nat) (post : List Blk)
    (h : HeapIs s (pre ++ (sz, 0) :: post))
    (hz : GET s.mem (s.heap_listp + span pre) < 8) :
    freeReadOK s (s.heap_listp + 8 + span pre) := by
  obtain ⟨g1, g2, g3, g4, g5, g6⟩ := h
  have hsp : span (pre ++ (sz, 0) :: post) = span pre + (sz + span post) := by
    rw [span_append]; rfl
  rw [hsp] at g3
  have hch : Chain s.mem s.heap_listp (((8, 0) :: pre) ++ (sz, 0) :: post) := g2
  rw [Chain_append] at hch
  have e0 : s.heap_listp + span ((8, 0) :: pre) = s.heap_listp + 8 + span pre := by
    show s.heap_listp + (8 + span pre) = _
    omega
  rw [e0] at hch
  obtain ⟨_, hg, hsz, hsz8, _, _⟩ := hch
  simp only at hg hsz hsz8
  have hz1 : GET s.mem (s.heap_listp + 8 + span pre - 8) < 8 := by
    have e : s.heap_listp + 8 + span pre - 8 = s.heap_listp + span pre := by omega
    rw [e]; exact hz
  generalize hbp : s.heap_listp + 8 + span pre = bp at *
  have hbp4 : 4 ≤ bp := by omega
  have hH : HDRP bp = bp - 4 := HDRP_eq bp hbp4 (by omega)
  have hP : PACK sz 1 = sz + 1 := PACK_eq sz 1 hsz8 (by omega)
  have hg1 : GET (PUT s.mem (bp - 4) (sz + 1)) (bp - 4) = sz + 1 := by
    rw [GET_PUT_same]; exact Nat.mod_eq_of_lt (by omega)
  have hF := FTRP_eq (PUT s.mem (bp - 4) (sz + 1)) bp sz 1 hbp4 hg1 hsz8 (by omega) hsz
    (by omega)
  have hgM : GET (PUT (PUT s.mem (bp - 4) (sz + 1)) (bp + sz - 8) (sz + 1)) (bp - 4)
      = sz + 1 := by
    rw [GET_PUT_ne _ _ _ _ (by omega), GET_PUT_same]
    exact Nat.mod_eq_of_lt (by omega)
  have hF2 := FTRP_eq (PUT (PUT s.mem (bp - 4) (sz + 1)) (bp + sz - 8) (sz + 1)) bp sz 1 hbp4
    hgM hsz8 (by omega) hsz (by omega)
  have hM8 : GET (PUT (PUT s.mem (bp - 4) (sz + 1)) (bp + sz - 8) (sz + 1)) (bp - 8)
      = GET s.mem (bp - 8) := by
    rw [GET_PUT_ne _ _ _ _ (by omega), GET_PUT_ne _ _ _ _ (by omega)]
  have hprev : PREV_BLKP (PUT (PUT s.mem (bp - 4) (sz + 1)) (bp + sz - 8) (sz + 1)) bp
      = bp := by
    unfold PREV_BLKP
    have e8 : psub bp DSIZE = bp - 8 := psub_eq bp 8 (by omega) (by omega)
    have e00 : 8 * (GET s.mem (bp - 8) / 8) = 0 := by omega
    rw [e8, GET_SIZE_eq, hM8, e00]
    exact psub_eq bp 0 (by omega) (by omega)
  right
  simp only [hH, (hdr_read _ _ sz 0 hg hsz8 (by omega)).1, hP, hF]
  show prevReadOK (State.mk (PUT (PUT s.mem (bp - 4) (sz + 1)) (bp + sz - 8) (sz + 1))
    s.mem_brk s.mem_max_addr s.heap_listp) bp
  unfold prevReadOK
  show inHeap _ (HDRP (PREV_BLKP (PUT (PUT s.mem (bp - 4) (sz + 1)) (bp + sz - 8) (sz + 1)) bp)) ∧
    inHeap _ (FTRP (PUT (PUT s.mem (bp - 4) (sz + 1)) (bp + sz - 8) (sz + 1))
      (PREV_BLKP (PUT (PUT s.mem (bp - 4) (sz + 1)) (bp + sz - 8) (sz + 1)) bp))
  rw [hprev, hH, hF2]
  unfold inHeap
  show (s.heap_listp ≤ bp - 4 + 8 ∧ bp - 4 + 4 ≤ s.mem_max_addr) ∧
    (s.heap_listp ≤ bp + sz - 8 + 8 ∧ bp + sz - 8 + 4 ≤ s.mem_max_addr)
  omega

theorem free_spec (hiFn : Nat) (s : State) (pre : List Blk) (sz : Nat) (post : List Blk)
    (h : HeapIs s (pre ++ (sz, 0) :: post))
    (hsc : pre ≠ [] → ScanOK hiFn s.heap_listp s.mem_brk)
    (hrd : freeReadOK s (s.heap_listp + 8 + span pre)) :
    ∃ s1, mm_free hiFn s (s.heap_listp + 8 + span pre) = some s1 ∧
      HeapIs s1 (freeMerge pre sz post) ∧
      s1.heap_listp = s.heap_listp ∧ s1.mem_brk = s.mem_brk ∧
      s1.mem_max_addr = s.mem_max_addr ∧
      ∃ p1 c1, (p1, c1, 1) ∈ blocksAt (s.heap_listp + 8) (freeMerge pre sz post) ∧
        p1 ≤ s.heap_listp + 8 + span pre ∧ s.heap_listp + 8 + span pre + sz ≤ p1 + c1 ∧
        ∀ x, x + 4 < p1 ∨ p1 + c1 ≤ x + 4 → s1.mem x = s.mem x := by
  obtain ⟨sz1, post1, m1, hmn, hcn, hH1, hpost1, hfr1⟩ := free_next_step s pre sz post h
  obtain ⟨sz1', post1', hmn', hle, hspn⟩ := mergeNext_shape sz post
  rw [hmn] at hmn'
  simp only [List.cons.injEq, Prod.mk.injEq, and_true] at hmn'
  obtain ⟨e1, e2⟩ := hmn'
  subst e1; subst e2
  obtain ⟨g1, g2, g3, g4, g5, g6⟩ := h
  have hsp : span (pre ++ (sz, 0) :: post) = span pre + (sz + span post) := by
    rw [span_append]; rfl
  rw [hsp] at g3
  have hch : Chain s.mem s.heap_listp (((8, 0) :: pre) ++ (sz, 0) :: post) := g2
  rw [Chain_append] at hch
  have e0 : s.heap_listp + span ((8, 0) :: pre) = s.heap_listp + 8 + span pre := by
    show s.heap_listp + (8 + span pre) = _
    omega
  rw [e0] at hch
  obtain ⟨hcpre, hg, hsz, hsz8, _, _⟩ := hch
  simp only at hg hsz hsz8
  have hbits : sz1 % 8 = 0 := by
    have h1 := span_mod8 s.mem _ _ hpost1
    have h2 := span_mod8 s.mem _ _ g2
    have : span ((8, 0) :: (pre ++ (sz, 0) :: post)) = 8 + (span pre + (sz + span post)) := by
      show 8 + span (pre ++ (sz, 0) :: post) = _
      rw [hsp]
    rw [this] at h2
    have h3 := span_mod8 s.mem _ _ hcpre
    have : span ((8, 0) :: pre) = 8 + span pre := rfl
    rw [this] at h3
    omega
  -- the chain after the successor step
  have hc1 : Chain m1 s.heap_listp (((8, 0) :: pre) ++ (sz1, 1) :: post1) := by
    rw [Chain_append, e0]
    refine ⟨?_, hH1, by simp only; omega, hbits, by simp, ?_⟩
    · apply Chain_congr s.mem _ _ _ (by omega) _ hcpre
      intro a _ ha2
      rw [e0] at ha2
      exact hfr1 a (Or.inl (by omega))
    · apply Chain_congr s.mem _ _ _ (by omega) _ hpost1
      intro a ha1 _
      exact hfr1 a (Or.inr (by omega))
  rcases List.eq_nil_or_concat ((8, 0) :: pre) with e | ⟨A, b, e⟩
  · simp at e
  rw [List.concat_eq_append] at e
  have hAne : A ≠ [] → pre ≠ [] := by
    intro hA hp
    subst hp
    cases A with
    | nil => exact hA rfl
    | cons a A =>
      have := congrArg List.length e
      simp at this
  rw [e, List.append_assoc] at hc1
  have hspA : s.heap_listp + span (A ++ [b]) = s.heap_listp + 8 + span pre := by
    rw [← e]; exact e0
  have hstep := free_prev_step m1 hiFn s.heap_listp s.mem_brk A b sz1 post1 hc1 (by omega)
    (by rw [hspA]; omega) (by omega)
    (fun hA => ⟨ScanOK_half hiFn _ _ (hsc (hAne hA)), hsc (hAne hA)⟩)
  rw [hspA] at hstep
  obtain ⟨hscan, hcf, hfr2⟩ := hstep
  have hsAb : span (A ++ [b]) = span A + b.1 := by
    rw [span_append]; show span A + (b.1 + 0) = _; omega
  have hspA2 : s.heap_listp + span A + b.1 = s.heap_listp + 8 + span pre := by
    rw [← hspA, hsAb]; omega
  have hfree := mm_free_unfold hiFn s (s.heap_listp + 8 + span pre) sz 0 (by omega) hg hsz8
    (by omega) hsz (by omega) hrd (sz1, m1) hcn (s.heap_listp + span A) hscan
  refine ⟨_, hfree, ⟨g1, ?_, ?_, ?_, g5, g6⟩, rfl, rfl, rfl, ?_⟩
  · show Chain (coalesce_prev m1 sz1 (s.heap_listp + span A)) s.heap_listp
      ((8, 0) :: freeMerge pre sz post)
    unfold freeMerge
    rw [hmn, ← mergePrev_cons_alloc 8 pre _ (by simp), e]
    exact hcf
  · show s.heap_listp + 8 + span (freeMerge pre sz post) = s.mem_brk
    have hsm : ∀ (X : List Blk) (x : Blk) (Y : List Blk),
        span (mergePrev X (x :: Y)) = span X + (x.1 + span Y) := by
      intro X x Y
      rcases List.eq_nil_or_concat X with e | ⟨X1, y, e⟩
      · subst e
        show x.1 + span Y = 0 + (x.1 + span Y)
        omega
      · rw [List.concat_eq_append] at e
        subst e
        rw [mergePrev_concat]
        split
        · rw [span_append, span_append]
          show span X1 + (y.1 + x.1 + span Y) = span X1 + (y.1 + 0) + (x.1 + span Y)
          omega
        · rw [span_append, span_append]
          show span X1 + (y.1 + (x.1 + span Y)) = span X1 + (y.1 + 0) + (x.1 + span Y)
          omega
    unfold freeMerge
    rw [hmn, hsm]
    simp only
    omega
  · show GET (coalesce_prev m1 sz1 (s.heap_listp + span A)) (s.mem_brk - 4) = 0
    rw [← g4]
    apply GET_congr
    intro x hx1 _
    rw [hfr2 x (fun _ => Or.inr (by omega))]
    exact hfr1 x (Or.inr (by omega))
  · have hb8 := Chain_bits m1 _ _ hc1 b (by simp)
    by_cases hb : b.2 = 1
    · refine ⟨s.heap_listp + span A, b.1 + sz1, ?_, by omega, by omega, ?_⟩
      · have hm : (s.heap_listp + span A, b.1 + sz1, 1) ∈
            blocksAt s.heap_listp ((8, 0) :: freeMerge pre sz post) := by
          unfold freeMerge
          rw [hmn, ← mergePrev_cons_alloc 8 pre _ (by simp), e, mergePrev_concat, if_pos hb]
          exact mem_blocksAt_mid A _ 1 post1 s.heap_listp
        rcases List.mem_cons.mp hm with e3 | hin
        · simp at e3
        · exact hin
      · intro x hx
        show coalesce_prev m1 sz1 (s.heap_listp + span A) x = s.mem x
        rw [hfr2 x (fun _ => by omega)]
        exact hfr1 x (by omega)
    · refine ⟨s.heap_listp + 8 + span pre, sz1, ?_, Nat.le_refl _, by omega, ?_⟩
      · have hm : (s.heap_listp + 8 + span pre, sz1, 1) ∈
            blocksAt s.heap_listp ((8, 0) :: freeMerge pre sz post) := by
          unfold freeMerge
          rw [hmn, ← mergePrev_cons_alloc 8 pre _ (by simp), e, mergePrev_concat, if_neg hb]
          have := mem_blocksAt_mid (A ++ [b]) sz1 1 post1 s.heap_listp
          rw [List.append_assoc] at this
          rw [← hspA]
          exact this
        rcases List.mem_cons.mp hm with e3 | hin
        · simp at e3
        · exact hin
      · intro x hx
        show coalesce_prev m1 sz1 (s.heap_listp + span A) x = s.mem x
        rw [hfr2 x (fun hb1 => absurd hb1 hb)]
        exact hfr1 x hx

/-! ## The heap after `mm_init` -/

theorem mm_init_HeapIs (KEY : Nat) (s0 : State) (hok : (mm_init KEY s0).1 ≠ -1)
    (hmax : s0.mem_max_addr < W32) :
    HeapIs (mm_init KEY s0).2 [(4096, 1)] ∧
    (mm_init KEY s0).2.heap_listp = s0.mem_brk + 8 ∧
    (mm_init KEY s0).2.mem_brk = s0.mem_brk + 16 + 4096 ∧
    (mm_init KEY s0).2.mem_max_addr = s0.mem_max_addr := by
  have e16 : 4 * WSIZE = 16 := rfl
  have eC : CHUNKSIZE / WSIZE = 4096 / WSIZE := rfl
  unfold mm_init at hok ⊢
  dsimp only at hok ⊢
  rw [e16, eC] at hok ⊢
  rcases mem_sbrk_cases s0 16 with ⟨hfull, e⟩ | ⟨hroom, e⟩
  · -- the first request is refused: the second one is refused too
    exfalso
    rw [e] at hok
    dsimp only at hok
    have hne : W32 - 1 ≠ 0 := by unfold W32; omega
    rw [if_neg hne] at hok
    rw [extend_heap_fail _ 4096 (by rfl) (by unfold W32; omega)
      (by show s0.mem_max_addr < s0.mem_brk + 4096; omega)] at hok
    exact hok rfl
  · rw [e] at hok ⊢
    dsimp only at hok ⊢
    by_cases h0 : s0.mem_brk = 0
    · rw [if_pos h0] at hok; exact absurd rfl hok
    · rw [if_neg h0] at hok ⊢
      have p4 : padd s0.mem_brk WSIZE = s0.mem_brk + 4 := padd_eq _ _ (by unfold WSIZE; omega)
      have p8 : padd s0.mem_brk DSIZE = s0.mem_brk + 8 := padd_eq _ _ (by unfold DSIZE; omega)
      have p12 : padd (s0.mem_brk + 8) WSIZE = s0.mem_brk + 12 :=
        padd_eq _ _ (by unfold WSIZE; omega)
      have k8 : PACK DSIZE 0 = 8 := by rfl
      have k0 : PACK 0 0 = 0 := by rfl
      rw [p4, p8, p12, k8, k0] at hok ⊢
      generalize hs2 : State.mk (PUT (PUT (PUT (PUT s0.mem s0.mem_brk KEY) (s0.mem_brk + 4) 8)
        (s0.mem_brk + 8) 0) (s0.mem_brk + 12) 0) (s0.mem_brk + 16) s0.mem_max_addr
        (s0.mem_brk + 8) = s2 at hok ⊢
      have hw : HeapIs s2 [] := by
        rw [← hs2]
        refine ⟨by show 8 ≤ s0.mem_brk + 8; omega, ⟨?_, by simp, by simp, by simp, trivial⟩,
          by show s0.mem_brk + 8 + 8 + 0 = s0.mem_brk + 16; omega, ?_, hroom, hmax⟩
        · show GET _ (s0.mem_brk + 8 - 4) = 8 + 0
          have e4 : s0.mem_brk + 8 - 4 = s0.mem_brk + 4 := by omega
          rw [e4, GET_PUT_ne _ _ _ _ (by omega), GET_PUT_ne _ _ _ _ (by omega), GET_PUT_same]
          rfl
        · show GET _ (s0.mem_brk + 16 - 4) = 0
          have e4 : s0.mem_brk + 16 - 4 = s0.mem_brk + 12 := by omega
          rw [e4, GET_PUT_same]
          rfl
      have hb2 : s2.mem_brk = s0.mem_brk + 16 := by rw [← hs2]
      have hl2 : s2.heap_listp = s0.mem_brk + 8 := by rw [← hs2]
      have hm2 : s2.mem_max_addr = s0.mem_max_addr := by rw [← hs2]
      by_cases hfit : s2.mem_brk + 4096 ≤ s2.mem_max_addr
      · obtain ⟨x1, x2, x3, x4, x5, _⟩ := extend_heap_ok s2 4096 [] hw (by rfl) (by omega) hfit
        have hne : (extend_heap s2 (4096 / WSIZE)).1 ≠ 0 := by rw [x1, hb2]; omega
        rw [if_neg hne]
        exact ⟨x2, by rw [x3, hl2], by rw [x5, hb2], by rw [x4, hm2]⟩
      · exfalso
        rw [extend_heap_fail s2 4096 (by rfl) (by unfold W32; omega) (by omega)] at hok
        exact hok rfl

/-- The pad word at `heap_listp`, between the prologue header and the header
of the first block, is zero after `mm_init`. -/
theorem mm_init_pad (KEY : Nat) (s0 : State) (hok : (mm_init KEY s0).1 ≠ -1)
    (hmax : s0.mem_max_addr < W32) :
    GET (mm_init KEY s0).2.mem (s0.mem_brk + 8) = 0 := by
  have e16 : 4 * WSIZE = 16 := rfl
  have eC : CHUNKSIZE / WSIZE = 4096 / WSIZE := rfl
  unfold mm_init at hok ⊢
  dsimp only at hok ⊢
  rw [e16, eC] at hok ⊢
  rcases mem_sbrk_cases s0 16 with ⟨hfull, e⟩ | ⟨hroom, e⟩
  · exfalso
    rw [e] at hok
    dsimp only at hok
    have hne : W32 - 1 ≠ 0 := by unfold W32; omega
    rw [if_neg hne] at hok
    rw [extend_heap_fail _ 4096 (by rfl) (by unfold W32; omega)
      (by show s0.mem_max_addr < s0.mem_brk + 4096; omega)] at hok
    exact hok rfl
  · rw [e] at hok ⊢
    dsimp only at hok ⊢
    by_cases h0 : s0.mem_brk = 0
    · rw [if_pos h0] at hok; exact absurd rfl hok
    · rw [if_neg h0] at hok ⊢
      have p4 : padd s0.mem_brk WSIZE = s0.mem_brk + 4 := padd_eq _ _ (by unfold WSIZE; omega)
      have p8 : padd s0.mem_brk DSIZE = s0.mem_brk + 8 := padd_eq _ _ (by unfold DSIZE; omega)
      have p12 : padd (s0.mem_brk + 8) WSIZE = s0.mem_brk + 12 :=
        padd_eq _ _ (by unfold WSIZE; omega)
      have k8 : PACK DSIZE 0 = 8 := by rfl
      have k0 : PACK 0 0 = 0 := by rfl
      rw [p4, p8, p12, k8, k0] at hok ⊢
      generalize hs2 : State.mk (PUT (PUT (PUT (PUT s0.mem s0.mem_brk KEY) (s0.mem_brk + 4) 8)
        (s0.mem_brk + 8) 0) (s0.mem_brk + 12) 0) (s0.mem_brk + 16) s0.mem_max_addr
        (s0.mem_brk + 8) = s2 at hok ⊢
      have hpad : GET s2.mem (s0.mem_brk + 8) = 0 := by
        rw [← hs2]
        show GET (PUT (PUT (PUT (PUT s0.mem s0.mem_brk KEY) (s0.mem_brk + 4) 8)
          (s0.mem_brk + 8) 0) (s0.mem_brk + 12) 0) (s0.mem_brk + 8) = 0
        rw [GET_PUT_ne _ _ _ _ (by omega), GET_PUT_same]
        rfl
      have hw : HeapIs s2 [] := by
        rw [← hs2]
        refine ⟨by show 8 ≤ s0.mem_brk + 8; omega, ⟨?_, by simp, by simp, by simp, trivial⟩,
          by show s0.mem_brk + 8 + 8 + 0 = s0.mem_brk + 16; omega, ?_, hroom, hmax⟩
        · show GET _ (s0.mem_brk + 8 - 4) = 8 + 0
          have e4 : s0.mem_brk + 8 - 4 = s0.mem_brk + 4 := by omega
          rw [e4, GET_PUT_ne _ _ _ _ (by omega), GET_PUT_ne _ _ _ _ (by omega), GET_PUT_same]
          rfl
        · show GET _ (s0.mem_brk + 16 - 4) = 0
          have e4 : s0.mem_brk + 16 - 4 = s0.mem_brk + 12 := by omega
          rw [e4, GET_PUT_same]
          rfl
      have hb2 : s2.mem_brk = s0.mem_brk + 16 := by rw [← hs2]
      by_cases hfit : s2.mem_brk + 4096 ≤ s2.mem_max_addr
      · obtain ⟨x1, _, _, _, _, x6⟩ := extend_heap_ok s2 4096 [] hw (by rfl) (by omega) hfit
        have hne : (extend_heap s2 (4096 / WSIZE)).1 ≠ 0 := by rw [x1, hb2]; omega
        rw [if_neg hne]
        show GET (extend_heap s2 (4096 / WSIZE)).2.mem (s0.mem_brk + 8) = 0
        rw [← hpad]
        apply GET_congr
        intro a _ ha2
        exact x6 a (by rw [hb2]; omega)
      · exfalso
        rw [extend_heap_fail s2 4096 (by rfl) (by unfold W32; omega) (by omega)] at hok
        exact hok rfl

/-! ## More on block lists -/

theorem noadj_alloc_mid (X : List Blk) (c : Nat) (Y : List Blk) :
    NoAdjFree (X ++ (c, 0) :: Y) ↔ NoAdjFree X ∧ NoAdjFree Y := by
  unfold NoAdjFree
  constructor
  · intro h
    have h1 := List.chain'_split.mp h
    exact ⟨(List.chain'_append.mp h1.1).1, (List.chain'_cons'.mp h1.2).2⟩
  · rintro ⟨h1, h2⟩
    apply List.chain'_split.mpr
    constructor
    · apply List.chain'_append.mpr
      refine ⟨h1, List.chain'_singleton _, ?_⟩
      intro x _ y hy
      simp at hy
      subst hy
      simp
    · apply List.chain'_cons'.mpr
      exact ⟨fun y _ => by simp, h2⟩

theorem noadj_free_mid (X : List Blk) (c : Nat) (Y : List Blk) :
    NoAdjFree (X ++ (c, 1) :: Y) ↔
      NoAdjFree X ∧ NoAdjFree Y ∧ (∀ x ∈ X.getLast?, x.2 ≠ 1) ∧ (∀ y ∈ Y.head?, y.2 ≠ 1) := by
  unfold NoAdjFree
  constructor
  · intro h
    have h1 := List.chain'_split.mp h
    have h2 := List.chain'_append.mp h1.1
    have h3 := List.chain'_cons'.mp h1.2
    refine ⟨h2.1, h3.2, ?_, ?_⟩
    · intro x hx
      have := h2.2.2 x hx (c, 1) (by simp)
      simpa using this
    · intro y hy
      have := h3.1 y hy
      simpa using this
  · rintro ⟨h1, h2, h3, h4⟩
    apply List.chain'_split.mpr
    constructor
    · apply List.chain'_append.mpr
      refine ⟨h1, List.chain'_singleton _, ?_⟩
      intro x hx y hy
      simp at hy
      subst hy
      have := h3 x hx
      simpa using this
    · apply List.chain'_cons'.mpr
      refine ⟨?_, h2⟩
      intro y hy
      have := h4 y hy
      simpa using this

theorem NoAdjFree_placed (X : List Blk) (a c : Nat) (Y : List Blk)
    (h : NoAdjFree (X ++ (c, 0) :: Y)) (hy : c - a < 8 ∨ ∀ y ∈ Y.head?, y.2 ≠ 1) :
    NoAdjFree (X ++ placed a c ++ Y) := by
  rw [noadj_alloc_mid] at h
  unfold placed
  by_cases h8 : 8 ≤ c - a
  · rw [if_pos h8]
    have hy1 : ∀ y ∈ Y.head?, y.2 ≠ 1 := by
      rcases hy with h1 | h1
      · omega
      · exact h1
    have e : X ++ [(a, 0), (c - a, 1)] ++ Y = X ++ (a, 0) :: ([] ++ (c - a, 1) :: Y) := by simp
    rw [e, noadj_alloc_mid, noadj_free_mid]
    refine ⟨h.1, List.chain'_nil, h.2, ?_, hy1⟩
    intro x hx
    simp at hx
  · rw [if_neg h8]
    have e : X ++ [(c, 0)] ++ Y = X ++ (c, 0) :: Y := by simp
    rw [e, noadj_alloc_mid]
    exact h

theorem blocksAt_replace (X M N Y : List Blk) (bp : Nat) (u : Nat × Nat × Nat)
    (hs : span N = span M) (hu : u ∈ blocksAt bp (X ++ M ++ Y))
    (hn : u ∉ blocksAt (bp + span X) M) : u ∈ blocksAt bp (X ++ N ++ Y) := by
  rw [blocksAt_append, blocksAt_append, span_append] at hu ⊢
  rw [hs]
  rcases List.mem_append.mp hu with h1 | h1
  · rcases List.mem_append.mp h1 with h2 | h2
    · exact List.mem_append_left _ (List.mem_append_left _ h2)
    · exact absurd h2 hn
  · exact List.mem_append_right _ h1

theorem mem_blocksAt_placed (X : List Blk) (a c : Nat) (Y : List Blk) (bp : Nat)
    (ha : a ≤ c) :
    ∃ c1, (bp + span X, c1, 0) ∈ blocksAt bp (X ++ placed a c ++ Y) ∧ a ≤ c1 ∧ c1 ≤ c := by
  unfold placed
  by_cases h8 : 8 ≤ c - a
  · rw [if_pos h8]
    refine ⟨a, ?_, Nat.le_refl _, ha⟩
    have e : X ++ [(a, 0), (c - a, 1)] ++ Y = X ++ (a, 0) :: ((c - a, 1) :: Y) := by simp
    rw [e]
    exact mem_blocksAt_mid X a 0 _ bp
  · rw [if_neg h8]
    refine ⟨c, ?_, ha, Nat.le_refl _⟩
    have e : X ++ [(c, 0)] ++ Y = X ++ (c, 0) :: Y := by simp
    rw [e]
    exact mem_blocksAt_mid X c 0 _ bp

theorem blocksAt_sizes_pos (L : List Blk) (hpos : ∀ b ∈ L, 0 < b.1) :
    ∀ (bp : Nat) (u : Nat × Nat × Nat), u ∈ blocksAt bp L → 0 < u.2.1 := by
  induction L with
  | nil => intro bp u h; simp [blocksAt] at h
  | cons x L ih =>
    intro bp u h
    rcases List.mem_cons.mp h with e | hin
    · rw [e]; exact hpos x (List.mem_cons_self _ _)
    · exact ih (fun b hb => hpos b (List.mem_cons_of_mem _ hb)) _ u hin

theorem HeapIs_sizes_pos (s : State) (L : List Blk) (h : HeapIs s L) : ∀ b ∈ L, 0 < b.1 := by
  intro b hb
  have := Chain_bits s.mem _ _ h.2.1 b (List.mem_cons_of_mem _ hb)
  omega

/-! ## The specification of `mm_malloc` -/


theorem place_free_spec (sm : State) (pre : List Blk) (c a : Nat) (post : List Blk)
    (h : HeapIs sm (pre ++ (c, 1) :: post)) (ha : a ≤ c) (ha8 : a % 8 = 0) (hpos : 8 ≤ a) :
    HeapIs (place sm (sm.heap_listp + 8 + span pre) a) (pre ++ placed a c ++ post) ∧
    (∃ c1, (sm.heap_listp + 8 + span pre, c1, 0) ∈
        blocksAt (sm.heap_listp + 8) (pre ++ placed a c ++ post) ∧ a ≤ c1) ∧
    (∀ p sz, (p, sz, 0) ∈ blocksAt (sm.heap_listp + 8) (pre ++ (c, 1) :: post) →
      (p, sz, 0) ∈ blocksAt (sm.heap_listp + 8) (pre ++ placed a c ++ post) ∧
      p ≠ sm.heap_listp + 8 + span pre ∧
      ∀ x, p ≤ x + 4 → x + 4 < p + sz →
        (place sm (sm.heap_listp + 8 + span pre) a).mem x = sm.mem x) := by
  obtain ⟨w, hfr⟩ := place_HeapIs sm pre c 1 a post h ha ha8 hpos
  obtain ⟨c1, hc1, hc2, _⟩ := mem_blocksAt_placed pre a c post (sm.heap_listp + 8) ha
  refine ⟨w, ⟨c1, hc1, hc2⟩, ?_⟩
  intro p sz hu
  have hq : (sm.heap_listp + 8 + span pre, c, 1) ∈
      blocksAt (sm.heap_listp + 8) (pre ++ (c, 1) :: post) := mem_blocksAt_mid pre c 1 post _
  have hpos1 := HeapIs_sizes_pos sm _ h
  have hd := blocksAt_disjoint _ (sm.heap_listp + 8) (p, sz, 0)
    (sm.heap_listp + 8 + span pre, c, 1) hpos1 hu hq
  have hszp := blocksAt_sizes_pos _ hpos1 _ _ hu
  have hcp := blocksAt_sizes_pos _ hpos1 _ _ hq
  simp only at hd hszp hcp
  have hne : (p, sz, (0 : Nat)) ≠ (sm.heap_listp + 8 + span pre, c, 1) := by
    intro e
    simp at e
  refine ⟨?_, ?_, ?_⟩
  · have e1 : pre ++ (c, 1) :: post = pre ++ [(c, 1)] ++ post := by simp
    rw [e1] at hu
    apply blocksAt_replace pre [(c, 1)] (placed a c) post _ _ _ hu
    · intro hin
      simp [blocksAt] at hin
    · rw [span_placed a c ha]; rfl
  · rcases hd with e | e | e
    · exact absurd e hne
    · omega
    · omega
  · intro x hx1 hx2
    apply hfr
    rcases hd with e | e | e
    · exact absurd e hne
    · left; omega
    · right; omega

theorem malloc_spec (s : State) (L : List Blk) (size : Nat) (h : HeapIs s L) (h0 : 0 < size)
    (hw : size + 11 < W32) :
    ∃ q s2, mm_malloc s size = some (q, s2) ∧ s2.heap_listp = s.heap_listp ∧
      s2.mem_max_addr = s.mem_max_addr ∧
      ((q = 0 ∧ s2 = s) ∨
       (q ≠ 0 ∧ ∃ L2 c1, HeapIs s2 L2 ∧ (q, c1, 0) ∈ blocksAt (s.heap_listp + 8) L2 ∧
          adjust size ≤ c1 ∧
          (∀ p sz, (p, sz, 0) ∈ blocksAt (s.heap_listp + 8) L →
            (p, sz, 0) ∈ blocksAt (s.heap_listp + 8) L2 ∧ p ≠ q ∧
            ∀ x, p ≤ x + 4 → x + 4 < p + sz → s2.mem x = s.mem x) ∧
          (NoAdjFree L → NoAdjFree L2))) := by
  have sa := adjust_spec size h0 hw
  have hbits : ∀ b ∈ L, b.2 ≤ 1 := fun b hb =>
    (Chain_bits s.mem _ _ h.2.1 b (List.mem_cons_of_mem _ hb)).2.2
  by_cases hp : firstFit (adjust size) (s.heap_listp + 8) L = 0
  · have hnone := firstFit_none (adjust size) L (s.heap_listp + 8) (by omega) hp
    by_cases hroom : s.mem_brk + MAX (adjust size) CHUNKSIZE ≤ s.mem_max_addr
    · -- the heap grows
      have hm := malloc_grow s size L h h0 hw hnone hroom
      have hge := MAX_ge (adjust size)
      have h8 : MAX (adjust size) CHUNKSIZE % 8 = 0 := by
        rcases MAX_cases (adjust size) with e | e <;> rw [e]
        exact sa.1
      obtain ⟨_, x2, x3, x4, _, x6⟩ := extend_heap_ok s _ L h h8 (by omega) hroom
      generalize MAX (adjust size) CHUNKSIZE = E at *
      generalize (extend_heap s (E / WSIZE)).2 = sm at *
      have hbrk : s.mem_brk = sm.heap_listp + 8 + span L := by
        rw [x3]; exact h.2.2.1.symm
      rw [hbrk] at hm
      obtain ⟨w, ⟨c1, hc1, hc2⟩, hkeep⟩ := place_free_spec sm L E (adjust size) [] x2 hge.1
        sa.1 sa.2.1
      refine ⟨_, _, hm, by rw [place_heap_listp, x3], by rw [place_mem_max_addr, x4],
        Or.inr ⟨by omega, _, c1, w, by rw [← x3]; exact hc1, hc2, ?_, ?_⟩⟩
      · intro p sz hu
        have hu1 : (p, sz, 0) ∈ blocksAt (sm.heap_listp + 8) (L ++ (E, 1) :: []) := by
          rw [blocksAt_append, x3]
          exact List.mem_append_left _ hu
        obtain ⟨k1, k2, k3⟩ := hkeep p sz hu1
        refine ⟨by rw [← x3]; exact k1, k2, ?_⟩
        intro x hx1 hx2
        rw [k3 x hx1 hx2]
        apply x6
        have := blocksAt_range L _ _ _ _ hu
        have := h.2.2.1
        omega
      · intro hn
        apply NoAdjFree_placed L (adjust size) E [] _ (Or.inr (by simp))
        rw [noadj_alloc_mid]
        exact ⟨hn, List.chain'_nil⟩
    · -- out of memory
      have hm := malloc_oom s size L h h0 hw hnone (by omega)
      exact ⟨0, s, hm, rfl, rfl, Or.inl ⟨rfl, rfl⟩⟩
  · -- a free block fits
    obtain ⟨pre, c, post, e1, e2, e3, e4⟩ :=
      firstFit_split (adjust size) L (s.heap_listp + 8) _ hbits rfl hp
    subst e1
    have hm := malloc_fit s size pre c post h h0 e4 e3
    obtain ⟨w, ⟨c1, hc1, hc2⟩, hkeep⟩ := place_free_spec s pre c (adjust size) post h e3
      sa.1 sa.2.1
    refine ⟨_, _, hm, by rw [place_heap_listp], by rw [place_mem_max_addr],
      Or.inr ⟨by omega, _, c1, w, hc1, hc2, hkeep, ?_⟩⟩
    intro hn
    rw [noadj_free_mid] at hn
    apply NoAdjFree_placed pre (adjust size) c post _ (Or.inr hn.2.2.2)
    rw [noadj_alloc_mid]
    exact ⟨hn.1, hn.2.1⟩

theorem HeapIs_frame (s t : State) (X : List Blk) (c f : Nat) (Y : List Blk)
    (h : HeapIs s (X ++ (c, f) :: Y)) (hl : t.heap_listp = s.heap_listp)
    (hb : t.mem_brk = s.mem_brk) (hm : t.mem_max_addr = s.mem_max_addr)
    (hfr : ∀ x, x < s.heap_listp + 8 + span X ∨ s.heap_listp + 8 + span X + c ≤ x + 4 →
      t.mem x = s.mem x) : HeapIs t (X ++ (c, f) :: Y) := by
  obtain ⟨g1, g2, g3, g4, g5, g6⟩ := h
  have hsp : span (X ++ (c, f) :: Y) = span X + (c + span Y) := by
    rw [span_append]; rfl
  rw [hsp] at g3
  have hch : Chain s.mem s.heap_listp (((8, 0) :: X) ++ (c, f) :: Y) := g2
  rw [Chain_append] at hch
  have e0 : s.heap_listp + span ((8, 0) :: X) = s.heap_listp + 8 + span X := by
    show s.heap_listp + (8 + span X) = _
    omega
  rw [e0] at hch
  obtain ⟨hc1, hg, hc2, hc3, hc4, hc5⟩ := hch
  simp only at hg hc2 hc3 hc4 hc5
  refine ⟨by rw [hl]; exact g1, ?_, by rw [hl, hb, hsp]; exact g3, ?_, by rw [hb, hm]; exact g5,
    by rw [hm]; exact g6⟩
  · rw [hl]
    show Chain t.mem s.heap_listp (((8, 0) :: X) ++ (c, f) :: Y)
    rw [Chain_append, e0]
    refine ⟨?_, ?_, hc2, hc3, hc4, ?_⟩
    · apply Chain_congr s.mem _ _ _ (by omega) _ hc1
      intro a _ ha2
      rw [e0] at ha2
      exact hfr a (Or.inl (by omega))
    · rw [← hg]
      apply GET_congr
      intro a _ ha2
      exact hfr a (Or.inl (by omega))
    · apply Chain_congr s.mem _ _ _ (by omega) _ hc5
      intro a ha1 _
      simp only at ha1
      exact hfr a (Or.inr (by omega))
  · rw [hb, ← g4]
    apply GET_congr
    intro a ha1 _
    exact hfr a (Or.inr (by omega))

theorem mergePrev_keep (P : List Blk) (x : Blk) (Y : List Blk)
    (h : ∀ b ∈ P.getLast?, b.2 ≠ 1) : mergePrev P (x :: Y) = P ++ x :: Y := by
  rcases List.eq_nil_or_concat P with e | ⟨A, b, e⟩
  · subst e; rfl
  · rw [List.concat_eq_append] at e
    subst e
    rw [mergePrev_concat, if_neg (h b (by simp))]
    simp

theorem adjust_wrap_small (size : Nat) (h : size < W32) (hw : ¬ size + 11 < W32) :
    adjust size ≤ 8 := by
  unfold adjust WSIZE OVERHEAD DSIZE W32 at *
  split
  · omega
  · omega

theorem memcpy_in (m : Mem) (dst src n i : Nat) (h : i < n) :
    memcpy m dst src n (dst + i) = m (src + i) := by
  unfold memcpy
  rw [if_pos ⟨by omega, by omega⟩]
  congr 2
  omega

theorem memcpy_out (m : Mem) (dst src n x : Nat) (h : x < dst ∨ dst + n ≤ x) :
    memcpy m dst src n x = m x := by
  unfold memcpy
  rw [if_neg (by omega)]

/-! ## The shrinking path of `mm_realloc` -/

theorem scan_loop_weak (m : Mem) (hiFn bp : Nat) (A : List Blk) (b : Blk) :
    ∀ (fuel hp : Nat), Chain m hp (A ++ [b]) → hp + span (A ++ [b]) = bp → 4 ≤ hp →
      bp < W32 → A.length < fuel →
      ∃ A1 b1 A2, A ++ [b] = A1 ++ b1 :: A2 ∧
        scan_loop m hiFn bp fuel hp = some (hp + span A1) := by
  induction A with
  | nil =>
    intro fuel hp hc hsp h4 hbt hfuel
    cases fuel with
    | zero => simp at hfuel
    | succ n =>
      obtain ⟨h1, h2, h3, h5, _⟩ := hc
      have hs : span ([] ++ [b]) = b.1 := by show b.1 + 0 = b.1; omega
      rw [hs] at hsp
      have e1 : psub hp WSIZE = hp - 4 := HDRP_eq hp h4 (by omega)
      have e3 : NEXT_BLKP m hp = bp := by
        unfold NEXT_BLKP
        rw [e1, (hdr_read m (hp - 4) b.1 b.2 h1 h3 h5).1, ← hsp]
        exact padd_eq _ _ (by omega)
      refine ⟨[], b, [], rfl, ?_⟩
      unfold scan_loop
      rw [e3]
      have hn : ¬ (toInt bp < toInt bp ∧ toInt hp < toInt hiFn) := by
        intro h; exact absurd h.1 (Int.lt_irrefl _)
      rw [if_neg hn]
      rfl
  | cons x A ih =>
    intro fuel hp hc hsp h4 hbt hfuel
    cases fuel with
    | zero => simp at hfuel
    | succ n =>
      obtain ⟨h1, h2, h3, h5, h6⟩ := hc
      have hs : span (x :: A ++ [b]) = x.1 + span (A ++ [b]) := rfl
      rw [hs] at hsp
      have e1 : psub hp WSIZE = hp - 4 := HDRP_eq hp h4 (by omega)
      have e3 : NEXT_BLKP m hp = hp + x.1 := by
        unfold NEXT_BLKP
        rw [e1, (hdr_read m (hp - 4) x.1 x.2 h1 h3 h5).1]
        exact padd_eq _ _ (by omega)
      have hlen : A.length < n := by
        have : (x :: A).length = A.length + 1 := rfl
        omega
      unfold scan_loop
      rw [e3]
      by_cases hy : toInt (hp + x.1) < toInt bp ∧ toInt hp < toInt hiFn
      · rw [if_pos hy]
        obtain ⟨A1, b1, A2, e, hsc⟩ := ih n (hp + x.1) h6 (by omega) (by omega) hbt hlen
        refine ⟨x :: A1, b1, A2, by rw [List.cons_append, e]; rfl, ?_⟩
        rw [hsc]
        have e : hp + span (x :: A1) = hp + x.1 + span A1 := by
          have : span (x :: A1) = x.1 + span A1 := rfl
          omega
        rw [e]
      · rw [if_neg hy]
        exact ⟨[], x, A ++ [b], rfl, rfl⟩

theorem mergeNext_keeps (P : List Blk) (osz : Nat) (Q : List Blk) (bp q c : Nat)
    (hu : (q, c, 0) ∈ blocksAt bp (P ++ (osz, 0) :: Q)) (hq : q ≠ bp + span P)
    (sz1 : Nat) (Q1 : List Blk) (hmn : mergeNext osz Q = (sz1, 1) :: Q1) :
    (q, c, 0) ∈ blocksAt bp (P ++ (sz1, 1) :: Q1) := by
  cases Q with
  | nil =>
    simp [mergeNext] at hmn
    obtain ⟨e1, e2⟩ := hmn
    subst e1; subst e2
    have e1 : P ++ [(osz, 0)] = P ++ [(osz, 0)] ++ [] := by simp
    have e2 : P ++ [(osz, 1)] = P ++ [(osz, 1)] ++ [] := by simp
    rw [e1] at hu
    rw [e2]
    apply blocksAt_replace P [(osz, 0)] [(osz, 1)] [] _ _ rfl hu
    intro hin
    simp [blocksAt] at hin
    exact hq hin.1
  | cons n t =>
    by_cases hn : n.2 = 1
    · simp [mergeNext, hn] at hmn
      obtain ⟨e1, e2⟩ := hmn
      subst e1; subst e2
      have e1 : P ++ (osz, 0) :: n :: t = P ++ [(osz, 0), n] ++ t := by simp
      have e2 : P ++ (osz + n.1, 1) :: t = P ++ [(osz + n.1, 1)] ++ t := by simp
      rw [e1] at hu
      rw [e2]
      apply blocksAt_replace P [(osz, 0), n] [(osz + n.1, 1)] t _ _ _ hu
      · intro hin
        simp [blocksAt] at hin
        rcases hin with hin | hin
        · exact hq hin.1
        · obtain ⟨_, _, h3⟩ := hin
          omega
      · show osz + n.1 + 0 = osz + (n.1 + 0)
        omega
    · simp [mergeNext, hn] at hmn
      obtain ⟨e1, e2⟩ := hmn
      subst e1; subst e2
      have e1 : P ++ (osz, 0) :: n :: t = P ++ [(osz, 0)] ++ n :: t := by simp
      have e2 : P ++ (osz, 1) :: n :: t = P ++ [(osz, 1)] ++ n :: t := by simp
      rw [e1] at hu
      rw [e2]
      apply blocksAt_replace P [(osz, 0)] [(osz, 1)] (n :: t) _ _ rfl hu
      intro hin
      simp [blocksAt] at hin
      exact hq hin.1

theorem mergeNext_pos (P : List Blk) (osz : Nat) (Q : List Blk)
    (hpos : ∀ b ∈ P ++ (osz, 0) :: Q, 0 < b.1) (sz1 : Nat) (Q1 : List Blk)
    (hmn : mergeNext osz Q = (sz1, 1) :: Q1) : ∀ b ∈ P ++ (sz1, 1) :: Q1, 0 < b.1 := by
  have h0 : 0 < osz := hpos (osz, 0) (by simp)
  intro b hb
  rcases List.mem_append.mp hb with h1 | h1
  · exact hpos b (List.mem_append_left _ h1)
  · cases Q with
    | nil =>
      simp [mergeNext] at hmn
      obtain ⟨e1, e2⟩ := hmn
      subst e1; subst e2
      simp at h1
      rw [h1]; exact h0
    | cons n t =>
      by_cases hn : n.2 = 1
      · simp [mergeNext, hn] at hmn
        obtain ⟨e1, e2⟩ := hmn
        subst e1; subst e2
        rcases List.mem_cons.mp h1 with e | h2
        · rw [e]; simp only; omega
        · exact hpos b (by simp [h2])
      · simp [mergeNext, hn] at hmn
        obtain ⟨e1, e2⟩ := hmn
        subst e1; subst e2
        rcases List.mem_cons.mp h1 with e | h2
        · rw [e]; exact h0
        · exact hpos b (by
            rcases List.mem_cons.mp h2 with e | h3
            · simp [e]
            · simp [h3])

theorem free_weak (hiFn : Nat) (s : State) (pre : List Blk) (sz : Nat) (post : List Blk)
    (h : HeapIs s (pre ++ (sz, 0) :: post))
    (hrd : freeReadOK s (s.heap_listp + 8 + span pre)) :
    ∃ s1 sz1 post1, mm_free hiFn s (s.heap_listp + 8 + span pre) = some s1 ∧
      s1.heap_listp = s.heap_listp ∧ s1.mem_brk = s.mem_brk ∧
      s1.mem_max_addr = s.mem_max_addr ∧ mergeNext sz post = (sz1, 1) :: post1 ∧
      ∀ x, (x + 4 < s.heap_listp + 8 + span pre ∨ s.heap_listp + 8 + span pre + sz1 ≤ x + 4) →
        (∀ p c, (p, c, 1) ∈ blocksAt (s.heap_listp + 8) pre → x + 4 < p ∨ p ≤ x) →
        s1.mem x = s.mem x := by
  obtain ⟨sz1, post1, m1, hmn, hcn, hH1, hpost1, hfr1⟩ := free_next_step s pre sz post h
  obtain ⟨g1, g2, g3, g4, g5, g6⟩ := h
  have hsp : span (pre ++ (sz, 0) :: post) = span pre + (sz + span post) := by
    rw [span_append]; rfl
  rw [hsp] at g3
  have hch : Chain s.mem s.heap_listp (((8, 0) :: pre) ++ (sz, 0) :: post) := g2
  rw [Chain_append] at hch
  have e0 : s.heap_listp + span ((8, 0) :: pre) = s.heap_listp + 8 + span pre := by
    show s.heap_listp + (8 + span pre) = _
    omega
  rw [e0] at hch
  obtain ⟨hcpre, hg, hsz, hsz8, _, _⟩ := hch
  simp only at hg hsz hsz8
  have hc1 : Chain m1 s.heap_listp ((8, 0) :: pre) := by
    apply Chain_congr s.mem _ _ _ (by omega) _ hcpre
    intro a _ ha2
    rw [e0] at ha2
    exact hfr1 a (Or.inl (by omega))
  rcases List.eq_nil_or_concat ((8, 0) :: pre) with e | ⟨A, b, e⟩
  · simp at e
  rw [List.concat_eq_append] at e
  have hlen := length_le_span m1 _ _ hc1
  have hsp8 : span ((8, 0) :: pre) = 8 + span pre := rfl
  rw [hsp8] at hlen
  have hl1 : ((8, 0) :: pre).length = A.length + 1 := by rw [e]; simp
  rw [hl1] at hlen
  rw [e] at hc1 e0
  obtain ⟨A1, b1, A2, eA, hscan⟩ := scan_loop_weak m1 hiFn (s.heap_listp + 8 + span pre) A b
    loopFuel s.heap_listp hc1 e0 (by omega) (by omega)
    (by unfold loopFuel; unfold W32 at g6; omega)
  have hfree := mm_free_unfold hiFn s (s.heap_listp + 8 + span pre) sz 0 (by omega) hg hsz8
    (by omega) hsz (by omega) hrd (sz1, m1) hcn (s.heap_listp + span A1) hscan
  refine ⟨_, sz1, post1, hfree, rfl, rfl, rfl, hmn, ?_⟩
  intro x hx1 hx2
  show coalesce_prev m1 sz1 (s.heap_listp + span A1) x = s.mem x
  rw [eA, Chain_append] at hc1
  obtain ⟨_, hb1, hb2, hb3, hb4, _⟩ := hc1
  have hspA : span (A ++ [b]) = span A1 + (b1.1 + span A2) := by
    rw [eA, span_append]; rfl
  have hH : HDRP (s.heap_listp + span A1) = s.heap_listp + span A1 - 4 :=
    HDRP_eq _ (by omega) (by omega)
  have hrd := hdr_read m1 _ b1.1 b1.2 hb1 hb3 hb4
  unfold coalesce_prev
  rw [hH, hrd.2]
  by_cases hb : b1.2 = 1
  · rw [if_pos hb]
    have hin : (s.heap_listp + span A1, b1.1, 1) ∈ blocksAt s.heap_listp ((8, 0) :: pre) := by
      rw [e, eA, ← hb]
      exact mem_blocksAt_mid A1 b1.1 b1.2 A2 s.heap_listp
    have hin2 : (s.heap_listp + span A1, b1.1, 1) ∈ blocksAt (s.heap_listp + 8) pre := by
      rcases List.mem_cons.mp hin with e3 | h3
      · simp at e3
      · exact h3
    have := hx2 _ _ hin2
    rw [PUT_byte_ne _ _ _ _ (by omega)]
    exact hfr1 x hx1
  · rw [if_neg hb]
    exact hfr1 x hx1


theorem free_weak_keeps (hiFn : Nat) (s : State) (P : List Blk) (osz : Nat) (Q : List Blk)
    (q c1 : Nat) (h : HeapIs s (P ++ (osz, 0) :: Q))
    (hrd : freeReadOK s (s.heap_listp + 8 + span P))
    (hq : (q, c1, 0) ∈ blocksAt (s.heap_listp + 8) (P ++ (osz, 0) :: Q))
    (hne : q ≠ s.heap_listp + 8 + span P) :
    ∃ s1, mm_free hiFn s (s.heap_listp + 8 + span P) = some s1 ∧
      s1.heap_listp = s.heap_listp ∧ s1.mem_brk = s.mem_brk ∧
      s1.mem_max_addr = s.mem_max_addr ∧
      ∀ x, q ≤ x + 4 → x + 4 < q + c1 → s1.mem x = s.mem x := by
  obtain ⟨s1, sz1, Q1, hf, l1, b1, x1, hmn, hfr⟩ := free_weak hiFn s P osz Q h hrd
  refine ⟨s1, hf, l1, b1, x1, ?_⟩
  have hpos := HeapIs_sizes_pos s _ h
  have hqm := mergeNext_keeps P osz Q _ q c1 hq hne sz1 Q1 hmn
  have hposm := mergeNext_pos P osz Q hpos sz1 Q1 hmn
  have hpm : (s.heap_listp + 8 + span P, sz1, 1) ∈
      blocksAt (s.heap_listp + 8) (P ++ (sz1, 1) :: Q1) := mem_blocksAt_mid P sz1 1 Q1 _
  have hd := blocksAt_disjoint _ (s.heap_listp + 8) (q, c1, 0)
    (s.heap_listp + 8 + span P, sz1, 1) hposm hqm hpm
  simp only at hd
  have hne1 : (q, c1, (0 : Nat)) ≠ (s.heap_listp + 8 + span P, sz1, 1) := by
    intro e
    simp at e
  intro x hx1 hx2
  apply hfr x
  · rcases hd with e | e | e
    · exact absurd e hne1
    · left; omega
    · right; omega
  · intro p c hpc
    have hpc2 : (p, c, 1) ∈ blocksAt (s.heap_listp + 8) (P ++ (osz, 0) :: Q) := by
      rw [blocksAt_append]
      exact List.mem_append_left _ hpc
    have hd2 := blocksAt_disjoint _ (s.heap_listp + 8) (q, c1, 0) (p, c, 1) hpos hq hpc2
    simp only at hd2
    have hne2 : (q, c1, (0 : Nat)) ≠ (p, c, 1) := by
      intro e
      simp at e
    have hc8 : 8 ≤ c := by
      obtain ⟨X1, Y1, e1, _⟩ := blocksAt_split _ _ _ _ _ hpc2
      have := Chain_bits s.mem _ _ h.2.1 (c, 1) (by rw [e1]; simp)
      exact this.1
    rcases hd2 with e | e | e
    · exact absurd e hne2
    · left; omega
    · right; omega

/-! ## Claims -/

/-- C4 (alignment): if the address returned by the first `mem_sbrk` call is a
multiple of 8, then in every heap state reachable from `mm_init` by
`mm_malloc` / `mm_free` / `mm_realloc`, every non-null pointer returned by
`mm_malloc` is a multiple of 8. -/
theorem C4_malloc_aligned (hiFn KEY : Nat) (s0 s : State)
    (h8 : (mem_sbrk s0 (4 * WSIZE)).1 % 8 = 0) (hr : Reach hiFn KEY s0 s)
    (size p : Nat) (s1 : State) (hm : mm_malloc s size = some (p, s1)) (hp : p ≠ 0) :
    p % 8 = 0 :=
  (mm_malloc_aligned s size p s1 (reach_aligned hiFn KEY s0 s h8 hr) hm).2 hp

/-- Witness of C4: on the heap initialised at address 4096, `mm_malloc(100)`
returns the non-null pointer 4112, a multiple of 8. -/
theorem C4_malloc_aligned_witness :
    (mem_sbrk (memInit 4096 100000) (4 * WSIZE)).1 % 8 = 0 ∧
    (mm_init 0 (memInit 4096 100000)).1 ≠ -1 ∧
    (mm_malloc (mm_init 0 (memInit 4096 100000)).2 100).map Prod.fst = some 4112 ∧
    4112 % 8 = 0 :=
  ⟨by decide, by decide, by decide,
    C4_malloc_aligned 2000000000 0 (memInit 4096 100000) (mm_init 0 (memInit 4096 100000)).2
      (by decide) (Reach.init (by decide)) 100 4112
      (place (mm_init 0 (memInit 4096 100000)).2 4112 (adjust 100)) (by rfl) (by decide)⟩

/-- C3 (capacity), failing input: on the fresh heap `mm_malloc(4294967293)`
returns the non-null pointer 4112 of a block whose header reads size 8, so
the usable region is 4 bytes, fewer than the 4294967293 requested. -/
theorem C3_capacity_fails :
    (mm_malloc freshHeap 4294967293).map
        (fun r => (r.1, GET_SIZE r.2.mem (HDRP r.1))) = some (4112, 8) ∧
      8 - 4 < 4294967293 := by
  decide

/-- C2 (no overlap), failing input: on the fresh heap `mm_malloc(4294967293)`
returns 4112 and the following `mm_malloc(1)` returns 4120; both pointers are
live and the payload ranges `[4112, 4112 + 4294967293)` and `[4120, 4121)`
overlap. -/
theorem C2_overlap :
    ((mm_malloc freshHeap 4294967293).bind
        (fun r => (mm_malloc r.2 1).map (fun r1 => (r.1, r1.1)))) = some (4112, 4120) ∧
      Overlap 4112 4294967293 4120 1 := by
  decide

/-- C7 (shrink-to-free), failing input: with `p = mm_malloc(100)` on the fresh
heap, `mm_realloc(p, 0)` returns `p` (4112), not `NULL`, and leaves `p` as an
allocated block of size 8 followed by a free block, while `mm_free(p)` leaves
one free block of size 4096. -/
theorem C7_realloc_zero_differs :
    ((mm_malloc freshHeap 100).bind (fun r => (mm_realloc hiAbove r.2 r.1 0).map
        (fun r1 => (r.1, r1.1, chainOf r1.2)))) =
      some (4112, 4112, some ([(8, 0), (8, 0), (4088, 1)], 8208)) ∧
    ((mm_malloc freshHeap 100).bind (fun r => (mm_free hiAbove r.2 r.1).map
        (fun s1 => chainOf s1))) = some (some ([(8, 0), (4096, 1)], 8208)) :=
  ⟨by rfl, by rfl⟩

/-- C10 (chain contiguity), failing input: after `A = mm_malloc(100)`,
`B = mm_malloc(100)`, `R = mm_realloc(B, 4294967291)` (which returns `B`),
`mm_free(A)`, `mm_free(R)` on the fresh heap, the header of the first block
reads size 4200 although only 4096 bytes lie between it and the break 8208:
the walk from the prologue passes the break and stops at 8312, not at the
epilogue header in the last word of the heap. -/
theorem C10_chain_broken :
    runWrapRealloc =
      some (4112, 4216, 4216, some ([(8, 0), (104, 0), (104, 1), (3888, 1)], 8208),
        some ([(8, 0), (4200, 1)], 8312), 8208) := by
  rfl

/-- The same breakage of the chain without any wrap-around of the size: after
`A = mm_malloc(100)`, `B = mm_malloc(100)`, `mm_free(A)`, `R = mm_realloc(B, 0)`
(which returns `B`, not `NULL`), `mm_free(R)`, the first header reads size 8088
and the walk stops at 12200, beyond the break 8208. -/
theorem chain_broken_after_realloc_zero :
    runZeroRealloc =
      some (4112, 4216, 4216, some ([(8, 0), (4096, 1)], 8208),
        some ([(8, 0), (8088, 1)], 12200), 8208) := by
  rfl

theorem ScanOK_of_low (hiFn lo top : Nat) (h1 : top ≤ hiFn) (h2 : hiFn < 2147483648) :
    ScanOK hiFn lo top := by
  intro a _ ha
  exact toInt_lt_of_lt 0 2147483648 a hiFn (by unfold W32; omega) (Or.inl (Nat.le_refl _))
    (Nat.zero_le _) (by omega) h2

/-- C5 (coalescing completeness after deallocate), failing input: the heap
with the allocated blocks `A` (at 4112) and `B` (at 4216) of 104 bytes and a
free block of 3888 bytes, in which the user stored the word 4208 in the last
four bytes of the payload of `A`, is well formed, has no two adjacent free
blocks and passes the bound test of the scan.  In `mm_free(B)` the call of
`coalesce` takes the word at `B - 8 = 4208` for the footer of the block before
`B`: `prev_blk = PREV_BLKP(B) = 8`, and `GET_ALLOC(FTRP(prev_blk))` reads the
header of `prev_blk` at address 4, below the heap region, which begins at
4096.  The call faults: nothing is merged. -/
theorem C5_free_faults :
    HeapIs heapUserWord ([(104, 0)] ++ (104, 0) :: [(3888, 1)]) ∧
    NoAdjFree ([(104, 0)] ++ (104, 0) :: [(3888, 1)]) ∧
    ScanOK hiAbove heapUserWord.heap_listp heapUserWord.mem_brk ∧
    (4112 ≤ 4208 ∧ 4208 + 4 ≤ 4112 + 100) ∧
    heapUserWord.heap_listp + 8 + span [(104, 0)] = 4216 ∧
    PREV_BLKP heapUserWord.mem 4216 = 8 ∧ HDRP 8 = 4 ∧
    heapUserWord.heap_listp - 8 = 4096 ∧ ¬ inHeap heapUserWord 4 ∧
    ¬ freeReadOK heapUserWord 4216 ∧
    mm_free hiAbove heapUserWord 4216 = none :=
  ⟨by decide, by decide, ScanOK_of_low _ _ _ (by decide) (by decide), by decide, by decide,
    by decide, by decide, by decide, by decide, by decide, by rfl⟩

/-- The property of C5 where `mm_free` reads inside the heap region: in a
well-formed heap with no two adjacent free blocks, freeing the allocated block
of size `sz` that stands between the blocks `pre` and `post` returns, and
leaves a well-formed heap whose chain is the old one with the freed block
merged with its successor if that was free and with its predecessor if that
was free; this chain has no two adjacent free blocks.  The hypothesis `ScanOK`
is the proviso on the bound test of the predecessor scan. -/
theorem free_coalesces_in_heap (hiFn : Nat) (s : State) (pre : List Blk) (sz : Nat)
    (post : List Blk) (h : HeapIs s (pre ++ (sz, 0) :: post))
    (hnf : NoAdjFree (pre ++ (sz, 0) :: post))
    (hscan : ScanOK hiFn s.heap_listp s.mem_brk)
    (hrd : freeReadOK s (s.heap_listp + 8 + span pre)) :
    ∃ s1, mm_free hiFn s (s.heap_listp + 8 + span pre) = some s1 ∧
      HeapIs s1 (freeMerge pre sz post) ∧ NoAdjFree (freeMerge pre sz post) := by
  obtain ⟨s1, h1, h2, _⟩ := free_spec hiFn s pre sz post h (fun _ => hscan) hrd
  exact ⟨s1, h1, h2, NoAdjFree_freeMerge pre sz post hnf⟩

/-- An instance of `free_coalesces_in_heap`: freeing `B` (at 4216) in the heap
free(104) / `B`(104) / free(3888) merges all three blocks. -/
theorem free_coalesces_in_heap_witness :
    HeapIs heapFreeAllocFree ([(104, 1)] ++ (104, 0) :: [(3888, 1)]) ∧
    NoAdjFree ([(104, 1)] ++ (104, 0) :: [(3888, 1)]) ∧
    freeMerge [(104, 1)] 104 [(3888, 1)] = [(4096, 1)] ∧
    ∃ s1, mm_free hiAbove heapFreeAllocFree
        (heapFreeAllocFree.heap_listp + 8 + span [(104, 1)]) = some s1 ∧
      HeapIs s1 (freeMerge [(104, 1)] 104 [(3888, 1)]) ∧
      NoAdjFree (freeMerge [(104, 1)] 104 [(3888, 1)]) :=
  ⟨by decide, by decide, by decide,
    free_coalesces_in_heap hiAbove heapFreeAllocFree [(104, 1)] 104 [(3888, 1)] (by decide)
      (by decide) (ScanOK_of_low _ _ _ (by decide) (by decide)) (by decide)⟩

/-- C1 (first-fit reuse): on the heap left by a successful `mm_init`, for
request sizes `a`, `b`, `c > 0` whose blocks fit in the initial 4096-byte
chunk (no wrap-around in the adjusted sizes of `a` and `b`, and
`adjust a + adjust b ≤ 4096`) and with `adjust c ≤ adjust a`, the sequence
`A = mm_malloc(a)`, `B = mm_malloc(b)`, `mm_free(A)`, `C = mm_malloc(c)` runs
to the end, yields `C = A` (a non-null pointer) and leaves the break where
`mm_init` put it. -/
theorem C1_first_fit_reuse (KEY hiFn : Nat) (s0 : State) (a b c : Nat)
    (hok : (mm_init KEY s0).1 ≠ -1) (hmax : s0.mem_max_addr < W32)
    (ha : 0 < a) (hb : 0 < b) (hc : 0 < c) (hwa : a + 11 < W32) (hwb : b + 11 < W32)
    (hfit : adjust a + adjust b ≤ 4096) (hca : adjust c ≤ adjust a) :
    ∃ A s1 B s2 s3 C s4,
      mm_malloc (mm_init KEY s0).2 a = some (A, s1) ∧ mm_malloc s1 b = some (B, s2) ∧
      mm_free hiFn s2 A = some s3 ∧ mm_malloc s3 c = some (C, s4) ∧
      C = A ∧ A ≠ 0 ∧ s4.mem_brk = (mm_init KEY s0).2.mem_brk := by
  obtain ⟨hw, hl0, _, _⟩ := mm_init_HeapIs KEY s0 hok hmax
  have hpad : GET (mm_init KEY s0).2.mem (mm_init KEY s0).2.heap_listp = 0 := by
    rw [hl0]; exact mm_init_pad KEY s0 hok hmax
  clear hl0
  generalize (mm_init KEY s0).2 = S at hw hpad ⊢
  have sa := adjust_spec a ha hwa
  have sb := adjust_spec b hb hwb
  -- A = mm_malloc(a)
  have hwA : HeapIs S ([] ++ (4096, 1) :: []) := hw
  have m1 := malloc_fit S a [] 4096 [] hwA ha (by simp) (by omega)
  obtain ⟨w1, fr1⟩ := place_HeapIs S [] 4096 1 (adjust a) [] hwA (by omega) sa.1 sa.2.1
  have hs0 : S.heap_listp + 8 + span ([] : List Blk) = S.heap_listp + 8 := rfl
  rw [hs0] at m1 w1 fr1
  have hpad1 : GET (place S (S.heap_listp + 8) (adjust a)).mem S.heap_listp = 0 := by
    rw [← hpad]
    apply GET_congr
    intro x _ hx2
    exact fr1 x (Or.inl (by omega))
  have hp1 : placed (adjust a) 4096 = [(adjust a, 0), (4096 - adjust a, 1)] := by
    unfold placed; rw [if_pos (by omega)]
  rw [hp1] at w1
  generalize hS1 : place S (S.heap_listp + 8) (adjust a) = S1 at m1 w1 hpad1
  have l1 : S1.heap_listp = S.heap_listp := by rw [← hS1, place_heap_listp]
  have b1 : S1.mem_brk = S.mem_brk := by rw [← hS1, place_mem_brk]
  -- B = mm_malloc(b)
  have hwB : HeapIs S1 ([(adjust a, 0)] ++ (4096 - adjust a, 1) :: []) := w1
  have m2 := malloc_fit S1 b [(adjust a, 0)] (4096 - adjust a) [] hwB hb (by simp) (by omega)
  obtain ⟨w2, fr2⟩ := place_HeapIs S1 [(adjust a, 0)] (4096 - adjust a) 1 (adjust b) [] hwB
    (by omega) sb.1 sb.2.1
  have hs1 : S1.heap_listp + 8 + span [(adjust a, 0)] = S.heap_listp + 8 + adjust a := by
    rw [l1]; show _ + (adjust a + 0) = _; omega
  rw [hs1] at m2 w2 fr2
  have hpad2 : GET (place S1 (S.heap_listp + 8 + adjust a) (adjust b)).mem S.heap_listp = 0 := by
    rw [← hpad1]
    apply GET_congr
    intro x _ hx2
    exact fr2 x (Or.inl (by omega))
  generalize hS2 : place S1 (S.heap_listp + 8 + adjust a) (adjust b) = S2 at m2 w2 hpad2
  have l2 : S2.heap_listp = S.heap_listp := by rw [← hS2, place_heap_listp, l1]
  have b2 : S2.mem_brk = S.mem_brk := by rw [← hS2, place_mem_brk, b1]
  -- mm_free(A)
  have hwF : HeapIs S2 ([] ++ (adjust a, 0) ::
      (placed (adjust b) (4096 - adjust a) ++ [])) := w2
  have hrd : freeReadOK S2 (S2.heap_listp + 8 + span ([] : List Blk)) :=
    freeReadOK_of_zero S2 [] (adjust a) _ hwF (by
      show GET S2.mem (S2.heap_listp + 0) < 8
      rw [l2, Nat.add_zero, hpad2]
      omega)
  obtain ⟨S3, f3, w3, l3, b3, _, _⟩ := free_spec hiFn S2 [] (adjust a) _ hwF
    (fun h => absurd rfl h) hrd
  have hs2 : S2.heap_listp + 8 + span ([] : List Blk) = S.heap_listp + 8 := by
    rw [l2]; rfl
  rw [hs2] at f3
  have hfm : ∃ rest, freeMerge [] (adjust a) (placed (adjust b) (4096 - adjust a) ++ []) =
      [] ++ (adjust a, 1) :: rest := by
    unfold placed
    split
    · exact ⟨_, rfl⟩
    · exact ⟨_, rfl⟩
  obtain ⟨rest, hfm⟩ := hfm
  rw [hfm] at w3
  -- C = mm_malloc(c)
  have m4 := malloc_fit S3 c [] (adjust a) rest w3 hc (by simp) hca
  have hs3 : S3.heap_listp + 8 + span ([] : List Blk) = S.heap_listp + 8 := by
    rw [l3, l2]; rfl
  rw [hs3] at m4
  refine ⟨_, _, _, _, _, _, _, m1, m2, f3, m4, rfl, by omega, ?_⟩
  rw [place_mem_brk, b3, b2]

/-- Witness of C1: the sizes `a = b = c = 100` on the heap initialised at
address 4096. -/
theorem C1_first_fit_reuse_witness :
    (mm_init 0 (memInit 4096 100000)).1 ≠ -1 ∧ adjust 100 + adjust 100 ≤ 4096 ∧
    ∃ A s1 B s2 s3 C s4,
      mm_malloc (mm_init 0 (memInit 4096 100000)).2 100 = some (A, s1) ∧
      mm_malloc s1 100 = some (B, s2) ∧
      mm_free hiAbove s2 A = some s3 ∧ mm_malloc s3 100 = some (C, s4) ∧
      C = A ∧ A ≠ 0 ∧ s4.mem_brk = (mm_init 0 (memInit 4096 100000)).2.mem_brk :=
  ⟨by decide, by decide,
    C1_first_fit_reuse 0 hiAbove (memInit 4096 100000) 100 100 100 (by decide) (by decide)
      (by decide) (by decide) (by decide) (by decide) (by decide) (by decide) (by decide)⟩

/-- C8 (data integrity on a growing resize), failing input: in the well-formed
heap with the allocated blocks `A` (at 4112) and `B` (at 4216) of 104 bytes, in
which the user stored the word 4208 in the last four bytes of the payload of
`A`, the pointer `B` was obtained for 100 bytes and the size 200 has adjusted
size 208, above the size 104 of the block of `B`.  The internal
`mm_malloc(200)` succeeds (it returns 4320), but the final `mm_free(B)` of
`mm_realloc(B, 200)` reads the header of `prev_blk = 8` at address 4, outside
the heap region: the call faults and returns no pointer. -/
theorem C8_grow_faults :
    HeapIs heapUserWord ([(104, 0)] ++ (104, 0) :: [(3888, 1)]) ∧
    heapUserWord.heap_listp + 8 + span [(104, 0)] = 4216 ∧
    100 + 4 ≤ 104 ∧ adjust 200 = 208 ∧ 104 < adjust 200 ∧
    (mm_malloc heapUserWord 200).map (fun r => r.1) = some 4320 ∧
    (mm_malloc heapUserWord 200).map (fun r => decide (freeReadOK
      (State.mk (memcpy r.2.mem r.1 4216 104) r.2.mem_brk r.2.mem_max_addr r.2.heap_listp)
      4216)) = some false ∧
    mm_realloc hiAbove heapUserWord 4216 200 = none :=
  ⟨by decide, by decide, by decide, by decide, by decide, by decide, by decide, by rfl⟩

/-- The property of C8 where the final `mm_free(ptr)` reads inside the heap
region: in a well-formed heap, for a live pointer (the allocated block of size
`osz` between `pre` and `post`) obtained for `old_size` bytes and a `new_size`
whose adjusted size exceeds `osz`, if the internal `mm_malloc(new_size)`
returns a non-null `q`, then `mm_realloc` returns `q`, the first
`min old_size new_size` bytes at `q` after the call are those at the old
pointer before it, and the header of `q` reads a size with room for `new_size`
payload bytes. -/
theorem grow_keeps_data_in_heap (hiFn : Nat) (s : State) (pre : List Blk) (osz : Nat)
    (post : List Blk) (old_size new_size q : Nat) (s2 : State)
    (h : HeapIs s (pre ++ (osz, 0) :: post))
    (hold : old_size + 4 ≤ osz) (hnew : new_size < W32) (hgrow : osz < adjust new_size)
    (hm : mm_malloc s new_size = some (q, s2)) (hq : q ≠ 0)
    (hrd : freeReadOK
      (State.mk (memcpy s2.mem q (s.heap_listp + 8 + span pre) osz) s2.mem_brk
        s2.mem_max_addr s2.heap_listp) (s.heap_listp + 8 + span pre)) :
    ∃ s4, mm_realloc hiFn s (s.heap_listp + 8 + span pre) new_size = some (q, s4) ∧
      (∀ i, i < min old_size new_size →
        s4.mem (q + i) = s.mem (s.heap_listp + 8 + span pre + i)) ∧
      new_size + 4 ≤ GET_SIZE s4.mem (HDRP q) := by
  have hb := Chain_bits s.mem _ _ h.2.1 (osz, 0) (by simp)
  simp only at hb
  have hw : new_size + 11 < W32 := by
    by_contra hc
    have := adjust_wrap_small new_size hnew hc
    omega
  have h0 : 0 < new_size := by
    by_contra hc
    have e : new_size = 0 := by omega
    rw [e] at hgrow
    have : adjust 0 = 8 := rfl
    omega
  have sa := adjust_spec new_size h0 hw
  obtain ⟨q', s2', hm', l2, x2, hcase⟩ := malloc_spec s _ new_size h h0 hw
  rw [hm] at hm'
  simp only [Option.some.injEq, Prod.mk.injEq] at hm'
  obtain ⟨e1, e2⟩ := hm'
  subst e1; subst e2
  rcases hcase with ⟨e, _⟩ | ⟨_, L2, c1, w2, hq2, hc1, hkeep, _⟩
  · exact absurd e hq
  generalize hptr : s.heap_listp + 8 + span pre = ptr at *
  have hpin : (ptr, osz, 0) ∈ blocksAt (s.heap_listp + 8) (pre ++ (osz, 0) :: post) := by
    rw [← hptr]
    have := mem_blocksAt_mid pre osz 0 post (s.heap_listp + 8)
    exact this
  obtain ⟨hp2, hpq, hpfr⟩ := hkeep ptr osz hpin
  have hg : GET s.mem (ptr - 4) = osz + 0 := by
    have hch : Chain s.mem s.heap_listp (((8, 0) :: pre) ++ (osz, 0) :: post) := h.2.1
    rw [Chain_append] at hch
    have e0 : s.heap_listp + span ((8, 0) :: pre) = ptr := by
      rw [← hptr]
      show s.heap_listp + (8 + span pre) = _
      omega
    rw [e0] at hch
    exact hch.2.1
  have hlt : ptr + osz < W32 := by
    have := blocksAt_range _ _ _ _ _ hpin
    obtain ⟨_, _, g3, _, g5, g6⟩ := h
    omega
  have hp4 : 4 ≤ ptr := by
    have := h.1
    omega
  have hold_sz : GET_SIZE s.mem (HDRP ptr) = osz := by
    rw [HDRP_eq ptr hp4 (by omega)]
    exact (hdr_read _ _ osz 0 hg hb.2.1 (by omega)).1
  generalize hs3 : State.mk (memcpy s2.mem q ptr osz) s2.mem_brk s2.mem_max_addr
    s2.heap_listp = s3 at hrd ⊢
  have l3 : s3.heap_listp = s2.heap_listp := by rw [← hs3]
  have b3 : s3.mem_brk = s2.mem_brk := by rw [← hs3]
  have x3 : s3.mem_max_addr = s2.mem_max_addr := by rw [← hs3]
  have m3 : s3.mem = memcpy s2.mem q ptr osz := by rw [← hs3]
  obtain ⟨X, Y, eX, eqX⟩ := blocksAt_split _ _ _ _ _ hq2
  have hcb := Chain_bits s2.mem _ _ w2.2.1 (c1, 0) (by rw [eX]; simp)
  simp only at hcb
  have hqrg := blocksAt_range _ _ _ _ _ hq2
  have hq4 : 4 ≤ q := by
    have := h.1
    omega
  have hbrk2 : s2.mem_brk < W32 := by
    obtain ⟨_, _, _, _, g5, g6⟩ := w2
    omega
  have hsum2 := w2.2.2.1
  have hgq : GET s2.mem (q - 4) = c1 + 0 := by
    have w2' := w2
    rw [eX] at w2'
    have hch : Chain s2.mem s2.heap_listp (((8, 0) :: X) ++ (c1, 0) :: Y) := w2'.2.1
    rw [Chain_append] at hch
    have e0 : s2.heap_listp + span ((8, 0) :: X) = q := by
      rw [l2, eqX]
      show s.heap_listp + (8 + span X) = _
      omega
    rw [e0] at hch
    exact hch.2.1
  have w3 : HeapIs s3 L2 := by
    rw [eX] at w2 ⊢
    apply HeapIs_frame s2 s3 X c1 0 Y w2 l3 b3 x3
    intro x hx
    rw [m3]
    apply memcpy_out
    rw [l2, ← eqX] at hx
    omega
  obtain ⟨P, Q, eL, ep⟩ := blocksAt_split _ _ _ _ _ hp2
  rw [eL] at w3 hq2
  have e34 : s3.heap_listp + 8 + span P = ptr := by rw [l3, l2, ep]
  obtain ⟨s4, sz1, Q1, hf, l4, _, _, hmn, hfr4⟩ := free_weak hiFn s3 P osz Q w3
    (by rw [e34]; exact hrd)
  rw [e34] at hf hfr4
  rw [l3, l2] at hfr4
  -- q's block is away from everything mm_free writes
  have hpos3 := HeapIs_sizes_pos s3 _ w3
  have hqm : (q, c1, 0) ∈ blocksAt (s.heap_listp + 8) (P ++ (sz1, 1) :: Q1) :=
    mergeNext_keeps P osz Q _ q c1 hq2 (by rw [← ep]; exact fun e => hpq e.symm) sz1 Q1 hmn
  have hposm := mergeNext_pos P osz Q hpos3 sz1 Q1 hmn
  have hpm : (ptr, sz1, 1) ∈ blocksAt (s.heap_listp + 8) (P ++ (sz1, 1) :: Q1) := by
    rw [ep]; exact mem_blocksAt_mid P sz1 1 Q1 _
  have hd := blocksAt_disjoint _ (s.heap_listp + 8) (q, c1, 0) (ptr, sz1, 1) hposm hqm hpm
  simp only at hd
  have hne : (q, c1, (0 : Nat)) ≠ (ptr, sz1, 1) := by
    intro e
    simp at e
  have hkeep4 : ∀ x, q ≤ x + 4 → x + 4 < q + c1 → s4.mem x = s3.mem x := by
    intro x hx1 hx2
    apply hfr4 x
    · rcases hd with e | e | e
      · exact absurd e hne
      · left; omega
      · right; omega
    · intro p c hpc
      have hpc2 : (p, c, 1) ∈ blocksAt (s.heap_listp + 8) (P ++ (osz, 0) :: Q) := by
        rw [blocksAt_append]
        exact List.mem_append_left _ hpc
      have hd2 := blocksAt_disjoint _ (s.heap_listp + 8) (q, c1, 0) (p, c, 1) hpos3 hq2 hpc2
      simp only at hd2
      have hne2 : (q, c1, (0 : Nat)) ≠ (p, c, 1) := by
        intro e
        simp at e
      have hc8 : 8 ≤ c := by
        obtain ⟨X1, Y1, e1, _⟩ := blocksAt_split _ _ _ _ _ hpc2
        have := Chain_bits s3.mem _ _ w3.2.1 (c, 1) (by rw [e1]; simp)
        exact this.1
      rcases hd2 with e | e | e
      · exact absurd e hne2
      · left; omega
      · right; omega
  refine ⟨s4, ?_, ?_, ?_⟩
  · have hptr0 : ptr ≠ 0 := by omega
    have hs0 : new_size ≠ 0 := by omega
    have hno : ¬ adjust new_size ≤ osz := by omega
    unfold mm_realloc
    simp only [hptr0, hs0, if_false, hold_sz, hm, hno, hs3, hf]
  · intro i hi
    rw [hkeep4 (q + i) (by omega) (by omega), m3, memcpy_in _ _ _ _ _ (by omega)]
    exact hpfr (ptr + i) (by omega) (by omega)
  · have hg4 : GET s4.mem (q - 4) = c1 + 0 := by
      rw [← hgq]
      apply GET_congr
      intro a ha1 ha2
      rw [hkeep4 a (by omega) (by omega), m3]
      exact memcpy_out _ _ _ _ _ (Or.inl (by omega))
    rw [HDRP_eq q hq4 (by omega), (hdr_read _ _ c1 0 hg4 hcb.2.1 (by omega)).1]
    omega

/-- An instance of `grow_keeps_data_in_heap` with data in the payload: the
100-byte object at 4112 starts with the bytes `78 56 34 12` and ends with the
bytes `21 43 65 87`; growing it to 200 bytes moves it to 4216. -/
theorem grow_keeps_data_in_heap_witness :
    HeapIs heapOneBlockData ([] ++ (104, 0) :: [(3992, 1)]) ∧ 104 < adjust 200 ∧
    heapOneBlockData.mem 4112 = 120 ∧ heapOneBlockData.mem 4211 = 135 ∧
    heapOneBlockData.mem 4216 = 0 ∧
    ∃ s4, mm_realloc hiAbove heapOneBlockData
        (heapOneBlockData.heap_listp + 8 + span []) 200 = some (4216, s4) ∧
      (∀ i, i < min 100 200 →
        s4.mem (4216 + i) =
          heapOneBlockData.mem (heapOneBlockData.heap_listp + 8 + span [] + i)) ∧
      200 + 4 ≤ GET_SIZE s4.mem (HDRP 4216) :=
  ⟨by decide, by decide, by decide, by decide, by decide,
    grow_keeps_data_in_heap hiAbove heapOneBlockData [] 104 [(3992, 1)] 100 200 4216
      (place heapOneBlockData 4216 (adjust 200)) (by decide) (by decide) (by decide)
      (by decide) (by rfl) (by decide) (by decide)⟩

/-- C9 (shrink in place), failing input: in the heap after
`P = mm_malloc(100)`, the size 4294967293 has adjusted size 8 (the sum
`size + 11` wraps around), at most the block size 104; `mm_realloc(P,
4294967293)` returns `P`, but the payload byte at offset 4, which lies within
the first `min(100, 4294967293)` bytes, has changed from 0 to 97 (the header
of the split-off remainder). -/
theorem C9_shrink_wrap_clobbers :
    HeapIs heapOneBlock [(104, 0), (3992, 1)] ∧ adjust 4294967293 = 8 ∧
    heapOneBlock.mem (4112 + 4) = 0 ∧
    (mm_realloc hiAbove heapOneBlock 4112 4294967293).map
      (fun r => (r.1, r.2.mem (4112 + 4))) = some (4112, 97) :=
  ⟨by decide, by decide, by decide, by rfl⟩

/-- The property of C9 for sizes without wrap-around, where the internal
`mm_free` reads inside the heap region: in a well-formed heap, for a live
pointer and a size `> 0` with `size + 11 < 2^32` whose adjusted size is at most
the size `osz` of the pointer's block, `mm_realloc` returns the pointer itself
and the first `min (osz - 4) size` bytes of its payload are unchanged. -/
theorem shrink_in_place_nowrap (hiFn : Nat) (s : State) (pre : List Blk) (osz : Nat)
    (post : List Blk) (size : Nat) (h : HeapIs s (pre ++ (osz, 0) :: post))
    (h0 : 0 < size) (hw : size + 11 < W32) (hle : adjust size ≤ osz)
    (hrd : ∃ nb s2, mm_malloc s size = some (nb, s2) ∧ freeReadOK s2 nb) :
    ∃ s4, mm_realloc hiFn s (s.heap_listp + 8 + span pre) size =
        some (s.heap_listp + 8 + span pre, s4) ∧
      ∀ i, i < min (osz - 4) size →
        s4.mem (s.heap_listp + 8 + span pre + i) = s.mem (s.heap_listp + 8 + span pre + i) := by
  have hb := Chain_bits s.mem _ _ h.2.1 (osz, 0) (by simp)
  simp only at hb
  have sa := adjust_spec size h0 hw
  have hpin := mem_blocksAt_mid pre osz 0 post (s.heap_listp + 8)
  have hg : GET s.mem (s.heap_listp + 8 + span pre - 4) = osz + 0 := by
    have hch : Chain s.mem s.heap_listp (((8, 0) :: pre) ++ (osz, 0) :: post) := h.2.1
    rw [Chain_append] at hch
    have e0 : s.heap_listp + span ((8, 0) :: pre) = s.heap_listp + 8 + span pre := by
      show s.heap_listp + (8 + span pre) = _
      omega
    rw [e0] at hch
    exact hch.2.1
  have hrg := blocksAt_range _ _ _ _ _ hpin
  have hbrk : s.mem_brk < W32 := by
    obtain ⟨_, _, _, _, g5, g6⟩ := h
    omega
  have hsum := h.2.2.1
  have hl8 := h.1
  obtain ⟨nb, s2, hm, l2, x2, hcase⟩ := malloc_spec s _ size h h0 hw
  obtain ⟨nb0, s20, hm0, hrd⟩ := hrd
  rw [hm] at hm0
  simp only [Option.some.injEq, Prod.mk.injEq] at hm0
  obtain ⟨i1, i2⟩ := hm0
  subst i1; subst i2
  generalize hptr : s.heap_listp + 8 + span pre = ptr at *
  have hlt : ptr + osz < W32 := by omega
  have hold_sz : GET_SIZE s.mem (HDRP ptr) = osz := by
    rw [HDRP_eq ptr (by omega) (by omega)]
    exact (hdr_read _ _ osz 0 hg hb.2.1 (by omega)).1
  -- the state after the internal mm_malloc and mm_free
  have hmid : ∃ s3, mm_free hiFn s2 nb = some s3 ∧
      ∀ x, ptr ≤ x + 4 → x + 4 < ptr + osz → s3.mem x = s.mem x := by
    rcases hcase with ⟨e1, e2⟩ | ⟨hnb, L2, c1, w2, hq2, _, hkeep, _⟩
    · subst e1; subst e2
      exact ⟨s2, by unfold mm_free; rw [if_pos rfl], fun _ _ _ => rfl⟩
    · obtain ⟨hp2, hpq, hpfr⟩ := hkeep ptr osz hpin
      obtain ⟨P, Q, eL, eq⟩ := blocksAt_split _ _ _ _ _ hq2
      rw [eL] at w2 hp2
      rw [← l2] at hp2
      obtain ⟨s3, hf, _, _, _, hfr⟩ := free_weak_keeps hiFn s2 P c1 Q ptr osz w2
        (by rw [l2, ← eq]; exact hrd) hp2 (by rw [l2, ← eq]; exact hpq)
      rw [l2, ← eq] at hf
      exact ⟨s3, hf, fun x hx1 hx2 => by rw [hfr x hx1 hx2]; exact hpfr x hx1 hx2⟩
  obtain ⟨s3, hf, hfr3⟩ := hmid
  have hg3 : GET s3.mem (ptr - 4) = osz + 0 := by
    rw [← hg]
    apply GET_congr
    intro a ha1 ha2
    exact hfr3 a (by omega) (by omega)
  have hpm := place_mem s3 ptr (adjust size) osz 0 (by omega) hg3 hb.2.1 (by omega) hlt hle sa.1
  refine ⟨place s3 ptr (adjust size), ?_, ?_⟩
  · have hptr0 : ptr ≠ 0 := by omega
    have hs0 : size ≠ 0 := by omega
    unfold mm_realloc
    simp only [hptr0, hs0, if_false, hold_sz, hm, hle, if_true, hf]
  · intro i hi
    rw [hpm]
    split
    · rw [PUT_byte_ne _ _ _ _ (by omega), PUT_byte_ne _ _ _ _ (by omega)]
      exact hfr3 _ (by omega) (by omega)
    · rw [PUT_byte_ne _ _ _ _ (by omega)]
      exact hfr3 _ (by omega) (by omega)

/-! ## Claims C11 to C20 -/

theorem adjust_mod8 (size : Nat) : adjust size % 8 = 0 ∧ adjust size < W32 := by
  unfold adjust WSIZE OVERHEAD DSIZE W32
  split <;> omega

/-- C18 (adjusted size): for every request size with `0 < size` and
`size + 11 < 2^32`, the adjusted size computed by `mm_malloc` is a multiple of
8, is at least `size + 4`, is at most every multiple of 8 that is at least
`size + 4`, is 8 for `size ≤ 4`, is below `size + 12`, and `mm_realloc`'s copy
of the computation gives the same value. -/
theorem C18_adjusted_size (size : Nat) (h0 : 0 < size) (hw : size + 11 < W32) :
    adjust size % 8 = 0 ∧ size + 4 ≤ adjust size ∧
    (∀ m, m % 8 = 0 → size + 4 ≤ m → adjust size ≤ m) ∧
    (size ≤ 4 → adjust size = 8) ∧ adjust size < size + 12 ∧
    adjust_realloc size = adjust size := by
  refine ⟨?_, ?_, ?_, ?_, ?_, rfl⟩
  all_goals unfold adjust WSIZE OVERHEAD DSIZE W32 at *
  · split <;> omega
  · split <;> omega
  · intro m hm1 hm2
    split <;> omega
  · intro h4
    rw [if_pos h4]
  · split <;> omega

/-- Witness of C18: the size 100 has adjusted size 104. -/
theorem C18_adjusted_size_witness :
    adjust 100 = 104 ∧
    (adjust 100 % 8 = 0 ∧ 100 + 4 ≤ adjust 100 ∧
    (∀ m, m % 8 = 0 → 100 + 4 ≤ m → adjust 100 ≤ m) ∧
    (100 ≤ 4 → adjust 100 = 8) ∧ adjust 100 < 100 + 12 ∧
    adjust_realloc 100 = adjust 100) :=
  ⟨by decide, C18_adjusted_size 100 (by decide) (by decide)⟩

/-- C20 (a shrinking resize can grow the heap): the heap after
`P = mm_malloc(4088)` on the fresh heap is reachable and well formed, `P` (at
4112) is its single allocated block of 4096 bytes, the size 100 has adjusted
size 104, and `mm_realloc(P, 100)` returns `P` while the break rises from 8208
to 12304. -/
theorem C20_shrink_grows_heap :
    Reach hiAbove 0 (memInit 4096 100000) heapFull ∧
    HeapIs heapFull [(4096, 0)] ∧ heapFull.heap_listp + 8 = 4112 ∧
    0 < 100 ∧ adjust 100 ≤ 4096 ∧ heapFull.mem_brk = 8208 ∧
    (mm_realloc hiAbove heapFull 4112 100).map (fun r => (r.1, r.2.mem_brk)) =
      some (4112, 12304) ∧ 8208 < 12304 :=
  ⟨Reach.malloc (mm_init 0 (memInit 4096 100000)).2 4088 4112 heapFull
      (Reach.init (by decide)) (by rfl),
    by decide, by decide, by decide, by decide, by decide, by rfl, by decide⟩

/-- C16 (first-fit search): in a well-formed heap with block list `L`,
`find_fit(asize)` returns; it returns `NULL` iff no block of the chain is free
with size at least `asize`; a non-null result is the block pointer of a free
block of `L` of size at least `asize` such that no block before it is free
with size at least `asize` (the lowest-address fit), and it is neither the
prologue nor the epilogue.  (`find_fit` performs no write: the embedding
returns no state.) -/
theorem C16_find_fit_first_fit (s : State) (L : List Blk) (asize : Nat) (h : HeapIs s L) :
    ∃ p, find_fit s asize = some p ∧
      (p = 0 ↔ ∀ b ∈ L, ¬ (b.2 = 1 ∧ asize ≤ b.1)) ∧
      (p ≠ 0 → p ≠ s.heap_listp ∧ p ≠ s.mem_brk ∧
        ∃ pre c post, L = pre ++ (c, 1) :: post ∧ p = s.heap_listp + 8 + span pre ∧
          asize ≤ c ∧ ∀ b ∈ pre, ¬ (b.2 = 1 ∧ asize ≤ b.1)) := by
  have hbits : ∀ b ∈ L, b.2 ≤ 1 := fun b hb =>
    (Chain_bits s.mem _ _ h.2.1 b (List.mem_cons_of_mem _ hb)).2.2
  have hiff : ∀ b ∈ L, (b.2 ≠ 0 ∧ asize ≤ b.1) ↔ (b.2 = 1 ∧ asize ≤ b.1) := by
    intro b hb
    have := hbits b hb
    constructor <;> rintro ⟨h1, h2⟩ <;> exact ⟨by omega, h2⟩
  refine ⟨_, find_fit_HeapIs s L asize h, ?_, ?_⟩
  · constructor
    · intro hp b hb hc
      exact firstFit_none asize L _ (by omega) hp b hb ((hiff b hb).mpr hc)
    · intro hn
      exact firstFit_zero_of_none asize L _ (fun b hb hc => hn b hb ((hiff b hb).mp hc))
  · intro hp
    obtain ⟨pre, c, post, e1, e2, e3, e4⟩ := firstFit_split asize L _ _ hbits rfl hp
    have hsum := h.2.2.1
    have hc8 := (Chain_bits s.mem _ _ h.2.1 (c, 1) (by rw [e1]; simp)).1
    simp only at hc8
    have hsp : span L = span pre + (c + span post) := by rw [e1, span_append]; rfl
    refine ⟨by omega, by omega, pre, c, post, e1, e2, e3, ?_⟩
    intro b hb hc
    exact e4 b hb ⟨by omega, hc.2⟩

/-- Witness of C16: in the heap free(104) / allocated(104) / free(3888),
`find_fit(200)` skips the first free block and returns the block at 4320. -/
theorem C16_find_fit_first_fit_witness :
    HeapIs heapFreeAllocFree [(104, 1), (104, 0), (3888, 1)] ∧
    find_fit heapFreeAllocFree 200 = some 4320 ∧
    ∃ p, find_fit heapFreeAllocFree 200 = some p ∧
      (p = 0 ↔ ∀ b ∈ [((104, 1) : Blk), (104, 0), (3888, 1)], ¬ (b.2 = 1 ∧ 200 ≤ b.1)) ∧
      (p ≠ 0 → p ≠ heapFreeAllocFree.heap_listp ∧ p ≠ heapFreeAllocFree.mem_brk ∧
        ∃ pre c post, [((104, 1) : Blk), (104, 0), (3888, 1)] = pre ++ (c, 1) :: post ∧
          p = heapFreeAllocFree.heap_listp + 8 + span pre ∧
          200 ≤ c ∧ ∀ b ∈ pre, ¬ (b.2 = 1 ∧ 200 ≤ b.1)) :=
  ⟨by decide, by decide,
    C16_find_fit_first_fit heapFreeAllocFree [(104, 1), (104, 0), (3888, 1)] 200 (by decide)⟩

/-- C13 (out of memory): in a well-formed heap, for every size `> 0`,
`mm_malloc(size)` returns; it returns `NULL` exactly when no free block of the
chain has size at least the adjusted size and `mem_sbrk` refuses the request
(returns `(void *)-1`); in that case the state is unchanged. -/
theorem C13_malloc_null_iff (s : State) (L : List Blk) (size : Nat) (h : HeapIs s L)
    (h0 : 0 < size) :
    ∃ p s1, mm_malloc s size = some (p, s1) ∧
      (p = 0 ↔ (∀ b ∈ L, ¬ (b.2 = 1 ∧ adjust size ≤ b.1)) ∧
        (mem_sbrk s (MAX (adjust size) CHUNKSIZE)).1 = W32 - 1) ∧
      (p = 0 → s1 = s) := by
  have hs : size ≠ 0 := by omega
  have hbits : ∀ b ∈ L, b.2 ≤ 1 := fun b hb =>
    (Chain_bits s.mem _ _ h.2.1 b (List.mem_cons_of_mem _ hb)).2.2
  have hff := find_fit_HeapIs s L (adjust size) h
  have ha := adjust_mod8 size
  have hge := MAX_ge (adjust size)
  have h8 : MAX (adjust size) CHUNKSIZE % 8 = 0 := by
    rcases MAX_cases (adjust size) with e | e <;> rw [e]
    exact ha.1
  have hlt : MAX (adjust size) CHUNKSIZE < W32 := by
    rcases MAX_cases (adjust size) with e | e <;> rw [e]
    · exact ha.2
    · unfold W32; omega
  have hbrk : s.mem_brk < W32 - 1 ∨ s.mem_max_addr < s.mem_brk + MAX (adjust size) CHUNKSIZE := by
    obtain ⟨_, _, _, _, g5, g6⟩ := h
    omega
  by_cases hp : firstFit (adjust size) (s.heap_listp + 8) L = 0
  · rw [hp] at hff
    have hnone := firstFit_none (adjust size) L _ (by omega) hp
    have hnone1 : ∀ b ∈ L, ¬ (b.2 = 1 ∧ adjust size ≤ b.1) :=
      fun b hb hc => hnone b hb ⟨by omega, hc.2⟩
    by_cases hroom : s.mem_brk + MAX (adjust size) CHUNKSIZE ≤ s.mem_max_addr
    · obtain ⟨e1, _⟩ := extend_heap_ok s _ L h h8 (by omega) hroom
      have hb0 : s.mem_brk ≠ 0 := by
        obtain ⟨g1, _, g3, _⟩ := h
        omega
      refine ⟨s.mem_brk,
        place (extend_heap s (MAX (adjust size) CHUNKSIZE / WSIZE)).2 s.mem_brk (adjust size),
        ?_, ?_, fun e => absurd e hb0⟩
      · unfold mm_malloc
        simp only [hs, if_false, hff, ne_eq, not_true_eq_false, e1, hb0]
      · constructor
        · intro e; exact absurd e hb0
        · rintro ⟨_, hr⟩
          rcases mem_sbrk_cases s (MAX (adjust size) CHUNKSIZE) with ⟨k, _⟩ | ⟨_, e⟩
          · omega
          · rw [e] at hr
            simp only at hr
            omega
    · have e := extend_heap_fail s _ h8 hlt (by omega)
      refine ⟨0, s, ?_, ?_, fun _ => rfl⟩
      · unfold mm_malloc
        simp only [hs, if_false, hff, ne_eq, not_true_eq_false, e, if_true]
      · constructor
        · intro _
          refine ⟨hnone1, ?_⟩
          rcases mem_sbrk_cases s (MAX (adjust size) CHUNKSIZE) with ⟨_, e⟩ | ⟨k, _⟩
          · rw [e]
          · omega
        · intro _; rfl
  · obtain ⟨pre, c, post, e1, _, e3, _⟩ := firstFit_split (adjust size) L _ _ hbits rfl hp
    refine ⟨firstFit (adjust size) (s.heap_listp + 8) L,
      place s (firstFit (adjust size) (s.heap_listp + 8) L) (adjust size),
      ?_, ?_, fun e => absurd e hp⟩
    · unfold mm_malloc
      simp only [hs, if_false, hff, hp, ne_eq, not_false_eq_true, if_true]
    · constructor
      · intro e; exact absurd e hp
      · rintro ⟨hn, _⟩
        exact absurd ⟨rfl, e3⟩ (hn (c, 1) (by rw [e1]; simp))


/-! ## The heap checker on a chain -/

theorem printblock_chain (m : Mem) (bp sz fl : Nat) (h4 : 4 ≤ bp) (hlt : bp < W32)
    (hg : GET m (bp - 4) = sz + fl) (h8 : sz % 8 = 0) (hfl : fl ≤ 1) (hpos : 8 ≤ sz) :
    printblock m bp = Msg.blockLine bp sz (if fl ≠ 0 then 'f' else 'a') := by
  have hr := hdr_read m (bp - 4) sz fl hg h8 hfl
  unfold printblock
  simp only [HDRP_eq bp h4 hlt, hr.1, hr.2]
  rw [if_neg (by omega)]

theorem checkheap_loop_chain (m : Mem) (v : Bool) (L : List Blk) :
    ∀ (fuel bp : Nat), Chain m bp L → GET m (bp + span L - 4) < 8 → 4 ≤ bp →
      bp + span L < W32 → L.length < fuel →
      checkheap_loop m v fuel bp = some (if v then blockLines bp L else [], bp + span L) := by
  induction L with
  | nil =>
    intro fuel bp _ hz h4 hlt hfuel
    cases fuel with
    | zero => simp at hfuel
    | succ n =>
      have hs : span ([] : List Blk) = 0 := rfl
      rw [hs] at hz hlt ⊢
      have e0 : GET_SIZE m (HDRP bp) = 0 := by
        rw [HDRP_eq bp h4 (by omega), GET_SIZE_eq]
        have : bp + 0 - 4 = bp - 4 := by omega
        rw [this] at hz
        omega
      unfold checkheap_loop
      rw [if_neg (by omega)]
      cases v <;> rfl
  | cons b L ih =>
    intro fuel bp hc hz h4 hlt hfuel
    cases fuel with
    | zero => simp at hfuel
    | succ n =>
      obtain ⟨h1, h2, h3, h5, h6⟩ := hc
      have hs : span (b :: L) = b.1 + span L := rfl
      rw [hs] at hz hlt ⊢
      have hr := hdr_read m (bp - 4) b.1 b.2 h1 h3 h5
      have eH : HDRP bp = bp - 4 := HDRP_eq bp h4 (by omega)
      have eN : NEXT_BLKP m bp = bp + b.1 := by
        unfold NEXT_BLKP
        have : psub bp WSIZE = bp - 4 := eH
        rw [this, hr.1]
        exact padd_eq _ _ (by omega)
      have hlen : L.length < n := by
        have : (b :: L).length = L.length + 1 := rfl
        omega
      have hrec := ih n (bp + b.1) h6 (by rw [← Nat.add_assoc] at hz; exact hz) (by omega)
        (by omega) hlen
      unfold checkheap_loop
      rw [eH, hr.1, if_pos (by omega), eN, hrec]
      have hp := printblock_chain m bp b.1 b.2 h4 (by omega) h1 h3 h5 h2
      have e : bp + b.1 + span L = bp + (b.1 + span L) := by omega
      cases v
      · simp [e]
      · simp [e, hp, blockLines, blocksAt]

/-- The output of `mm_checkheap` on a heap whose chain is well formed, with any
word `w < 8` in the epilogue header: no line in quiet mode unless the bit of
the epilogue word is set. -/
theorem mm_checkheap_chain (s : State) (L : List Blk) (v : Bool) (h8 : 8 ≤ s.heap_listp)
    (hc : Chain s.mem s.heap_listp ((8, 0) :: L))
    (hbrk : s.heap_listp + 8 + span L = s.mem_brk) (hmax : s.mem_brk < W32)
    (hz : GET s.mem (s.mem_brk - 4) < 8) :
    mm_checkheap s v = some
      ((if v then Msg.heapLine s.heap_listp :: blockLines s.heap_listp ((8, 0) :: L) else []) ++
        (if v then [Msg.eol s.mem_brk] else []) ++
        (if GET s.mem (s.mem_brk - 4) % 2 ≠ 0 then [Msg.badEpilogue] else [])) := by
  have hs : span ((8, 0) :: L) = 8 + span L := rfl
  have hsum : s.heap_listp + span ((8, 0) :: L) = s.mem_brk := by rw [hs]; omega
  have hlen := length_le_span s.mem _ _ hc
  have hloop := checkheap_loop_chain s.mem v ((8, 0) :: L) loopFuel s.heap_listp hc
    (by rw [hsum]; exact hz) (by omega) (by omega)
    (by unfold loopFuel; unfold W32 at hmax; omega)
  rw [hsum] at hloop
  obtain ⟨h1, _, _, _, _⟩ := hc
  have hr := hdr_read s.mem (s.heap_listp - 4) 8 0 h1 (by omega) (by omega)
  have eH : HDRP s.heap_listp = s.heap_listp - 4 := HDRP_eq _ (by omega) (by omega)
  have eB : HDRP s.mem_brk = s.mem_brk - 4 := HDRP_eq _ (by omega) hmax
  have eS : GET_SIZE s.mem (s.mem_brk - 4) = 0 := by rw [GET_SIZE_eq]; omega
  have eA : GET_ALLOC s.mem (s.mem_brk - 4) = GET s.mem (s.mem_brk - 4) % 2 := GET_ALLOC_eq _ _
  have eP : printblock s.mem s.mem_brk = Msg.eol s.mem_brk := by
    unfold printblock
    simp only [eB, eS, if_true]
  unfold mm_checkheap
  simp only [hloop, eH, hr.1, hr.2, eB, eS, eA, eP]
  cases v <;> simp [DSIZE]

theorem mm_checkheap_HeapIs (s : State) (L : List Blk) (v : Bool) (h : HeapIs s L) :
    mm_checkheap s v = some
      (if v then Msg.heapLine s.heap_listp :: blockLines s.heap_listp ((8, 0) :: L) ++
        [Msg.eol s.mem_brk] else []) := by
  obtain ⟨g1, g2, g3, g4, g5, g6⟩ := h
  rw [mm_checkheap_chain s L v g1 g2 g3 (by omega) (by omega), g4]
  cases v <;> simp

/-- The heap checker reports an epilogue header whose flag bit is set: for a
heap that is well formed except that its epilogue word has size zero and the
bit set, `Bad epilogue header` is the last line printed. -/
theorem checkheap_reports_flag (s : State) (L : List Blk) (v : Bool) (h8 : 8 ≤ s.heap_listp)
    (hc : Chain s.mem s.heap_listp ((8, 0) :: L))
    (hbrk : s.heap_listp + 8 + span L = s.mem_brk) (hmax : s.mem_brk < W32)
    (hz : GET s.mem (s.mem_brk - 4) < 8) (hbit : GET s.mem (s.mem_brk - 4) % 2 = 1) :
    ∃ out, mm_checkheap s v = some (out ++ [Msg.badEpilogue]) := by
  have hne : GET s.mem (s.mem_brk - 4) % 2 ≠ 0 := by omega
  rw [mm_checkheap_chain s L v h8 hc hbrk hmax hz, if_pos hne]
  exact ⟨_, rfl⟩


/-- C14 (the checker passes on a fresh heap): for the state left by a successful
`mm_init` at any base address (with the limit of the growth primitive below
2^32), `mm_checkheap` prints nothing in quiet mode, hence neither
`Bad prologue header` nor `Bad epilogue header`; in verbose mode it prints the
heap line, the prologue (size 8, allocated), the single free block of 4096
bytes, and the end-of-list line at the epilogue, and no violation; the
loop of the checker stops at the epilogue (the break). -/
theorem C14_checkheap_fresh (KEY : Nat) (s0 : State) (hok : (mm_init KEY s0).1 ≠ -1)
    (hmax : s0.mem_max_addr < W32) :
    mm_checkheap (mm_init KEY s0).2 false = some [] ∧
    mm_checkheap (mm_init KEY s0).2 true =
      some [Msg.heapLine (s0.mem_brk + 8), Msg.blockLine (s0.mem_brk + 8) 8 'a',
        Msg.blockLine (s0.mem_brk + 16) 4096 'f', Msg.eol (s0.mem_brk + 16 + 4096)] ∧
    (checkheap_loop (mm_init KEY s0).2.mem true loopFuel (mm_init KEY s0).2.heap_listp).map
      (fun r => r.2) = some (mm_init KEY s0).2.mem_brk ∧
    (mm_init KEY s0).2.mem_brk = s0.mem_brk + 16 + 4096 ∧
    GET (mm_init KEY s0).2.mem ((mm_init KEY s0).2.mem_brk - 4) = 0 := by
  obtain ⟨h, e1, e2, e3⟩ := mm_init_HeapIs KEY s0 hok hmax
  have hq := mm_checkheap_HeapIs _ _ false h
  have hv := mm_checkheap_HeapIs _ _ true h
  obtain ⟨g1, g2, g3, g4, g5, g6⟩ := h
  have hlen := length_le_span _ _ _ g2
  have hs : span [((8, 0) : Blk), (4096, 1)] = 8 + 4096 := rfl
  have hloop := checkheap_loop_chain (mm_init KEY s0).2.mem true [(8, 0), (4096, 1)] loopFuel
    (mm_init KEY s0).2.heap_listp g2 (by
      have e : (mm_init KEY s0).2.heap_listp + span [((8, 0) : Blk), (4096, 1)] - 4 =
          (mm_init KEY s0).2.mem_brk - 4 := by rw [hs]; omega
      rw [e, g4]; omega)
    (by omega) (by rw [hs]; omega) (by simp [loopFuel])
  refine ⟨hq, ?_, ?_, e2, g4⟩
  · rw [hv, e1, e2]
    simp [blockLines, blocksAt]
  · rw [hloop, hs, e1, e2]
    simp

/-- Witness of C14: the fresh heap at base 4096. -/
theorem C14_checkheap_fresh_witness :
    (mm_init 0 (memInit 4096 100000)).1 ≠ -1 ∧
    mm_checkheap (mm_init 0 (memInit 4096 100000)).2 false = some [] ∧
    mm_checkheap (mm_init 0 (memInit 4096 100000)).2 true =
      some [Msg.heapLine ((memInit 4096 100000).mem_brk + 8),
        Msg.blockLine ((memInit 4096 100000).mem_brk + 8) 8 'a',
        Msg.blockLine ((memInit 4096 100000).mem_brk + 16) 4096 'f',
        Msg.eol ((memInit 4096 100000).mem_brk + 16 + 4096)] ∧
    (checkheap_loop (mm_init 0 (memInit 4096 100000)).2.mem true loopFuel
      (mm_init 0 (memInit 4096 100000)).2.heap_listp).map
      (fun r => r.2) = some (mm_init 0 (memInit 4096 100000)).2.mem_brk ∧
    (mm_init 0 (memInit 4096 100000)).2.mem_brk = (memInit 4096 100000).mem_brk + 16 + 4096 ∧
    GET (mm_init 0 (memInit 4096 100000)).2.mem
      ((mm_init 0 (memInit 4096 100000)).2.mem_brk - 4) = 0 :=
  ⟨by decide, C14_checkheap_fresh 0 (memInit 4096 100000) (by decide) (by decide)⟩

/-- C15 (corrupted epilogue), failing input: the fresh heap with the epilogue
header overwritten by the word 8 is well formed up to the epilogue position
(prologue of size 8, free block of 4096 bytes ending at the break 8208), the
word at the epilogue position has the non-zero size 8, and `mm_checkheap`
prints no line in quiet mode and no `Bad epilogue header` in verbose mode: its
loop walks on to 8216, where the header reads 0. -/
theorem C15_nonzero_epilogue_unreported :
    Chain heapBadEpilogue.mem heapBadEpilogue.heap_listp [(8, 0), (4096, 1)] ∧
    heapBadEpilogue.heap_listp + 8 + 4096 = heapBadEpilogue.mem_brk ∧
    heapBadEpilogue.mem_brk = 8208 ∧
    GET_SIZE heapBadEpilogue.mem (heapBadEpilogue.mem_brk - 4) = 8 ∧
    mm_checkheap heapBadEpilogue false = some [] ∧
    mm_checkheap heapBadEpilogue true =
      some [Msg.heapLine 4104, Msg.blockLine 4104 8 'a', Msg.blockLine 4112 4096 'f',
        Msg.blockLine 8208 8 'a', Msg.eol 8216] :=
  ⟨by decide, by decide, by decide, by decide, by decide, by decide⟩

/-- C11 (meaning of the flag bit), failing input: on the fresh heap
`p = mm_malloc(100)` returns 4112 and the header of `p` reads 104 with bit 0
clear; after `mm_free(p)` the header of the merged free block at 4112 reads
4097 with bit 0 set. -/
theorem C11_flag_inverted :
    (mm_malloc freshHeap 100).map
      (fun r => (r.1, GET r.2.mem (HDRP r.1), GET_ALLOC r.2.mem (HDRP r.1))) =
      some (4112, 104, 0) ∧
    ((mm_malloc freshHeap 100).bind (fun r => (mm_free hiAbove r.2 r.1).map
      (fun s1 => (GET s1.mem (HDRP r.1), GET_ALLOC s1.mem (HDRP r.1), chainOf s1)))) =
      some (4097, 1, some ([(8, 0), (4096, 1)], 8208)) :=
  ⟨by decide, by rfl⟩

/-- Witness of C13: on the fresh heap, whose growth primitive has room for
100000 bytes, `mm_malloc(200000)` returns `NULL`. -/
theorem C13_malloc_null_iff_witness :
    HeapIs freshHeap [(4096, 1)] ∧
    (mm_malloc freshHeap 200000).map (fun r => r.1) = some 0 ∧
    ∃ p s1, mm_malloc freshHeap 200000 = some (p, s1) ∧
      (p = 0 ↔ (∀ b ∈ [((4096, 1) : Blk)], ¬ (b.2 = 1 ∧ adjust 200000 ≤ b.1)) ∧
        (mem_sbrk freshHeap (MAX (adjust 200000) CHUNKSIZE)).1 = W32 - 1) ∧
      (p = 0 → s1 = freshHeap) :=
  ⟨by decide, by decide, C13_malloc_null_iff freshHeap [(4096, 1)] 200000 (by decide) (by decide)⟩


/-! ## Footers -/

theorem free_next_footer (s : State) (pre : List Blk) (sz : Nat) (post : List Blk)
    (h : HeapIs s (pre ++ (sz, 0) :: post)) :
    ∀ sz1 m1,
      coalesce_next
        (State.mk (PUT (PUT s.mem (s.heap_listp + 8 + span pre - 4) (sz + 1))
          (s.heap_listp + 8 + span pre + sz - 8) (sz + 1))
          s.mem_brk s.mem_max_addr s.heap_listp)
        (s.heap_listp + 8 + span pre) sz = (sz1, m1) →
      GET m1 (s.heap_listp + 8 + span pre + sz1 - 8) = sz1 + 1 := by
  obtain ⟨g1, g2, g3, g4, g5, g6⟩ := h
  have hsp : span (pre ++ (sz, 0) :: post) = span pre + (sz + span post) := by
    rw [span_append]; rfl
  rw [hsp] at g3
  have hch : Chain s.mem s.heap_listp (((8, 0) :: pre) ++ (sz, 0) :: post) := g2
  rw [Chain_append] at hch
  have e0 : s.heap_listp + span ((8, 0) :: pre) = s.heap_listp + 8 + span pre := by
    show s.heap_listp + (8 + span pre) = _
    omega
  rw [e0] at hch
  obtain ⟨_, hg, hsz, hsz8, _, hpost⟩ := hch
  simp only at hg hsz hsz8 hpost
  generalize hbp : s.heap_listp + 8 + span pre = bp at *
  have hbp4 : 4 ≤ bp := by omega
  have hgM : GET (PUT (PUT s.mem (bp - 4) (sz + 1)) (bp + sz - 8) (sz + 1)) (bp - 4)
      = sz + 1 := by
    rw [GET_PUT_ne _ _ _ _ (by omega), GET_PUT_same]
    exact Nat.mod_eq_of_lt (by omega)
  have hgF : GET (PUT (PUT s.mem (bp - 4) (sz + 1)) (bp + sz - 8) (sz + 1)) (bp + sz - 8)
      = sz + 1 := by
    rw [GET_PUT_same]
    exact Nat.mod_eq_of_lt (by omega)
  have hN : NEXT_BLKP (PUT (PUT s.mem (bp - 4) (sz + 1)) (bp + sz - 8) (sz + 1)) bp
      = bp + sz := by
    unfold NEXT_BLKP
    have : psub bp WSIZE = bp - 4 := HDRP_eq bp hbp4 (by omega)
    rw [this, (hdr_read _ _ sz 1 hgM hsz8 (by omega)).1]
    exact padd_eq _ _ (by omega)
  have hH : HDRP (bp + sz) = bp + sz - 4 := HDRP_eq _ (by omega) (by omega)
  have hnx : GET (PUT (PUT s.mem (bp - 4) (sz + 1)) (bp + sz - 8) (sz + 1)) (bp + sz - 4)
      = GET s.mem (bp + sz - 4) := by
    rw [GET_PUT_ne _ _ _ _ (by omega), GET_PUT_ne _ _ _ _ (by omega)]
  intro sz1 m1 hcn
  rw [coalesce_next_eq] at hcn
  simp only [hN, hH] at hcn
  cases post with
  | nil =>
    have hz : GET s.mem (bp + sz - 4) = 0 := by
      have e : bp + sz - 4 = s.mem_brk - 4 := by
        have : span ([] : List Blk) = 0 := rfl
        omega
      rw [e]; exact g4
    have ha : GET_ALLOC (PUT (PUT s.mem (bp - 4) (sz + 1)) (bp + sz - 8) (sz + 1))
        (bp + sz - 4) = 0 := by
      rw [GET_ALLOC_eq, hnx, hz]
    rw [ha] at hcn
    simp only [ne_eq, not_true_eq_false, if_false, Prod.mk.injEq] at hcn
    obtain ⟨e1, e2⟩ := hcn
    rw [← e1, ← e2]
    exact hgF
  | cons b t =>
    obtain ⟨hb1, hb2, hb3, hb4, hb5⟩ := hpost
    have hsb : span (b :: t) = b.1 + span t := rfl
    rw [hsb] at g3
    have hrd := hdr_read _ _ b.1 b.2 (hnx.trans hb1) hb3 hb4
    rw [hrd.1, hrd.2] at hcn
    by_cases hb : b.2 = 1
    · have hS : (sz + b.1) % W32 = sz + b.1 := Nat.mod_eq_of_lt (by omega)
      have hP : PACK (sz + b.1) 1 = sz + b.1 + 1 := PACK_eq _ 1 (by omega) (by omega)
      have hHb : HDRP bp = bp - 4 := HDRP_eq bp hbp4 (by omega)
      have hg3 : GET (PUT (PUT (PUT s.mem (bp - 4) (sz + 1)) (bp + sz - 8) (sz + 1))
          (bp - 4) (sz + b.1 + 1)) (bp - 4) = sz + b.1 + 1 := by
        rw [GET_PUT_same]; exact Nat.mod_eq_of_lt (by omega)
      have hF := FTRP_eq _ bp (sz + b.1) 1 hbp4 hg3 (by omega) (by omega) (by omega) (by omega)
      rw [hb, hS, hP, hHb, hF] at hcn
      simp only [ne_eq, one_ne_zero, not_false_eq_true, if_true, Prod.mk.injEq] at hcn
      obtain ⟨e1, e2⟩ := hcn
      rw [← e1, ← e2, GET_PUT_same]
      exact Nat.mod_eq_of_lt (by omega)
    · have hb0 : b.2 = 0 := by omega
      rw [hb0] at hcn
      simp only [ne_eq, not_true_eq_false, if_false, Prod.mk.injEq] at hcn
      obtain ⟨e1, e2⟩ := hcn
      rw [← e1, ← e2]
      exact hgF

/-- After a call `mm_free(bp)` on a well-formed heap that reads no word outside
the heap region, the block at `bp`, merged with a free successor, has its
header and its last word both equal to the merged size with the bit set
(whatever the predecessor scan does). -/
theorem free_footer (hiFn : Nat) (s : State) (pre : List Blk) (sz : Nat) (post : List Blk)
    (h : HeapIs s (pre ++ (sz, 0) :: post))
    (hrd : freeReadOK s (s.heap_listp + 8 + span pre)) :
    ∃ s1 sz1 post1, mm_free hiFn s (s.heap_listp + 8 + span pre) = some s1 ∧
      mergeNext sz post = (sz1, 1) :: post1 ∧ sz ≤ sz1 ∧
      GET s1.mem (s.heap_listp + 8 + span pre - 4) = sz1 + 1 ∧
      GET s1.mem (s.heap_listp + 8 + span pre + sz1 - 8) = sz1 + 1 := by
  obtain ⟨sz1, post1, m1, hmn, hcn, hH1, hpost1, hfr1⟩ := free_next_step s pre sz post h
  have hF1 := free_next_footer s pre sz post h sz1 m1 hcn
  obtain ⟨sz1', post1', hmn', hle, _⟩ := mergeNext_shape sz post
  rw [hmn] at hmn'
  simp only [List.cons.injEq, Prod.mk.injEq, and_true] at hmn'
  obtain ⟨e1, _⟩ := hmn'
  rw [← e1] at hle
  obtain ⟨g1, g2, g3, g4, g5, g6⟩ := h
  have hsp : span (pre ++ (sz, 0) :: post) = span pre + (sz + span post) := by
    rw [span_append]; rfl
  rw [hsp] at g3
  have hch : Chain s.mem s.heap_listp (((8, 0) :: pre) ++ (sz, 0) :: post) := g2
  rw [Chain_append] at hch
  have e0 : s.heap_listp + span ((8, 0) :: pre) = s.heap_listp + 8 + span pre := by
    show s.heap_listp + (8 + span pre) = _
    omega
  rw [e0] at hch
  obtain ⟨hcpre, hg, hsz, hsz8, _, _⟩ := hch
  simp only at hg hsz hsz8
  have hc1 : Chain m1 s.heap_listp ((8, 0) :: pre) := by
    apply Chain_congr s.mem _ _ _ (by omega) _ hcpre
    intro a _ ha2
    rw [e0] at ha2
    exact hfr1 a (Or.inl (by omega))
  rcases List.eq_nil_or_concat ((8, 0) :: pre) with e | ⟨A, b, e⟩
  · simp at e
  rw [List.concat_eq_append] at e
  have hlen := length_le_span m1 _ _ hc1
  have hsp8 : span ((8, 0) :: pre) = 8 + span pre := rfl
  rw [hsp8] at hlen
  have hl1 : ((8, 0) :: pre).length = A.length + 1 := by rw [e]; simp
  rw [hl1] at hlen
  rw [e] at hc1 e0
  obtain ⟨A1, b1, A2, eA, hscan⟩ := scan_loop_weak m1 hiFn (s.heap_listp + 8 + span pre) A b
    loopFuel s.heap_listp hc1 e0 (by omega) (by omega)
    (by unfold loopFuel; unfold W32 at g6; omega)
  have hfree := mm_free_unfold hiFn s (s.heap_listp + 8 + span pre) sz 0 (by omega) hg hsz8
    (by omega) hsz (by omega) hrd (sz1, m1) hcn (s.heap_listp + span A1) hscan
  have hc2 := hc1
  rw [eA, Chain_append] at hc2
  obtain ⟨_, hb1, hb2, hb3, hb4, _⟩ := hc2
  have hspA : span (A ++ [b]) = span A1 + (b1.1 + span A2) := by
    rw [eA, span_append]; rfl
  have hH : HDRP (s.heap_listp + span A1) = s.heap_listp + span A1 - 4 :=
    HDRP_eq _ (by omega) (by omega)
  refine ⟨_, sz1, post1, hfree, hmn, hle, ?_, ?_⟩
  · show GET (coalesce_prev m1 sz1 (s.heap_listp + span A1)) _ = _
    unfold coalesce_prev
    rw [hH]
    split
    · rw [GET_PUT_ne _ _ _ _ (by omega)]
      exact hH1
    · exact hH1
  · show GET (coalesce_prev m1 sz1 (s.heap_listp + span A1)) _ = _
    unfold coalesce_prev
    rw [hH]
    split
    · rw [GET_PUT_ne _ _ _ _ (by omega)]
      exact hF1
    · exact hF1

/-- C12 (footers of free blocks), counterexample: the state left by `mm_init`
is a well-formed heap whose single free block of 4096 bytes, created by
`extend_heap`, has the header word 4097 and the last word 0; the state left by
`mm_malloc(100)` on it is a well-formed heap whose free remainder of 3992
bytes, created by the split in `place`, has the header word 3993 and the last
word 0. -/
theorem C12_free_block_without_footer :
    HeapIs freshHeap [(4096, 1)] ∧ freshHeap.heap_listp + 8 = 4112 ∧
    GET freshHeap.mem (4112 - 4) = 4097 ∧ GET freshHeap.mem (4112 + 4096 - 8) = 0 ∧
    ¬ HasFooters freshHeap.mem (freshHeap.heap_listp + 8) [(4096, 1)] ∧
    HeapIs heapOneBlock [(104, 0), (3992, 1)] ∧ heapOneBlock.heap_listp + 8 = 4112 ∧
    GET heapOneBlock.mem (4216 - 4) = 3993 ∧ GET heapOneBlock.mem (4216 + 3992 - 8) = 0 ∧
    ¬ HasFooters heapOneBlock.mem (heapOneBlock.heap_listp + 8) [(104, 0), (3992, 1)] :=
  ⟨by decide, by decide, by decide, by decide,
    fun h => absurd (h.1 rfl) (by decide),
    by decide, by decide, by decide, by decide,
    fun h => absurd (h.2.1 rfl) (by decide)⟩

/-- C12 amended (footers are written by `mm_free` only): in a well-formed heap,
when `mm_free(bp)` frees an allocated block whose predecessor is not free (and
the bound test of the predecessor scan holds on the heap when there is a
predecessor), and the call reads no word outside the heap region (hypothesis
`hrd`), the resulting heap is well formed, the freed block merged with a free
successor is the free block at `bp` of the chain, and its last word equals its
header word. -/
theorem C12_free_writes_footer (hiFn : Nat) (s : State) (pre : List Blk) (sz : Nat)
    (post : List Blk) (h : HeapIs s (pre ++ (sz, 0) :: post))
    (hsc : pre ≠ [] → ScanOK hiFn s.heap_listp s.mem_brk)
    (hprev : ∀ b ∈ pre.getLast?, b.2 ≠ 1)
    (hrd : freeReadOK s (s.heap_listp + 8 + span pre)) :
    ∃ s1 sz1 post1, mm_free hiFn s (s.heap_listp + 8 + span pre) = some s1 ∧
      mergeNext sz post = (sz1, 1) :: post1 ∧
      HeapIs s1 (pre ++ (sz1, 1) :: post1) ∧
      (s.heap_listp + 8 + span pre, sz1, 1) ∈ blocksAt (s1.heap_listp + 8)
        (pre ++ (sz1, 1) :: post1) ∧
      GET s1.mem (s.heap_listp + 8 + span pre + sz1 - 8) =
        GET s1.mem (s.heap_listp + 8 + span pre - 4) ∧
      HasFooters s1.mem (s.heap_listp + 8 + span pre) [(sz1, 1)] := by
  obtain ⟨s1, sz1, post1, hf, hmn, _, hH, hF⟩ := free_footer hiFn s pre sz post h hrd
  obtain ⟨s2, hf2, hheap, hl, _⟩ := free_spec hiFn s pre sz post h hsc hrd
  rw [hf] at hf2
  have es : s2 = s1 := (Option.some.inj hf2).symm
  subst es
  have em : freeMerge pre sz post = pre ++ (sz1, 1) :: post1 := by
    unfold freeMerge
    rw [hmn]
    exact mergePrev_keep pre _ _ hprev
  rw [em] at hheap
  refine ⟨s2, sz1, post1, hf, hmn, hheap, ?_, by rw [hH, hF], ?_⟩
  · rw [hl]
    exact mem_blocksAt_mid pre sz1 1 post1 _
  · refine ⟨fun _ => ?_, trivial⟩
    show GET s2.mem (s.heap_listp + 8 + span pre + sz1 - 8) =
      GET s2.mem (s.heap_listp + 8 + span pre - 4)
    rw [hH, hF]

/-- Witness of C12 amended: freeing the block `B` (at 4216) of the heap with
the allocated blocks `A` and `B` of 104 bytes and a free block of 3888 bytes
merges `B` with its free successor. -/
theorem C12_free_writes_footer_witness :
    HeapIs heapTwoBlocks ([(104, 0)] ++ (104, 0) :: [(3888, 1)]) ∧
    ∃ s1 sz1 post1,
      mm_free hiAbove heapTwoBlocks (heapTwoBlocks.heap_listp + 8 + span [(104, 0)]) = some s1 ∧
      mergeNext 104 [(3888, 1)] = (sz1, 1) :: post1 ∧
      HeapIs s1 ([(104, 0)] ++ (sz1, 1) :: post1) ∧
      (heapTwoBlocks.heap_listp + 8 + span [(104, 0)], sz1, 1) ∈ blocksAt (s1.heap_listp + 8)
        ([(104, 0)] ++ (sz1, 1) :: post1) ∧
      GET s1.mem (heapTwoBlocks.heap_listp + 8 + span [(104, 0)] + sz1 - 8) =
        GET s1.mem (heapTwoBlocks.heap_listp + 8 + span [(104, 0)] - 4) ∧
      HasFooters s1.mem (heapTwoBlocks.heap_listp + 8 + span [(104, 0)]) [(sz1, 1)] :=
  ⟨by decide,
    C12_free_writes_footer hiAbove heapTwoBlocks [(104, 0)] 104 [(3888, 1)] (by decide)
      (fun _ => ScanOK_of_low hiAbove _ _ (by decide) (by decide))
      (by decide) (by decide)⟩


/-- C17 (placement and splitting), counterexample: the free block at 4112 of
the fresh heap has size 4096 and `asize = 0` is a multiple of 8 with
`asize ≤ csize` and `csize - asize ≥ 8`; after `place(4112, 0)` the header of
the block reads 4097, that is size 4096 with the bit set (free), not size 0
marked allocated. -/
theorem C17_place_zero :
    HeapIs freshHeap [(4096, 1)] ∧ freshHeap.heap_listp + 8 = 4112 ∧
    GET_SIZE freshHeap.mem (HDRP 4112) = 4096 ∧ 0 ≤ 4096 ∧ 0 % 8 = 0 ∧ 4096 % 8 = 0 ∧
    8 ≤ 4096 - 0 ∧
    GET (place freshHeap 4112 0).mem (HDRP 4112) = 4097 ∧
    ¬ (GET_SIZE (place freshHeap 4112 0).mem (HDRP 4112) = 0 ∧
       GET_ALLOC (place freshHeap 4112 0).mem (HDRP 4112) = 0) := by
  decide

/-- C17 amended (placement and splitting, for `asize ≥ 8`): for a block `bp`
whose header reads size `c` (with either bit) and every `asize` with
`8 ≤ asize ≤ c`, both multiples of 8: if `c - asize ≥ 8` then after
`place(bp, asize)` the header of `bp` reads size `asize` with the bit clear
(allocated) and the header of the block at `bp + asize` reads size `c - asize`
with the bit set (free), and the two sizes sum to `c`; otherwise the header of
`bp` reads size `c` with the bit clear; in both cases no byte outside the
original block `[bp - 4, bp + c - 4)` is changed and the allocator globals are
unchanged. -/
theorem C17_place_splits (s : State) (bp asize c fl : Nat) (h4 : 4 ≤ bp)
    (hg : GET s.mem (bp - 4) = c + fl) (hc8 : c % 8 = 0) (hfl : fl ≤ 1)
    (hlt : bp + c < W32) (ha : asize ≤ c) (ha8 : asize % 8 = 0) (hpos : 8 ≤ asize) :
    GET_SIZE s.mem (HDRP bp) = c ∧
    (8 ≤ c - asize →
      GET_SIZE (place s bp asize).mem (HDRP bp) = asize ∧
      GET_ALLOC (place s bp asize).mem (HDRP bp) = 0 ∧
      NEXT_BLKP (place s bp asize).mem bp = bp + asize ∧
      GET_SIZE (place s bp asize).mem (HDRP (bp + asize)) = c - asize ∧
      GET_ALLOC (place s bp asize).mem (HDRP (bp + asize)) = 1 ∧
      asize + (c - asize) = c) ∧
    (¬ 8 ≤ c - asize →
      GET_SIZE (place s bp asize).mem (HDRP bp) = c ∧
      GET_ALLOC (place s bp asize).mem (HDRP bp) = 0) ∧
    (∀ x, x + 4 < bp ∨ bp + c ≤ x + 4 → (place s bp asize).mem x = s.mem x) ∧
    (place s bp asize).heap_listp = s.heap_listp ∧
    (place s bp asize).mem_brk = s.mem_brk ∧
    (place s bp asize).mem_max_addr = s.mem_max_addr := by
  have hm := place_mem s bp asize c fl h4 hg hc8 hfl hlt ha ha8
  have eH : HDRP bp = bp - 4 := HDRP_eq bp h4 (by omega)
  have eH2 : HDRP (bp + asize) = bp + asize - 4 := HDRP_eq _ (by omega) (by omega)
  refine ⟨?_, ?_, ?_, ?_, place_heap_listp s bp asize, place_mem_brk s bp asize,
    place_mem_max_addr s bp asize⟩
  · rw [eH]
    exact (hdr_read s.mem _ c fl hg hc8 hfl).1
  · intro h8
    rw [if_pos h8] at hm
    have g1 : GET (place s bp asize).mem (bp - 4) = asize + 0 := by
      rw [hm, GET_PUT_ne _ _ _ _ (by omega), GET_PUT_same]
      exact Nat.mod_eq_of_lt (by omega)
    have g2 : GET (place s bp asize).mem (bp + asize - 4) = (c - asize) + 1 := by
      rw [hm, GET_PUT_same]
      exact Nat.mod_eq_of_lt (by omega)
    have r1 := hdr_read _ _ asize 0 g1 ha8 (by omega)
    have r2 := hdr_read _ _ (c - asize) 1 g2 (by omega) (by omega)
    rw [eH, eH2]
    refine ⟨r1.1, r1.2, ?_, r2.1, r2.2, by omega⟩
    unfold NEXT_BLKP
    have : psub bp WSIZE = bp - 4 := eH
    rw [this, r1.1]
    exact padd_eq _ _ (by omega)
  · intro h8
    rw [if_neg h8] at hm
    have g1 : GET (place s bp asize).mem (bp - 4) = c + 0 := by
      rw [hm, GET_PUT_same]
      exact Nat.mod_eq_of_lt (by omega)
    have r1 := hdr_read _ _ c 0 g1 hc8 (by omega)
    rw [eH]
    exact r1
  · intro x hx
    rw [hm]
    split
    · rw [PUT_byte_ne _ _ _ _ (by omega), PUT_byte_ne _ _ _ _ (by omega)]
    · rw [PUT_byte_ne _ _ _ _ (by omega)]

/-- Witness of C17 amended: `place(4112, 104)` on the free block of 4096 bytes
of the fresh heap. -/
theorem C17_place_splits_witness :
    GET freshHeap.mem (4112 - 4) = 4096 + 1 ∧
    (GET_SIZE freshHeap.mem (HDRP 4112) = 4096 ∧
    (8 ≤ 4096 - 104 →
      GET_SIZE (place freshHeap 4112 104).mem (HDRP 4112) = 104 ∧
      GET_ALLOC (place freshHeap 4112 104).mem (HDRP 4112) = 0 ∧
      NEXT_BLKP (place freshHeap 4112 104).mem 4112 = 4112 + 104 ∧
      GET_SIZE (place freshHeap 4112 104).mem (HDRP (4112 + 104)) = 4096 - 104 ∧
      GET_ALLOC (place freshHeap 4112 104).mem (HDRP (4112 + 104)) = 1 ∧
      104 + (4096 - 104) = 4096) ∧
    (¬ 8 ≤ 4096 - 104 →
      GET_SIZE (place freshHeap 4112 104).mem (HDRP 4112) = 4096 ∧
      GET_ALLOC (place freshHeap 4112 104).mem (HDRP 4112) = 0) ∧
    (∀ x, x + 4 < 4112 ∨ 4112 + 4096 ≤ x + 4 →
      (place freshHeap 4112 104).mem x = freshHeap.mem x) ∧
    (place freshHeap 4112 104).heap_listp = freshHeap.heap_listp ∧
    (place freshHeap 4112 104).mem_brk = freshHeap.mem_brk ∧
    (place freshHeap 4112 104).mem_max_addr = freshHeap.mem_max_addr) :=
  ⟨by decide,
    C17_place_splits freshHeap 4112 104 4096 1 (by decide) (by decide) (by decide) (by decide)
      (by decide) (by decide) (by decide) (by decide)⟩

end MM
